import Mathlib

/-!
# A shallow embedding of the fiber library (`fiber.c`)

Pointers are natural numbers, `0` is `NULL`.  The heap of fiber control blocks and the
heap of wait-list nodes are maps from addresses to slots; an address is never handed out
twice, so a freed slot stays freed.  Every operation returns a `Res`: it returns normally,
or it reads through a pointer that is not a live object (`fault`), or one of its loops does
not finish within the given fuel (`diverge`), or it ends the process (`exit code`).

The values returned by `malloc` (and the contents of fresh, uninitialised memory) are
arguments of the operations that allocate.
-/

namespace FiberLib

/-! ## Data model -/

/-- The three values of `Fiber.status`: `STATE_READY` (0), `STATE_BLOCKED` (1) and
`STATE_FINISHED` (2); no other value is ever stored in the field. -/
inductive Status where
  | STATE_READY
  | STATE_BLOCKED
  | STATE_FINISHED
deriving DecidableEq, Repr

open Status

/-- The part of `ucontext_t` the library sets up: successor context, stack, entry, argument. -/
structure Ucontext where
  uc_link : Nat
  ss_sp : Nat
  ss_size : Nat
  func : Nat
  arg : Nat
deriving DecidableEq, Repr

/-- A node of a wait list: `struct Waiting`. -/
structure Waiting where
  id : Nat
  next : Nat
deriving DecidableEq, Repr

/-- A fiber control block: `struct Fiber`. -/
structure Fiber where
  next : Nat
  context : Ucontext
  status : Status
  retval : Nat
  join_rval : Nat
  joinFiber : Nat
  waitList : Nat
deriving DecidableEq, Repr

/-- One address of a heap: never allocated, holding a live object, or freed. -/
inductive Slot (α : Type) where
  | unused : Slot α
  | live : α → Slot α
  | freed : Slot α
deriving DecidableEq, Repr

/-- The global `struct itimerval timer`. -/
structure Itimerval where
  value_sec : Nat
  value_usec : Nat
  interval_sec : Nat
  interval_usec : Nat
deriving DecidableEq, Repr

/-- The whole state of the library: both heaps, the fields of `*fiber_list`, the caller's
memory cells that out-pointers designate, the global `timer`, the setting of the process's
virtual interval timer (what `setitimer` installed last) and the scheduler's context. -/
structure State where
  fibers : Nat → Slot Fiber
  waits : Nat → Slot Waiting
  head : Nat
  tail : Nat
  running : Nat
  size : Nat
  cells : Nat → Nat
  timer : Itimerval
  vtimer : Itimerval
  scheduler_ctx : Ucontext

/-- Outcome of running a piece of the library. -/
inductive Res (α : Type) where
  | ok : α → Res α
  | fault : Res α
  | diverge : Res α
  | exit : Int → Res α

def FIBER_STACK_SIZE : Nat := 1024 * 64

def TIME_SLICE_SEC : Nat := 0

def TIME_SLICE_USEC : Nat := 20000

/-! ## Heap access -/

/-- Dereference of a `Fiber *`: defined only for a non-null pointer to a live block. -/
def State.fiber (s : State) (p : Nat) : Option Fiber :=
  if p = 0 then none else
  match s.fibers p with
  | Slot.live f => some f
  | _ => none

/-- Dereference of a `Waiting *`. -/
def State.wait (s : State) (p : Nat) : Option Waiting :=
  if p = 0 then none else
  match s.waits p with
  | Slot.live w => some w
  | _ => none

/-- Store into the block at `p`. -/
def State.setFiber (s : State) (p : Nat) (f : Fiber) : State :=
  { s with fibers := Function.update s.fibers p (Slot.live f) }

/-- Call `free` on the fiber block at `p`. -/
def State.freeFiber (s : State) (p : Nat) : State :=
  { s with fibers := Function.update s.fibers p Slot.freed }

/-- Store into the wait node at `p`. -/
def State.setWait (s : State) (p : Nat) (w : Waiting) : State :=
  { s with waits := Function.update s.waits p (Slot.live w) }

/-- Call `free` on the wait node at `p`. -/
def State.freeWait (s : State) (p : Nat) : State :=
  { s with waits := Function.update s.waits p Slot.freed }

/-! ## Timer -/

/-- The function `stop_timer`: zero `timer.it_value` and install the timer. -/
def stop_timer (s : State) : State :=
  let t : Itimerval := { s.timer with value_sec := 0, value_usec := 0 }
  { s with timer := t, vtimer := t }

/-- The function `start_timer`: set value and interval to the slice and install the timer. -/
def start_timer (s : State) : State :=
  let t : Itimerval :=
    { value_sec := TIME_SLICE_SEC, value_usec := TIME_SLICE_USEC,
      interval_sec := TIME_SLICE_SEC, interval_usec := TIME_SLICE_USEC }
  { s with timer := t, vtimer := t }

/-! ## Wait lists and the ring -/

/-- The function `release_fibers`: walk the wait list; a node whose `id` is a fiber that is
`STATE_BLOCKED` makes that fiber `STATE_READY` and copies the `retval` of the fiber it waits
for into its `join_rval`; every node is freed. The first argument bounds the number of nodes
walked. -/
def release_fibers : Nat → State → Nat → Res State
  | 0, _, _ => Res.diverge
  | fuel + 1, s, waitingList =>
    if waitingList = 0 then Res.ok s else
    match s.wait waitingList with
    | none => Res.fault
    | some w =>
      if w.id = 0 then release_fibers fuel (s.freeWait waitingList) w.next else
      match s.fiber w.id with
      | none => Res.fault
      | some wf =>
        if wf.status = STATE_BLOCKED then
          match s.fiber wf.joinFiber with
          | none => Res.fault
          | some jf =>
            release_fibers fuel
              ((s.setFiber w.id { wf with status := STATE_READY, join_rval := jf.retval }).freeWait
                waitingList)
              w.next
        else release_fibers fuel (s.freeWait waitingList) w.next

/-- The predecessor walk of `pop`: `while (fiber != prev_fiber->next) prev_fiber = prev_fiber->next`. -/
def popWalk : Nat → State → Nat → Nat → Res Nat
  | 0, _, _, _ => Res.diverge
  | fuel + 1, s, fiber, prev_fiber =>
    match s.fiber prev_fiber with
    | none => Res.fault
    | some pf =>
      if fiber ≠ pf.next then popWalk fuel s fiber pf.next else Res.ok prev_fiber

/-- The function `pop`: unlink a `STATE_FINISHED` fiber from the ring and free it. The
result is the returned pointer (the successor, or `NULL`) and the new state. -/
def pop (fuel : Nat) (s : State) (fiber : Nat) : Res (Nat × State) :=
  if fiber = 0 then Res.ok (0, s) else
  if s.size = 0 then Res.ok (0, s) else
  match s.fiber fiber with
  | none => Res.fault
  | some f =>
    if f.status ≠ STATE_FINISHED then Res.ok (0, s) else
    let next_fiber := f.next
    match popWalk fuel s fiber s.head with
    | Res.ok prev_fiber =>
      match s.fiber prev_fiber with
      | none => Res.fault
      | some pf =>
        let s1 := s.setFiber prev_fiber { pf with next := f.next }
        match s1.fiber fiber with
        | none => Res.fault
        | some f1 =>
          let s2 : State := { s1 with head := if fiber = s1.head then f1.next else s1.head }
          let s3 : State := { s2 with tail := if fiber = s2.tail then prev_fiber else s2.tail }
          let s4 : State := s3.freeFiber fiber
          let s5 : State := { s4 with size := s4.size - 1 }
          if s5.size = 0 then Res.ok (0, s5) else Res.ok (next_fiber, s5)
    | Res.fault => Res.fault
    | Res.diverge => Res.diverge
    | Res.exit c => Res.exit c

/-- The search loop shared by `fiber_join` and `fiber_destroy`:
`for (node = head; fiber != node && ++i <= size; node = node->next);`. The first argument
counts the iterations left and starts at `size + 1`. The result is `(i, node)`. -/
def locateLoop (s : State) (fiber : Nat) : Nat → Nat → Nat → Res (Nat × Nat)
  | 0, _, _ => Res.diverge
  | n + 1, i, fiber_node =>
    if fiber = fiber_node then Res.ok (i, fiber_node)
    else if i + 1 ≤ s.size then
      match s.fiber fiber_node with
      | none => Res.fault
      | some f => locateLoop s fiber n (i + 1) f.next
    else Res.ok (i + 1, fiber_node)

/-- The search from `head`, with `i = 0`. -/
def locate (s : State) (fiber : Nat) : Res (Nat × Nat) :=
  locateLoop s fiber (s.size + 1) 0 s.head

/-! ## Scheduler -/

/-- The end of `scheduler`: make the chosen fiber the running one and arm the timer
(then `setcontext` resumes it). -/
def commit (s : State) (nextFiber : Nat) : State :=
  start_timer
    { s with running := nextFiber,
             timer := { s.timer with value_sec := TIME_SLICE_SEC, value_usec := TIME_SLICE_USEC } }

/-- The `while (nextFiber->status != STATE_READY)` loop of `scheduler`, followed by the
commit. `fuel` bounds the inner loops, the second argument the iterations of this loop. -/
def schedLoop (fuel : Nat) : Nat → State → Nat → Res State
  | 0, _, _ => Res.diverge
  | n + 1, s, nextFiber =>
    match s.fiber nextFiber with
    | none => Res.fault
    | some nf =>
      if nf.status = STATE_READY then Res.ok (commit s nextFiber) else
      let afterFinished : Res (State × Nat) :=
        if nf.status = STATE_FINISHED then
          match release_fibers fuel s nf.waitList with
          | Res.ok s1 =>
            match pop fuel s1 nextFiber with
            | Res.ok (nx, s2) =>
              if nx = 0 then (if s2.size = 0 then Res.exit 0 else Res.exit (-1))
              else Res.ok (s2, nx)
            | Res.fault => Res.fault
            | Res.diverge => Res.diverge
            | Res.exit c => Res.exit c
          | Res.fault => Res.fault
          | Res.diverge => Res.diverge
          | Res.exit c => Res.exit c
        else Res.ok (s, nextFiber)
      match afterFinished with
      | Res.ok (s3, nx) =>
        match s3.fiber nx with
        | none => Res.fault
        | some nf3 =>
          if nf3.status = STATE_BLOCKED then
            match s3.fiber nf3.joinFiber with
            | none => Res.fault
            | some jf =>
              if jf.status ≠ STATE_FINISHED then schedLoop fuel n s3 nf3.next
              else schedLoop fuel n (s3.setFiber nx { nf3 with status := STATE_READY }) nx
          else schedLoop fuel n s3 nx
      | Res.fault => Res.fault
      | Res.diverge => Res.diverge
      | Res.exit c => Res.exit c

/-- The function `scheduler`, entered by a context switch: halt the timer, scan from the
successor of the running fiber, commit the first fiber found ready. -/
def scheduler (fuel : Nat) (s : State) : Res State :=
  let s0 := stop_timer s
  match s0.fiber s0.running with
  | none => Res.fault
  | some r => schedLoop fuel fuel s0 r.next

/-! ## Bootstrap and creation -/

/-- The context of the host thread, `parent_ctx`: a zero-initialised global. -/
def parent_ctx : Ucontext :=
  { uc_link := 0, ss_sp := 0, ss_size := 0, func := 0, arg := 0 }

/-- The address of the global `parent_ctx` (the value of `&parent_ctx`). -/
def parent_ctx_addr : Nat := 903

/-- The function `init_fiber_list` on the path where its allocations succeed: a ring that
holds only the block of the host thread. `parentFiber` is the address `malloc` returned for
that block and `junk` the contents of the fresh memory; only `context`, `next` and `status`
are assigned. `sched_sp` is the scheduler's stack and `scheduler_fn` the address of
`scheduler`. -/
def init_fiber_list (parentFiber : Nat) (junk : Fiber) (sched_sp scheduler_fn : Nat)
    (cells : Nat → Nat) : State :=
  { fibers := Function.update (fun _ => Slot.unused) parentFiber
      (Slot.live { junk with context := parent_ctx, next := parentFiber, status := STATE_READY })
    waits := fun _ => Slot.unused
    head := parentFiber
    tail := parentFiber
    size := 1
    running := parentFiber
    cells := cells
    timer := { value_sec := 0, value_usec := 0, interval_sec := 0, interval_usec := 0 }
    vtimer := { value_sec := 0, value_usec := 0, interval_sec := 0, interval_usec := 0 }
    scheduler_ctx :=
      { uc_link := parent_ctx_addr, ss_sp := sched_sp, ss_size := FIBER_STACK_SIZE,
        func := scheduler_fn, arg := 0 } }

/-- The function `push`: append the block at `fiber` after `tail`. -/
def push (s : State) (fiber : Nat) : Res State :=
  match s.fiber fiber with
  | none => Res.fault
  | some f =>
    let s1 := s.setFiber fiber { f with next := s.head }
    match s1.fiber s1.tail with
    | none => Res.fault
    | some t =>
      let s2 := s1.setFiber s1.tail { t with next := fiber }
      Res.ok { s2 with tail := fiber, size := s2.size + 1 }

/-- The function `init_fiber_attr`. -/
def init_fiber_attr (new_node : Fiber) : Fiber :=
  { new_node with next := 0, status := STATE_READY, retval := 0, join_rval := 0,
                  joinFiber := 0, waitList := 0 }

/-- What the platform hands to one call of `fiber_create`: the address `malloc` returns for
the control block (`0` when it fails), the contents of that fresh memory, whether
`getcontext` succeeds, the address `malloc` returns for the stack, and the address of
`scheduler_ctx`. -/
structure CreateEnv where
  new_node : Nat
  junk : Fiber
  getcontext_ok : Bool
  ss_sp : Nat
  scheduler_ctx_addr : Nat

/-- The function `fiber_create`. The result is the returned `int` and the new state. -/
def fiber_create (s : State) (fiber start_routine arg : Nat) (env : CreateEnv) :
    Res (Int × State) :=
  let s0 := stop_timer s
  if fiber = 0 then Res.ok (-1, s0) else
  if env.new_node = 0 then Res.ok (-1, s0) else
  let s1 := s0.setFiber env.new_node env.junk
  if env.getcontext_ok = false then Res.ok (-1, s1) else
  if env.ss_sp = 0 then Res.ok (-1, s1) else
  let context : Ucontext :=
    { uc_link := env.scheduler_ctx_addr, ss_sp := env.ss_sp, ss_size := FIBER_STACK_SIZE,
      func := start_routine, arg := arg }
  let s2 := s1.setFiber env.new_node (init_fiber_attr { env.junk with context := context })
  match push s2 env.new_node with
  | Res.ok s3 =>
    let s4 : State := { s3 with cells := Function.update s3.cells fiber env.new_node }
    Res.ok (0, start_timer s4)
  | Res.fault => Res.fault
  | Res.diverge => Res.diverge
  | Res.exit c => Res.exit c

/-! ## Join, destroy, exit -/

/-- How a call of `fiber_join` leaves the caller: it returned a code, or it switched to the
scheduler (`swapcontext`) and waits to be resumed. -/
inductive JoinResult where
  | returned : Int → State → JoinResult
  | suspended : State → JoinResult

/-- The part of `fiber_join` that puts the caller on the target's wait list: initialise the
fresh wait node (`id = fiber`, `next = NULL`), halt the timer, and make the node the first
of `fiber_node->waitList`, the old list following it. -/
def join_enqueue (s : State) (fiber fiber_node : Nat) (fn : Fiber) (waitingNode : Nat) : State :=
  let s1 := s.setWait waitingNode { id := fiber, next := 0 }
  let s2 := stop_timer s1
  if fn.waitList = 0 then s2.setFiber fiber_node { fn with waitList := waitingNode }
  else
    (s2.setFiber fiber_node { fn with waitList := waitingNode }).setWait waitingNode
      { id := fiber, next := fn.waitList }

/-- The part of `fiber_join` that blocks the caller: `running->joinFiber = fiber_node` and
`running->status = STATE_BLOCKED`. -/
def join_block (s : State) (fiber_node : Nat) : Res State :=
  match s.fiber s.running with
  | none => Res.fault
  | some r =>
    Res.ok (s.setFiber s.running { r with joinFiber := fiber_node, status := STATE_BLOCKED })

/-- The function `fiber_join` up to its `swapcontext`. `waitingNode` is the address
`malloc` returns for the wait node (`0` when it fails). The out-pointer `retval` is not
used before the switch; `fiber_join_resume` uses it. -/
def fiber_join (fuel : Nat) (s : State) (fiber _retval waitingNode : Nat) : Res JoinResult :=
  match locate s fiber with
  | Res.ok (i, fiber_node) =>
    if i > s.size then Res.ok (JoinResult.returned (-1) s) else
    if fiber_node = s.running then Res.ok (JoinResult.returned (-1) s) else
    match s.fiber fiber_node with
    | none => Res.fault
    | some fn =>
      if fn.status = STATE_FINISHED then
        match release_fibers fuel s fn.waitList with
        | Res.ok s1 => Res.ok (JoinResult.returned 0 s1)
        | Res.fault => Res.fault
        | Res.diverge => Res.diverge
        | Res.exit c => Res.exit c
      else if waitingNode = 0 then Res.ok (JoinResult.returned (-1) s)
      else
        match join_block (join_enqueue s fiber fiber_node fn waitingNode) fiber_node with
        | Res.ok s4 => Res.ok (JoinResult.suspended s4)
        | Res.fault => Res.fault
        | Res.diverge => Res.diverge
        | Res.exit c => Res.exit c
  | Res.fault => Res.fault
  | Res.diverge => Res.diverge
  | Res.exit c => Res.exit c

/-- The rest of `fiber_join`, run when the scheduler resumes the caller after its
`swapcontext`: fetch the return value if `retval` is not `NULL`, become ready, return 0. -/
def fiber_join_resume (s : State) (retval : Nat) : Res (Int × State) :=
  match s.fiber s.running with
  | none => Res.fault
  | some r =>
    let afterFetch : Res State :=
      if retval ≠ 0 then
        let written : Res State :=
          if r.join_rval = 0 ∧ r.joinFiber ≠ 0 then
            match s.fiber r.joinFiber with
            | none => Res.fault
            | some jf => Res.ok { s with cells := Function.update s.cells retval jf.retval }
          else Res.ok { s with cells := Function.update s.cells retval r.join_rval }
        match written with
        | Res.ok s1 =>
          match s1.fiber s1.running with
          | none => Res.fault
          | some r1 => Res.ok (s1.setFiber s1.running { r1 with retval := 0, join_rval := 0 })
        | Res.fault => Res.fault
        | Res.diverge => Res.diverge
        | Res.exit c => Res.exit c
      else Res.ok s
    match afterFetch with
    | Res.ok s2 =>
      match s2.fiber s2.running with
      | none => Res.fault
      | some r2 => Res.ok (0, s2.setFiber s2.running { r2 with status := STATE_READY })
    | Res.fault => Res.fault
    | Res.diverge => Res.diverge
    | Res.exit c => Res.exit c

/-- The function `fiber_destroy`. -/
def fiber_destroy (fuel : Nat) (s : State) (fiber : Nat) : Res (Int × State) :=
  match locate s fiber with
  | Res.ok (i, fiber_node) =>
    if i > s.size then Res.ok (-1, s) else
    match pop fuel s fiber_node with
    | Res.ok (nx, s1) => if nx = 0 then Res.ok (-1, s1) else Res.ok (0, s1)
    | Res.fault => Res.fault
    | Res.diverge => Res.diverge
    | Res.exit c => Res.exit c
  | Res.fault => Res.fault
  | Res.diverge => Res.diverge
  | Res.exit c => Res.exit c

/-- The function `fiber_exit` up to the `swapcontext` of `preempt`: publish the return value
and mark the running fiber finished. The scheduler runs next. -/
def fiber_exit (s : State) (retval : Nat) : Res State :=
  match s.fiber s.running with
  | none => Res.fault
  | some r =>
    let s1 := s.setFiber s.running { r with retval := retval }
    match s1.fiber s1.running with
    | none => Res.fault
    | some r1 => Res.ok (s1.setFiber s1.running { r1 with status := STATE_FINISHED })

/-- The function `fiber_self`. -/
def fiber_self (s : State) : Nat := s.running


/-! ## The ring as a sequence -/

/-- The `next` field of the block at `p` (`0` when `p` cannot be dereferenced). -/
def nextOf (s : State) (p : Nat) : Nat :=
  match s.fiber p with
  | some f => f.next
  | none => 0

/-- The first `n` blocks met when following `next` from `p`. -/
def walk (s : State) : Nat → Nat → List Nat
  | 0, _ => []
  | n + 1, p => p :: walk s n (nextOf s p)

/-- The ring sequence: the `size` blocks met when following `next` from `head`. -/
def ringList (s : State) : List Nat := walk s s.size s.head

/-- Ring well-formedness: the ring is not empty, following `next` from `head` visits `size`
distinct live blocks, ends at `tail`, and `tail->next` is `head`. -/
structure WellFormed (s : State) : Prop where
  pos : 0 < s.size
  live : ∀ p ∈ ringList s, (s.fiber p).isSome = true
  nodup : (ringList s).Nodup
  last : (ringList s).getLast? = some s.tail
  close : nextOf s s.tail = s.head

/-- Following `next` from `a` goes through exactly the blocks of `l`, all live, and
arrives at `b`. -/
def Path (s : State) : Nat → List Nat → Nat → Prop
  | a, [], b => a = b
  | a, x :: l, b => x = a ∧ ∃ f, s.fiber a = some f ∧ Path s f.next l b

/-- The status of the block at `p`, when it is live. -/
def statusOf (s : State) (p : Nat) : Option Status := (s.fiber p).map (fun f => f.status)

/-- The state `pop` leaves after unlinking the block `f`, with successor `nx`, from behind
its predecessor `prev` (whose block was `pf`). -/
def unlinked (s : State) (f prev : Nat) (pf : Fiber) (nx : Nat) : State :=
  { (s.setFiber prev { pf with next := nx }).freeFiber f with
    head := if f = s.head then nx else s.head
    tail := if f = s.tail then prev else s.tail
    size := s.size - 1 }

/-! ## Relations between states -/

/-- What `release_fibers` may do to one block: leave it as it is, or wake it (a blocked
block becomes ready and receives a `join_rval`). -/
def Woken (f g : Fiber) : Prop :=
  g = f ∨ (f.status = STATE_BLOCKED ∧ ∃ v, g = { f with status := STATE_READY, join_rval := v })

/-- The address `p` of the block heap has been handed out by `malloc` at some time. -/
def Used (s : State) (p : Nat) : Prop := s.fibers p ≠ Slot.unused

/-- The fiber at `x` has finished for good: its block is `STATE_FINISHED` or no longer
live. -/
def Gone (s : State) (x : Nat) : Prop :=
  ∀ f, s.fiber x = some f → f.status = STATE_FINISHED

/-- The state `t` differs from `s` at most as `release_fibers` can change it: the ring fields
and the memory cells are the same, no block is allocated or freed, blocks are left alone or
woken, and wait nodes are only freed. -/
structure Released (s t : State) : Prop where
  head : t.head = s.head
  tail : t.tail = s.tail
  size : t.size = s.size
  running : t.running = s.running
  cells : t.cells = s.cells
  gone : ∀ p, s.fiber p = none → t.fiber p = none
  kept : ∀ p f, s.fiber p = some f → ∃ g, t.fiber p = some g ∧ Woken f g
  waits : ∀ w nd, t.wait w = some nd → s.wait w = some nd
  used : ∀ p, Used s p → Used t p

/-- The states `s` and `t` have the same ring fields and the same `next` links (the same
addresses are live blocks, with the same successor); a block other than the running one
that had finished for good still has; no address went back to being unused. -/
structure SameLinks (s t : State) : Prop where
  head : t.head = s.head
  tail : t.tail = s.tail
  size : t.size = s.size
  running : t.running = s.running
  links : ∀ p, (t.fiber p).map (fun f => f.next) = (s.fiber p).map (fun f => f.next)
  fin : ∀ p, p ≠ s.running → Gone s p → Gone t p
  used : ∀ p, Used s p → Used t p

/-- What a block can look like after part of a scheduler scan: it still waits for the same
fiber, with the same wait list and return value, and its status is the same or went from
`STATE_BLOCKED` to `STATE_READY`. -/
def Aged (f g : Fiber) : Prop :=
  g.joinFiber = f.joinFiber ∧ g.waitList = f.waitList ∧ g.retval = f.retval ∧
    (g.status = f.status ∨ (f.status = STATE_BLOCKED ∧ g.status = STATE_READY))

/-- The state `t` can come from `s` by steps of a scheduler scan: wait nodes are only freed,
the ring only loses blocks, every live block was live before and has aged, only finished
blocks are freed, and no address went back to being unused. -/
structure Scanned (s t : State) : Prop where
  waits : ∀ w nd, t.wait w = some nd → s.wait w = some nd
  ring : ∀ p ∈ ringList t, p ∈ ringList s
  aged : ∀ p g, t.fiber p = some g → ∃ f, s.fiber p = some f ∧ Aged f g
  kept : ∀ p f, s.fiber p = some f → f.status ≠ STATE_FINISHED → ∃ g, t.fiber p = some g
  used : ∀ p, Used s p → Used t p

/-- The wait node `w` lies on the wait list that starts at `h` (every node up to `w` is
live). -/
inductive InList (s : State) : Nat → Nat → Prop where
  | here (h : Nat) (nd : Waiting) : s.wait h = some nd → InList s h h
  | there (h w : Nat) (nd : Waiting) : s.wait h = some nd → InList s nd.next w → InList s h w

/-- The fiber `b` is blocked in a join whose target is live and not finished, and no wait
list of a finished fiber of the ring holds a node that names `b`. -/
def WaitsOn (s : State) (b : Nat) : Prop :=
  (∃ fb ft, s.fiber b = some fb ∧ fb.status = STATE_BLOCKED ∧
    s.fiber fb.joinFiber = some ft ∧ ft.status ≠ STATE_FINISHED) ∧
  ∀ F ∈ ringList s, ∀ fF, s.fiber F = some fF → fF.status = STATE_FINISHED →
    ∀ w nd, InList s fF.waitList w → s.wait w = some nd → nd.id ≠ b

/-- The running fiber is a block of the well-formed ring and is `STATE_READY`. -/
structure RunnerReady (s : State) : Prop where
  wf : WellFormed s
  mem : s.running ∈ ringList s
  ready : statusOf s s.running = some STATE_READY

/-- One move of the library between two instants at which a fiber runs user code: a call
made by the running fiber that returns to it, or an entry into the scheduler (from the
timer's handler `preempt`, from the switch inside `fiber_join`, or from `fiber_exit`) that
ends with the scheduler committing a fiber. `join_resume` is the tail of `fiber_join` that
a resumed caller executes; it is allowed from every state. A block or wait node returned
by `malloc`, when `malloc` does not fail, is at an address never used before. -/
inductive Step : State → State → Prop where
  | create (s s' : State) (fiber start_routine arg : Nat) (env : CreateEnv) (code : Int) :
      (env.new_node ≠ 0 → s.fibers env.new_node = Slot.unused) →
      fiber_create s fiber start_routine arg env = Res.ok (code, s') → Step s s'
  | destroy (s s' : State) (fuel id : Nat) (code : Int) :
      fiber_destroy fuel s id = Res.ok (code, s') → Step s s'
  | join_return (s s' : State) (fuel id retval waitingNode : Nat) (code : Int) :
      (waitingNode ≠ 0 → s.waits waitingNode = Slot.unused) →
      fiber_join fuel s id retval waitingNode = Res.ok (JoinResult.returned code s') →
      Step s s'
  | join_switch (s s1 s' : State) (fuel fuel' id retval waitingNode : Nat) :
      (waitingNode ≠ 0 → s.waits waitingNode = Slot.unused) →
      fiber_join fuel s id retval waitingNode = Res.ok (JoinResult.suspended s1) →
      scheduler fuel' s1 = Res.ok s' → Step s s'
  | join_resume (s s' : State) (retval : Nat) (code : Int) :
      fiber_join_resume s retval = Res.ok (code, s') → Step s s'
  | exit (s s1 s' : State) (fuel retval : Nat) :
      fiber_exit s retval = Res.ok s1 → scheduler fuel s1 = Res.ok s' → Step s s'
  | preempt (s s' : State) (fuel : Nat) :
      scheduler fuel s = Res.ok s' → Step s s'

/-- The states the library reaches from a bootstrap state. -/
inductive Reachable : State → Prop where
  | boot (parentFiber : Nat) (junk : Fiber) (sched_sp scheduler_fn : Nat) (cells : Nat → Nat) :
      parentFiber ≠ 0 → Reachable (init_fiber_list parentFiber junk sched_sp scheduler_fn cells)
  | step (s s' : State) : Reachable s → Step s s' → Reachable s'

/-- Any number of moves. -/
inductive Steps : State → State → Prop where
  | refl (s : State) : Steps s s
  | tail (s t u : State) : Steps s t → Step t u → Steps s u

/-! ## Time slices -/

/-- The state after `n` consecutive expiries of the timer: each one enters the scheduler
through `preempt`, and nothing else happens in between. -/
def slices (fuel : Nat) : Nat → State → Res State
  | 0, s => Res.ok s
  | n + 1, s =>
    match slices fuel n s with
    | Res.ok t => scheduler fuel t
    | Res.fault => Res.fault
    | Res.diverge => Res.diverge
    | Res.exit c => Res.exit c

/-- The fiber selected by scheduler invocation number `j` (counted from 0). -/
def selected (fuel : Nat) (s : State) (j : Nat) : Option Nat :=
  match slices fuel (j + 1) s with
  | Res.ok t => some t.running
  | _ => none

/-! ## Sample states -/

/-- A block with the given `next` and `status` and every other field zero. -/
def blankFiber (next : Nat) (status : Status) : Fiber :=
  { next := next, context := parent_ctx, status := status, retval := 0, join_rval := 0,
    joinFiber := 0, waitList := 0 }

/-- The bootstrap state used in the examples: the host thread's block is at address 1, its
unassigned fields are zero, every memory cell holds 7. -/
def bootState : State := init_fiber_list 1 (blankFiber 0 STATE_READY) 900 901 (fun _ => 7)

/-- The platform of the examples' calls of `fiber_create`: the new block is at `new_node`,
its stack at `new_node + 500`. -/
def sampleEnv (new_node : Nat) : CreateEnv :=
  { new_node := new_node, junk := blankFiber 0 STATE_READY, getcontext_ok := true,
    ss_sp := new_node + 500, scheduler_ctx_addr := 902 }

/-- The state of a successful run, or the bootstrap state when the run did not return. -/
def Res.stateOr (r : Res State) : State :=
  match r with
  | Res.ok s => s
  | _ => bootState

/-- The state a call that returns an `int` leaves behind. -/
def Res.after (r : Res (Int × State)) : State :=
  match r with
  | Res.ok (_, s) => s
  | _ => bootState

/-- The host thread created one fiber (block 2, out-pointer 100). -/
def createdOne : State := (fiber_create bootState 100 50 0 (sampleEnv 2)).after

/-- The timer expired and the scheduler switched to fiber 2. -/
def fiberTwoRuns : State := (scheduler 4 createdOne).stateOr

/-- Fiber 2 called `fiber_exit(42)`: the state at the switch to the scheduler. -/
def fiberTwoExited : State := (fiber_exit fiberTwoRuns 42).stateOr

/-- The scheduler switched back to the host thread; fiber 2 is finished and still in the
ring. -/
def hostResumed : State := (scheduler 4 fiberTwoExited).stateOr

/-- The host thread called `fiber_exit(5)` right after bootstrap: the state at the switch to
the scheduler, a ring whose only block is finished. -/
def loneFinished : State := (fiber_exit bootState 5).stateOr

/-- The state in which a call of `fiber_join` switched to the scheduler, or the bootstrap
state when the call returned or failed. -/
def Res.suspendedOr (r : Res JoinResult) : State :=
  match r with
  | Res.ok (JoinResult.suspended s) => s
  | _ => bootState

/-- The host thread created a second fiber (block 3): the ring is 1, 2, 3. -/
def createdTwo : State := (fiber_create createdOne 100 51 0 (sampleEnv 3)).after

/-- The host thread called `fiber_join(3, &out)` with `out` at 101 and the wait node at 300:
the state at its switch to the scheduler. The host thread is blocked on fiber 3, which is
ready. -/
def hostJoins : State := (fiber_join 4 createdTwo 3 101 300).suspendedOr

/-- After `hostJoins` the scheduler switched to fiber 2. -/
def fiberTwoAfterJoin : State := (scheduler 4 hostJoins).stateOr

/-- The timer expired and the scheduler switched to fiber 3. -/
def fiberThreeRuns : State := (scheduler 4 fiberTwoAfterJoin).stateOr

/-- Fiber 3 called `fiber_exit(42)`: the state at the switch to the scheduler. -/
def fiberThreeExited : State := (fiber_exit fiberThreeRuns 42).stateOr

/-- The scheduler found the host thread blocked on the finished fiber 3, made it ready and
switched to it: the host thread is about to run the rest of its `fiber_join`. -/
def hostWoken : State := (scheduler 4 fiberThreeExited).stateOr

/-! ## Proper wait lists -/

/-- The wait list that starts at `h` is made of the distinct live nodes `l`, in this order,
and ends with `NULL`. -/
def Chain (s : State) : Nat → List Nat → Prop
  | h, [] => h = 0
  | h, w :: l => h = w ∧ w ∉ l ∧ ∃ nd, s.wait w = some nd ∧ Chain s nd.next l

/-- Every wait list of a block of the ring is a proper list of at most `L` nodes, and each
of its nodes names the block that owns the list (`fiber_join` stores the id of the target in
the node it puts on the target's list). -/
def OwnLists (s : State) (L : Nat) : Prop :=
  ∀ p ∈ ringList s, ∀ f, s.fiber p = some f →
    ∃ l, Chain s f.waitList l ∧ l.length ≤ L ∧ ∀ w ∈ l, ∀ nd, s.wait w = some nd → nd.id = p

/-! ## More sample states -/

/-- The state a call of `fiber_join` that returned leaves behind, or the bootstrap state
when the call did not return. -/
def Res.returnedOr (r : Res JoinResult) : State :=
  match r with
  | Res.ok (JoinResult.returned _ s) => s
  | _ => bootState

/-- After `hostWoken` the host thread ran the rest of its `fiber_join(3, &out)`, which
returned 0. Fiber 3 is finished and still in the ring, and its wait list still holds the
node at 300. -/
def hostReturned : State := (fiber_join_resume hostWoken 101).after

/-- The host thread called `fiber_join(3, NULL)` once more: the fast path freed the node at
300 and returned 0. -/
def joinedAgain : State := (fiber_join 4 hostReturned 3 0 0).returnedOr

/-- After `hostReturned` the host thread called `fiber_exit(7)`: the state at the switch to
the scheduler. -/
def hostLeft : State := (fiber_exit hostReturned 7).stateOr

/-- The scheduler switched to fiber 2. -/
def fiberTwoLast : State := (scheduler 4 hostLeft).stateOr

/-- Fiber 2 called `fiber_exit(8)`: every block of the ring 1, 2, 3 is finished. -/
def allExited : State := (fiber_exit fiberTwoLast 8).stateOr

/-- The host thread entered `fiber_join(2, &out)` in `createdOne`, found fiber 2 not
finished, and the timer expired before it reached `stop_timer`; fiber 2 ran and called
`fiber_exit(42)` and the scheduler switched back to the host thread (`hostResumed`), which
went on with its call: wait node at 300, enqueue, block. This is the state at its switch to
the scheduler: the host thread is blocked on fiber 2, which is finished. -/
def lateJoin : State :=
  match hostResumed.fiber 2 with
  | some fn => (join_block (join_enqueue hostResumed 2 2 fn 300) 2).stateOr
  | none => bootState

/-- In `createdTwo` the host thread called `fiber_join(2, &out)` with the wait node at 300:
the state at its switch to the scheduler. -/
def hostJoinsTwo : State := (fiber_join 4 createdTwo 2 101 300).suspendedOr

/-- The scheduler switched to fiber 2. -/
def fiberTwoJoined : State := (scheduler 4 hostJoinsTwo).stateOr

/-- Fiber 2 called `fiber_exit(42)`: the state at the switch to the scheduler. -/
def fiberTwoLeft : State := (fiber_exit fiberTwoJoined 42).stateOr

/-- The scheduler switched to fiber 3; the host thread is still blocked on fiber 2. -/
def fiberThreeNext : State := (scheduler 4 fiberTwoLeft).stateOr

/-- Fiber 3 called `fiber_destroy(2)`, which returned 0. -/
def targetDestroyed : State := (fiber_destroy 4 fiberThreeNext 2).after

/-- In `createdOne` the host thread called `fiber_exit(5)`: the state at the switch to the
scheduler. -/
def hostExited : State := (fiber_exit createdOne 5).stateOr

/-- The scheduler switched to fiber 2. -/
def fiberTwoOnly : State := (scheduler 4 hostExited).stateOr

/-- The timer expired; the scheduler reaped the block of the host thread and switched back
to fiber 2, the only block left in the ring. -/
def hostReaped : State := (scheduler 4 fiberTwoOnly).stateOr

/-- The state inside the call `fiber_create(&id, 50, 0)` made in `bootState`, right before
its `push(new_node)`: the timer is halted and the new block, at address 2, is initialised
and not yet linked into the ring. -/
def beforePush : State :=
  ((stop_timer bootState).setFiber 2 (sampleEnv 2).junk).setFiber 2
    (init_fiber_attr { (sampleEnv 2).junk with
      context := { uc_link := (sampleEnv 2).scheduler_ctx_addr, ss_sp := (sampleEnv 2).ss_sp,
                   ss_size := FIBER_STACK_SIZE, func := 50, arg := 0 } })

/-! ## A fiber that has not finished -/

/-- The block `m` is a member of the ring and its fiber has not finished. -/
def Alive (s : State) (m : Nat) : Prop :=
  m ∈ ringList s ∧ ∃ f, s.fiber m = some f ∧ f.status ≠ STATE_FINISHED

/-! ## Selection by the scheduler -/

/-- The scheduler can select the fiber `p`: it is `STATE_READY`, or it is `STATE_BLOCKED`
and the fiber it waits for is `STATE_FINISHED`. -/
def Eligible (s : State) (p : Nat) : Prop :=
  ∃ f, s.fiber p = some f ∧ (f.status = STATE_READY ∨
    (f.status = STATE_BLOCKED ∧ ∃ jf, s.fiber f.joinFiber = some jf ∧
      jf.status = STATE_FINISHED))

/-- The fiber `p` is `STATE_BLOCKED` and the fiber it waits for is live and not
`STATE_FINISHED`. -/
def Stuck (s : State) (p : Nat) : Prop :=
  ∃ f jf, s.fiber p = some f ∧ f.status = STATE_BLOCKED ∧ s.fiber f.joinFiber = some jf ∧
    jf.status ≠ STATE_FINISHED

/-- No node on the wait list of a finished fiber of the ring names a blocked fiber
(`fiber_join` stores the id of the target, which owns the list, in the node). -/
def QuietLists (s : State) : Prop :=
  ∀ F ∈ ringList s, ∀ fF, s.fiber F = some fF → fF.status = STATE_FINISHED →
    ∀ w nd, InList s fF.waitList w → s.wait w = some nd →
      ∀ fb, s.fiber nd.id = some fb → fb.status ≠ STATE_BLOCKED

/-- What became of a fiber `q` that a scan starting in state `b` and committing in state
`s'` passed over: it was blocked on an unfinished fiber and is still in the ring, its block
unchanged, or changed in its `next` link alone when the successor it had was finished and
has been freed; or it was finished itself and has been unlinked and freed. -/
def PassedOver (b s' : State) (q : Nat) : Prop :=
  (Stuck b q ∧ q ∈ ringList s' ∧
    ∃ f g, b.fiber q = some f ∧ s'.fiber q = some g ∧
      (g = f ∨ (g = { f with next := g.next } ∧ statusOf b f.next = some STATE_FINISHED ∧
        s'.fiber f.next = none))) ∨
  (statusOf b q = some STATE_FINISHED ∧ q ∉ ringList s' ∧ s'.fiber q = none)

/-- The scan that started in state `b` at the fiber `a` committed in state `s'`: the running
fiber of `s'` is the first fiber met from `a` that `b` allowed to select, it is now
`STATE_READY`, and the fibers met before it were passed over. -/
def Selected (b : State) (a : Nat) (s' : State) : Prop :=
  ∃ k, k < b.size ∧ s'.running = (nextOf b)^[k] a ∧ Eligible b s'.running ∧
    statusOf s' s'.running = some STATE_READY ∧
    ∀ i, i < k → PassedOver b s' ((nextOf b)^[i] a)

/-- The scan that started in state `b` at the fiber `a` is in state `t` at its `j`-th
fiber `c`. -/
structure ScanInv (b : State) (a : Nat) (t : State) (c : Nat) (j : Nat) : Prop where
  hj : j < b.size
  hc : c = (nextOf b)^[j] a
  wf : WellFormed t
  mem : c ∈ ringList t
  sc : Scanned b t
  same : ∀ q g, t.fiber q = some g → ∃ f, b.fiber q = some f ∧ g = { f with next := g.next }
  links : ∀ i, j ≤ i → i + 1 < b.size →
    ∃ g, t.fiber ((nextOf b)^[i] a) = some g ∧ g.next = (nextOf b)^[i + 1] a
  nexts : ∀ q g f, t.fiber q = some g → b.fiber q = some f →
    g.next = f.next ∨ (statusOf b f.next = some STATE_FINISHED ∧ t.fiber f.next = none)
  passed : ∀ i, i < j →
    (Stuck b ((nextOf b)^[i] a) ∧ (nextOf b)^[i] a ∈ ringList t) ∨
    (statusOf b ((nextOf b)^[i] a) = some STATE_FINISHED ∧ (nextOf b)^[i] a ∉ ringList t ∧
      t.fiber ((nextOf b)^[i] a) = none)

/-- Every fiber of the ring is blocked on an unfinished fiber: the scan goes round for
ever. -/
def AllStuck (t : State) (c : Nat) : Prop :=
  WellFormed t ∧ c ∈ ringList t ∧ ∀ q ∈ ringList t, Stuck t q

/-- What the loop of the scheduler maintains. -/
def ScanState (b : State) (a : Nat) (t : State) (c : Nat) : Prop :=
  (∃ j, ScanInv b a t c j) ∨ AllStuck t c ∨
    ∃ nf, t.fiber c = some nf ∧ nf.status = STATE_READY ∧ Selected b a (commit t c)

/-- After `fiberTwoAfterJoin` fiber 2 called `fiber_exit(9)`: the state at the switch to the
scheduler. -/
def fiberTwoGone : State := (fiber_exit fiberTwoAfterJoin 9).stateOr

/-- The scheduler switched to fiber 3. The host thread (block 1) is blocked on fiber 3 and
fiber 2 is finished. -/
def fiberThreeAlone : State := (scheduler 4 fiberTwoGone).stateOr

/-- The timer expired: the scheduler passed over the host thread, reaped fiber 2 and
switched back to fiber 3. -/
def fiberThreeAgain : State := (scheduler 4 fiberThreeAlone).stateOr

/-! ## Fibers named by a wait list -/

/-- Some node of the list `l` names the fiber `p`. -/
def Names (s : State) (l : List Nat) (p : Nat) : Prop :=
  ∃ w ∈ l, ∃ nd, s.wait w = some nd ∧ nd.id = p

/-! ## Join targets and the order of the scan -/

/-- Every blocked fiber met by a scan of the ring that starts at the block `a` waits for a
fiber of the ring, and when that fiber is finished the scan meets the blocked fiber before
it (so that the target is still in the ring when the scan looks at it). -/
def JoinOrderFrom (s : State) (a : Nat) : Prop :=
  ∀ i, i < s.size → ∀ f, s.fiber ((nextOf s)^[i] a) = some f → f.status = STATE_BLOCKED →
    ∃ j, j < s.size ∧ f.joinFiber = (nextOf s)^[j] a ∧
      (statusOf s f.joinFiber = some STATE_FINISHED → i < j)

/-- The property `JoinOrderFrom` for the scan of the scheduler, which starts at the
successor of the running fiber. -/
def JoinOrder (s : State) : Prop := JoinOrderFrom s (nextOf s s.running)

/-- Every wait list of a finished block of the ring is a proper list of at most `L` nodes,
and each of its nodes names the block that owns the list. -/
def OwnFinished (s : State) (L : Nat) : Prop :=
  ∀ p ∈ ringList s, ∀ f, s.fiber p = some f → f.status = STATE_FINISHED →
    ∃ l, Chain s f.waitList l ∧ l.length ≤ L ∧ ∀ w ∈ l, ∀ nd, s.wait w = some nd → nd.id = p

/-- The scan of `ScanInv` is at its `j`-th fiber, the fibers it has not met yet are all
still in the ring, and the wait lists of the finished fibers of the ring are still proper
lists of own nodes. -/
structure ScanLive (b : State) (a L : Nat) (t : State) (c j : Nat) : Prop where
  inv : ScanInv b a t c j
  own : OwnFinished t L
  rest : ∀ i, j ≤ i → i < b.size → (nextOf b)^[i] a ∈ ringList t
  size : t.size ≤ b.size

/-! ## The blocks a scan visits -/

/-- The outcome of a scan without its record of visited blocks. -/
def Res.dropVisits (r : Res (State × List Nat)) : Res State :=
  match r with
  | Res.ok (s, _) => Res.ok s
  | Res.fault => Res.fault
  | Res.diverge => Res.diverge
  | Res.exit c => Res.exit c

/-- The loop of `scheduler` (`schedLoop`) with a record of the blocks it visits: `visited`
lists, in order, the values that `nextFiber` has taken so far, and each assignment to
`nextFiber` (from `pop`, or from `nextFiber->next`) adds one. Nothing else differs from
`schedLoop`. -/
def schedLoopVisits (fuel : Nat) : Nat → State → Nat → List Nat → Res (State × List Nat)
  | 0, _, _, _ => Res.diverge
  | n + 1, s, nextFiber, visited =>
    match s.fiber nextFiber with
    | none => Res.fault
    | some nf =>
      if nf.status = STATE_READY then Res.ok (commit s nextFiber, visited) else
      let afterFinished : Res (State × Nat × List Nat) :=
        if nf.status = STATE_FINISHED then
          match release_fibers fuel s nf.waitList with
          | Res.ok s1 =>
            match pop fuel s1 nextFiber with
            | Res.ok (nx, s2) =>
              if nx = 0 then (if s2.size = 0 then Res.exit 0 else Res.exit (-1))
              else Res.ok (s2, nx, visited ++ [nx])
            | Res.fault => Res.fault
            | Res.diverge => Res.diverge
            | Res.exit c => Res.exit c
          | Res.fault => Res.fault
          | Res.diverge => Res.diverge
          | Res.exit c => Res.exit c
        else Res.ok (s, nextFiber, visited)
      match afterFinished with
      | Res.ok (s3, nx, v3) =>
        match s3.fiber nx with
        | none => Res.fault
        | some nf3 =>
          if nf3.status = STATE_BLOCKED then
            match s3.fiber nf3.joinFiber with
            | none => Res.fault
            | some jf =>
              if jf.status ≠ STATE_FINISHED then
                schedLoopVisits fuel n s3 nf3.next (v3 ++ [nf3.next])
              else schedLoopVisits fuel n (s3.setFiber nx { nf3 with status := STATE_READY }) nx v3
          else schedLoopVisits fuel n s3 nx v3
      | Res.fault => Res.fault
      | Res.diverge => Res.diverge
      | Res.exit c => Res.exit c

/-- The function `scheduler` with the record of the blocks its loop visits; the first one
is the successor of the running fiber. -/
def schedulerVisits (fuel : Nat) (s : State) : Res (State × List Nat) :=
  let s0 := stop_timer s
  match s0.fiber s0.running with
  | none => Res.fault
  | some r => schedLoopVisits fuel fuel s0 r.next [r.next]

/-! ## A run with an unassigned wait list -/

/-- A bootstrap state in which the fresh memory of the host thread's block holds 300 in the
word of `waitList`, a field that `init_fiber_list` does not assign. -/
def bootJunk : State :=
  init_fiber_list 1 { blankFiber 0 STATE_READY with waitList := 300 } 900 901 (fun _ => 7)

/-- The host thread created fiber 2. -/
def junkOne : State := (fiber_create bootJunk 100 50 0 (sampleEnv 2)).after

/-- The host thread created fiber 3. -/
def junkTwo : State := (fiber_create junkOne 100 51 0 (sampleEnv 3)).after

/-- The host thread created fiber 4: the ring is 1, 2, 3, 4. -/
def junkThree : State := (fiber_create junkTwo 100 52 0 (sampleEnv 4)).after

/-- The timer expired and the scheduler switched to fiber 2. -/
def junkTwoRuns : State := (scheduler 5 junkThree).stateOr

/-- Fiber 2 called `fiber_join(3, NULL)` with the wait node at 301: the state at its switch
to the scheduler. -/
def junkTwoJoins : State := (fiber_join 5 junkTwoRuns 3 0 301).suspendedOr

/-- The scheduler switched to fiber 3. -/
def junkThreeRuns : State := (scheduler 5 junkTwoJoins).stateOr

/-- The timer expired and the scheduler switched to fiber 4. -/
def junkFourRuns : State := (scheduler 5 junkThreeRuns).stateOr

/-- Fiber 4 called `fiber_join(2, NULL)` and `malloc` placed the wait node at 300: the
state at its switch to the scheduler. -/
def junkFourJoins : State := (fiber_join 5 junkFourRuns 2 0 300).suspendedOr

/-- The scheduler switched to the host thread. -/
def junkHostRuns : State := (scheduler 5 junkFourJoins).stateOr

/-- The host thread called `fiber_exit(5)`: the state at the switch to the scheduler. -/
def junkHostExits : State := (fiber_exit junkHostRuns 5).stateOr

/-- The scheduler passed over fiber 2, which is blocked on fiber 3, and switched to fiber 3.
The block of the host thread is finished and still in the ring; its `waitList` is 300, the
node of the join of fiber 4 on fiber 2. -/
def junkAtThree : State := (scheduler 5 junkHostExits).stateOr

/-- The timer expired: the state in which the scheduler commits. -/
def junkWoken : State := (scheduler 5 junkAtThree).stateOr

/-! ## Runs after the fast path of join -/

/-- After `joinedAgain` the timer expired and the scheduler switched to fiber 2. -/
def rejoinTwoRuns : State := (scheduler 4 joinedAgain).stateOr

/-- After `joinedAgain` the host thread called `fiber_exit(7)`: the state at the switch to
the scheduler. -/
def rejoinHostLeft : State := (fiber_exit joinedAgain 7).stateOr

/-- The scheduler switched to fiber 2. -/
def rejoinTwoLast : State := (scheduler 4 rejoinHostLeft).stateOr

/-- Fiber 2 called `fiber_exit(8)`: every block of the ring 1, 2, 3 is finished. -/
def rejoinAllExited : State := (fiber_exit rejoinTwoLast 8).stateOr

/-! ## Heap lemmas -/

theorem fiber_ne_zero {s : State} {p : Nat} {f : Fiber} (h : s.fiber p = some f) : p ≠ 0 := by
  intro hp
  simp [State.fiber, hp] at h

theorem wait_ne_zero {s : State} {p : Nat} {w : Waiting} (h : s.wait p = some w) : p ≠ 0 := by
  intro hp
  simp [State.wait, hp] at h

theorem fiber_setFiber (s : State) (p q : Nat) (f : Fiber) :
    (s.setFiber p f).fiber q = if q = p then (if q = 0 then none else some f) else s.fiber q := by
  by_cases h : q = p
  · subst h
    simp [State.fiber, State.setFiber]
  · simp [State.fiber, State.setFiber, Function.update_noteq h, h]

theorem fiber_setFiber_self {s : State} {p : Nat} (f : Fiber) (hp : p ≠ 0) :
    (s.setFiber p f).fiber p = some f := by
  simp [fiber_setFiber, hp]

theorem fiber_setFiber_ne {s : State} {p q : Nat} (f : Fiber) (h : q ≠ p) :
    (s.setFiber p f).fiber q = s.fiber q := by
  simp [fiber_setFiber, h]

theorem fiber_freeFiber (s : State) (p q : Nat) :
    (s.freeFiber p).fiber q = if q = p then none else s.fiber q := by
  by_cases h : q = p
  · subst h
    simp [State.fiber, State.freeFiber]
  · simp [State.fiber, State.freeFiber, Function.update_noteq h, h]

@[simp] theorem fiber_setWait (s : State) (p q : Nat) (w : Waiting) :
    (s.setWait p w).fiber q = s.fiber q := rfl

@[simp] theorem fiber_freeWait (s : State) (p q : Nat) :
    (s.freeWait p).fiber q = s.fiber q := rfl

@[simp] theorem wait_setFiber (s : State) (p q : Nat) (f : Fiber) :
    (s.setFiber p f).wait q = s.wait q := rfl

@[simp] theorem wait_freeFiber (s : State) (p q : Nat) :
    (s.freeFiber p).wait q = s.wait q := rfl

theorem wait_setWait (s : State) (p q : Nat) (w : Waiting) :
    (s.setWait p w).wait q = if q = p then (if q = 0 then none else some w) else s.wait q := by
  by_cases h : q = p
  · subst h
    simp [State.wait, State.setWait]
  · simp [State.wait, State.setWait, Function.update_noteq h, h]

theorem wait_freeWait (s : State) (p q : Nat) :
    (s.freeWait p).wait q = if q = p then none else s.wait q := by
  by_cases h : q = p
  · subst h
    simp [State.wait, State.freeWait]
  · simp [State.wait, State.freeWait, Function.update_noteq h, h]

@[simp] theorem setFiber_head (s : State) (p : Nat) (f : Fiber) :
    (s.setFiber p f).head = s.head := rfl

@[simp] theorem setFiber_tail (s : State) (p : Nat) (f : Fiber) :
    (s.setFiber p f).tail = s.tail := rfl

@[simp] theorem setFiber_running (s : State) (p : Nat) (f : Fiber) :
    (s.setFiber p f).running = s.running := rfl

@[simp] theorem setFiber_size (s : State) (p : Nat) (f : Fiber) :
    (s.setFiber p f).size = s.size := rfl

@[simp] theorem setFiber_cells (s : State) (p : Nat) (f : Fiber) :
    (s.setFiber p f).cells = s.cells := rfl

@[simp] theorem freeFiber_head (s : State) (p : Nat) : (s.freeFiber p).head = s.head := rfl

@[simp] theorem freeFiber_tail (s : State) (p : Nat) : (s.freeFiber p).tail = s.tail := rfl

@[simp] theorem freeFiber_running (s : State) (p : Nat) :
    (s.freeFiber p).running = s.running := rfl

@[simp] theorem freeFiber_size (s : State) (p : Nat) : (s.freeFiber p).size = s.size := rfl

@[simp] theorem setWait_head (s : State) (p : Nat) (w : Waiting) :
    (s.setWait p w).head = s.head := rfl

@[simp] theorem setWait_tail (s : State) (p : Nat) (w : Waiting) :
    (s.setWait p w).tail = s.tail := rfl

@[simp] theorem setWait_running (s : State) (p : Nat) (w : Waiting) :
    (s.setWait p w).running = s.running := rfl

@[simp] theorem setWait_size (s : State) (p : Nat) (w : Waiting) :
    (s.setWait p w).size = s.size := rfl

@[simp] theorem freeWait_head (s : State) (p : Nat) : (s.freeWait p).head = s.head := rfl

@[simp] theorem freeWait_tail (s : State) (p : Nat) : (s.freeWait p).tail = s.tail := rfl

@[simp] theorem freeWait_running (s : State) (p : Nat) :
    (s.freeWait p).running = s.running := rfl

@[simp] theorem freeWait_size (s : State) (p : Nat) : (s.freeWait p).size = s.size := rfl

@[simp] theorem freeWait_cells (s : State) (p : Nat) : (s.freeWait p).cells = s.cells := rfl

@[simp] theorem stop_timer_fiber (s : State) (p : Nat) : (stop_timer s).fiber p = s.fiber p := rfl

@[simp] theorem stop_timer_wait (s : State) (p : Nat) : (stop_timer s).wait p = s.wait p := rfl

@[simp] theorem stop_timer_head (s : State) : (stop_timer s).head = s.head := rfl

@[simp] theorem stop_timer_tail (s : State) : (stop_timer s).tail = s.tail := rfl

@[simp] theorem stop_timer_running (s : State) : (stop_timer s).running = s.running := rfl

@[simp] theorem stop_timer_size (s : State) : (stop_timer s).size = s.size := rfl

@[simp] theorem stop_timer_cells (s : State) : (stop_timer s).cells = s.cells := rfl

@[simp] theorem start_timer_fiber (s : State) (p : Nat) :
    (start_timer s).fiber p = s.fiber p := rfl

@[simp] theorem start_timer_head (s : State) : (start_timer s).head = s.head := rfl

@[simp] theorem start_timer_tail (s : State) : (start_timer s).tail = s.tail := rfl

@[simp] theorem start_timer_running (s : State) : (start_timer s).running = s.running := rfl

@[simp] theorem start_timer_size (s : State) : (start_timer s).size = s.size := rfl

@[simp] theorem start_timer_cells (s : State) : (start_timer s).cells = s.cells := rfl

@[simp] theorem commit_fiber (s : State) (n p : Nat) : (commit s n).fiber p = s.fiber p := rfl

@[simp] theorem commit_head (s : State) (n : Nat) : (commit s n).head = s.head := rfl

@[simp] theorem commit_tail (s : State) (n : Nat) : (commit s n).tail = s.tail := rfl

@[simp] theorem commit_size (s : State) (n : Nat) : (commit s n).size = s.size := rfl

@[simp] theorem commit_running (s : State) (n : Nat) : (commit s n).running = n := rfl

/-! ## Paths and the ring sequence -/

theorem nextOf_eq {s : State} {p : Nat} {f : Fiber} (h : s.fiber p = some f) :
    nextOf s p = f.next := by
  simp [nextOf, h]

theorem Path.congr {s t : State} {l : List Nat}
    (h : ∀ p ∈ l, (t.fiber p).map (fun f => f.next) = (s.fiber p).map (fun f => f.next)) :
    ∀ {a b : Nat}, Path s a l b → Path t a l b := by
  induction l with
  | nil => intro a b hp; exact hp
  | cons x l ih =>
    intro a b hp
    obtain ⟨hx, f, hf, hrest⟩ := hp
    subst hx
    have hx := h x (List.mem_cons_self _ _)
    rw [hf] at hx
    cases hg : t.fiber x with
    | none => simp [hg] at hx
    | some g =>
      simp [hg] at hx
      refine ⟨rfl, g, hg, ?_⟩
      rw [hx]
      exact ih (fun p hp => h p (List.mem_cons_of_mem _ hp)) hrest

theorem path_append {s : State} {l1 l2 : List Nat} :
    ∀ {a c : Nat}, Path s a (l1 ++ l2) c ↔ ∃ b, Path s a l1 b ∧ Path s b l2 c := by
  induction l1 with
  | nil =>
    intro a c
    constructor
    · intro h; exact ⟨a, rfl, h⟩
    · rintro ⟨b, hb, h⟩
      have : a = b := hb
      subst this
      exact h
  | cons x l ih =>
    intro a c
    constructor
    · rintro ⟨hx, f, hf, hrest⟩
      obtain ⟨b, h1, h2⟩ := ih.mp hrest
      exact ⟨b, ⟨hx, f, hf, h1⟩, h2⟩
    · rintro ⟨b, ⟨hx, f, hf, h1⟩, h2⟩
      exact ⟨hx, f, hf, ih.mpr ⟨b, h1, h2⟩⟩

theorem path_live {s : State} {l : List Nat} :
    ∀ {a b : Nat}, Path s a l b → ∀ p ∈ l, ∃ f, s.fiber p = some f := by
  induction l with
  | nil => intro a b _ p hp; simp at hp
  | cons x l ih =>
    intro a b h p hp
    obtain ⟨hx, f, hf, hrest⟩ := h
    rcases List.mem_cons.mp hp with rfl | hp
    · exact ⟨f, hx ▸ hf⟩
    · exact ih hrest p hp

theorem path_walk_eq {s : State} {l : List Nat} :
    ∀ {a b : Nat}, Path s a l b → walk s l.length a = l := by
  induction l with
  | nil => intro a b _; rfl
  | cons x l ih =>
    intro a b h
    obtain ⟨hx, f, hf, hrest⟩ := h
    subst hx
    simp only [List.length_cons, walk, nextOf_eq hf]
    rw [ih hrest]

theorem path_of_walk {s : State} :
    ∀ (n a : Nat), (∀ p ∈ walk s n a, (s.fiber p).isSome = true) →
      Path s a (walk s n a) ((nextOf s)^[n] a) := by
  intro n
  induction n with
  | zero => intro a _; rfl
  | succ n ih =>
    intro a h
    have ha := h a (by simp [walk])
    obtain ⟨f, hf⟩ := Option.isSome_iff_exists.mp ha
    refine ⟨rfl, f, hf, ?_⟩
    have := ih (nextOf s a) (fun p hp => h p (by simp [walk, hp]))
    rw [Function.iterate_succ_apply, ← nextOf_eq hf]
    exact this

theorem walk_length (s : State) : ∀ (n a : Nat), (walk s n a).length = n := by
  intro n
  induction n with
  | zero => intro a; rfl
  | succ n ih => intro a; simp [walk, ih]

theorem walk_getLast (s : State) :
    ∀ (n a : Nat), (walk s (n + 1) a).getLast? = some ((nextOf s)^[n] a) := by
  intro n
  induction n with
  | zero => intro a; rfl
  | succ n ih =>
    intro a
    have h := ih (nextOf s a)
    rw [walk, List.getLast?_cons, h]
    simp [Function.iterate_succ_apply]

/-- The ring seen as a path: it starts and ends at `head`, has `size` distinct blocks and
its last block is `tail`. -/
theorem WellFormed.path {s : State} (h : WellFormed s) :
    Path s s.head (ringList s) s.head := by
  have hp := path_of_walk s.size s.head h.live
  obtain ⟨n, hn⟩ : ∃ n, s.size = n + 1 := ⟨s.size - 1, by have := h.pos; omega⟩
  have hl := walk_getLast s n s.head
  have hlast := h.last
  unfold ringList at hlast hp ⊢
  rw [hn] at hlast hp ⊢
  rw [hl] at hlast
  have ht : (nextOf s)^[n] s.head = s.tail := by simpa using hlast
  have hc := h.close
  rw [← ht, ← Function.iterate_succ_apply' (nextOf s) n s.head] at hc
  rw [hc] at hp
  exact hp

theorem ringList_length {s : State} : (ringList s).length = s.size := walk_length s _ _

theorem wellFormed_of_path (s : State) (l : List Nat) (hp : Path s s.head l s.head)
    (hne : l ≠ []) (hnd : l.Nodup) (hlen : l.length = s.size) (hlast : l.getLast? = some s.tail) :
    WellFormed s ∧ ringList s = l := by
  have hrl : ringList s = l := by
    unfold ringList
    rw [← hlen]
    exact path_walk_eq hp
  refine ⟨⟨?_, ?_, ?_, ?_, ?_⟩, hrl⟩
  · rw [← hlen]
    exact List.length_pos.mpr hne
  · intro p hp'
    rw [hrl] at hp'
    obtain ⟨f, hf⟩ := path_live hp p hp'
    simp [hf]
  · rw [hrl]; exact hnd
  · rw [hrl]; exact hlast
  · obtain ⟨l', rfl⟩ : ∃ l', l = l' ++ [s.tail] := by
      rcases List.eq_nil_or_concat l with h | ⟨l', x, rfl⟩
      · exact absurd h hne
      · simp at hlast
        exact ⟨l', by simp [hlast]⟩
    obtain ⟨b, _, hb⟩ := path_append.mp hp
    obtain ⟨hx, f, hf, hfn⟩ := hb
    have hfn' : f.next = s.head := hfn
    rw [hx, nextOf_eq hf, hfn']

/-! ## The search loop -/

theorem locateLoop_notin {s : State} {id : Nat} :
    ∀ (l : List Nat) (a b i n : Nat), Path s a l b → id ∉ l → id ≠ b →
      i + l.length = s.size → l.length < n →
      locateLoop s id n i a = Res.ok (s.size + 1, b) := by
  intro l
  induction l with
  | nil =>
    intro a b i n hp _ hb hi hn
    have hab : a = b := hp
    subst hab
    obtain ⟨m, rfl⟩ : ∃ m, n = m + 1 := ⟨n - 1, by simp at hn; omega⟩
    simp at hi
    simp [locateLoop, hb, hi]
  | cons x l ih =>
    intro a b i n hp hx hb hi hn
    obtain ⟨hxa, f, hf, hrest⟩ := hp
    subst hxa
    obtain ⟨m, rfl⟩ : ∃ m, n = m + 1 := ⟨n - 1, by simp at hn; omega⟩
    have hne : id ≠ x := fun h => hx (h ▸ List.mem_cons_self _ _)
    have hle : i + 1 ≤ s.size := by simp at hi; omega
    simp only [locateLoop, hne, if_false, hle, if_true, hf]
    exact ih f.next b (i + 1) m hrest (fun h => hx (List.mem_cons_of_mem _ h)) hb
      (by simp at hi; omega) (by simp at hn; omega)

theorem locateLoop_mem {s : State} {id : Nat} :
    ∀ (l : List Nat) (a b i n : Nat), Path s a l b → id ∈ l →
      i + l.length ≤ s.size → l.length ≤ n →
      ∃ j, j < s.size ∧ locateLoop s id n i a = Res.ok (j, id) := by
  intro l
  induction l with
  | nil => intro a b i n _ hx; simp at hx
  | cons x l ih =>
    intro a b i n hp hx hi hn
    obtain ⟨hxa, f, hf, hrest⟩ := hp
    subst hxa
    obtain ⟨m, rfl⟩ : ∃ m, n = m + 1 := ⟨n - 1, by simp at hn; omega⟩
    by_cases hid : id = x
    · subst hid
      exact ⟨i, by simp at hi; omega, by simp [locateLoop]⟩
    · have hle : i + 1 ≤ s.size := by simp at hi; omega
      have hmem : id ∈ l := by
        rcases List.mem_cons.mp hx with h | h
        · exact absurd h hid
        · exact h
      simp only [locateLoop, hid, if_false, hle, if_true, hf]
      exact ih f.next b (i + 1) m hrest hmem (by simp at hi; omega) (by simp at hn; omega)

theorem head_mem_ringList {s : State} (h : WellFormed s) : s.head ∈ ringList s := by
  obtain ⟨n, hn⟩ : ∃ n, s.size = n + 1 := ⟨s.size - 1, by have := h.pos; omega⟩
  simp [ringList, hn, walk]

theorem locate_notin {s : State} {id : Nat} (h : WellFormed s) (hn : id ∉ ringList s) :
    locate s id = Res.ok (s.size + 1, s.head) := by
  have hne : id ≠ s.head := fun e => hn (e ▸ head_mem_ringList h)
  exact locateLoop_notin (ringList s) s.head s.head 0 (s.size + 1) h.path hn hne
    (by simp [ringList_length]) (by simp [ringList_length])

theorem locate_mem {s : State} {id : Nat} (h : WellFormed s) (hm : id ∈ ringList s) :
    ∃ j, j < s.size ∧ locate s id = Res.ok (j, id) :=
  locateLoop_mem (ringList s) s.head s.head 0 (s.size + 1) h.path hm
    (by simp [ringList_length]) (by simp [ringList_length])

theorem fiber_join_reject (fuel : Nat) (s : State) (hwf : WellFormed s)
    (id retval waitingNode : Nat) (h : id ∉ ringList s ∨ id = s.running) :
    fiber_join fuel s id retval waitingNode = Res.ok (JoinResult.returned (-1) s) := by
  by_cases hm : id ∈ ringList s
  · obtain ⟨j, hj, hloc⟩ := locate_mem hwf hm
    have hr : id = s.running := h.resolve_left (fun hn => hn hm)
    have hj' : ¬ j > s.size := by omega
    rw [hr] at hloc ⊢
    simp [fiber_join, hloc, hj']
  · simp [fiber_join, locate_notin hwf hm]

theorem fiber_destroy_reject (fuel : Nat) (s : State) (hwf : WellFormed s) (id : Nat)
    (h : id ∉ ringList s ∨ statusOf s id = some STATE_READY ∨
      statusOf s id = some STATE_BLOCKED) :
    fiber_destroy fuel s id = Res.ok (-1, s) := by
  by_cases hm : id ∈ ringList s
  · obtain ⟨j, hj, hloc⟩ := locate_mem hwf hm
    have hj' : ¬ j > s.size := by omega
    have hst : statusOf s id = some STATE_READY ∨ statusOf s id = some STATE_BLOCKED :=
      h.resolve_left (fun hn => hn hm)
    have hpos := hwf.pos
    have hs0 : s.size ≠ 0 := by omega
    cases hf : s.fiber id with
    | none => simp [statusOf, hf] at hst
    | some f =>
      have hne : f.status ≠ STATE_FINISHED := by
        simp only [statusOf, hf, Option.map_some', Option.some.injEq] at hst
        rcases hst with h | h <;> simp [h]
      have hid := fiber_ne_zero hf
      simp [fiber_destroy, hloc, hj', pop, hid, hs0, hf, hne]
  · simp [fiber_destroy, locate_notin hwf hm]

/-! ## Unlinking -/

theorem Path.frame {s t : State} {l : List Nat} (h : ∀ p ∈ l, t.fiber p = s.fiber p)
    {a b : Nat} (hp : Path s a l b) : Path t a l b :=
  Path.congr (fun p hp => by rw [h p hp]) hp

theorem popWalk_path {s : State} {f : Nat} :
    ∀ (m : List Nat) (a prev fuel : Nat) (pf : Fiber), Path s a m prev →
      (∀ x ∈ m, nextOf s x ≠ f) → s.fiber prev = some pf → pf.next = f → m.length < fuel →
      popWalk fuel s f a = Res.ok prev := by
  intro m
  induction m with
  | nil =>
    intro a prev fuel pf hp _ hpf hn hfuel
    have hab : a = prev := hp
    subst hab
    obtain ⟨k, rfl⟩ : ∃ k, fuel = k + 1 := ⟨fuel - 1, by simp at hfuel; omega⟩
    simp [popWalk, hpf, hn]
  | cons x m ih =>
    intro a prev fuel pf hp hx hpf hn hfuel
    obtain ⟨hxa, g, hg, hrest⟩ := hp
    subst hxa
    obtain ⟨k, rfl⟩ : ∃ k, fuel = k + 1 := ⟨fuel - 1, by simp at hfuel; omega⟩
    have hne : f ≠ g.next := by
      have := hx x (List.mem_cons_self _ _)
      rw [nextOf_eq hg] at this
      exact fun e => this e.symm
    simp only [popWalk, hg, hne, ne_eq, not_false_eq_true, if_true]
    exact ih g.next prev k pf hrest (fun y hy => hx y (List.mem_cons_of_mem _ hy)) hpf hn
      (by simp at hfuel; omega)

theorem pop_unlink {s : State} {f prev : Nat} {ff pf : Fiber} {fuel : Nat}
    (hf : s.fiber f = some ff) (hfin : ff.status = STATE_FINISHED) (hsize : s.size ≠ 0)
    (hwalk : popWalk fuel s f s.head = Res.ok prev) (hpf : s.fiber prev = some pf)
    (hne : prev ≠ f) :
    pop fuel s f =
      Res.ok (if s.size - 1 = 0 then 0 else ff.next, unlinked s f prev pf ff.next) := by
  have hf0 := fiber_ne_zero hf
  have hf1 : (s.setFiber prev { pf with next := ff.next }).fiber f = some ff := by
    rw [fiber_setFiber_ne _ (Ne.symm hne), hf]
  unfold pop
  simp only [hf0, if_false, hsize, hf, hfin, ne_eq, not_true_eq_false, hwalk, hpf, hf1]
  by_cases hz : s.size - 1 = 0
  · simp only [State.freeFiber, State.setFiber, if_pos hz, unlinked]
  · simp only [State.freeFiber, State.setFiber, if_neg hz, if_false, unlinked]

theorem unlinked_fiber (s : State) (f prev : Nat) (pf : Fiber) (nx q : Nat) :
    (unlinked s f prev pf nx).fiber q =
      if q = f then none
      else if q = prev then (if q = 0 then none else some { pf with next := nx })
      else s.fiber q := by
  have h : (unlinked s f prev pf nx).fiber q
      = ((s.setFiber prev { pf with next := nx }).freeFiber f).fiber q := rfl
  rw [h, fiber_freeFiber, fiber_setFiber]

theorem unlinked_fiber_other {s : State} {f prev : Nat} {pf : Fiber} {nx q : Nat}
    (h1 : q ≠ f) (h2 : q ≠ prev) : (unlinked s f prev pf nx).fiber q = s.fiber q := by
  simp [unlinked_fiber, h1, h2]

theorem unlinked_fiber_prev {s : State} {f prev : Nat} {pf : Fiber} {nx : Nat}
    (h1 : prev ≠ f) (h2 : prev ≠ 0) :
    (unlinked s f prev pf nx).fiber prev = some { pf with next := nx } := by
  simp [unlinked_fiber, h1, h2]

theorem unlinked_fiber_self (s : State) (f prev : Nat) (pf : Fiber) (nx : Nat) :
    (unlinked s f prev pf nx).fiber f = none := by
  simp [unlinked_fiber]

theorem list_nil_or_snoc {α : Type} (l : List α) : l = [] ∨ ∃ l' x, l = l' ++ [x] := by
  rcases List.eq_nil_or_concat l with h | ⟨l', x, h⟩
  · exact Or.inl h
  · exact Or.inr ⟨l', x, by rw [h, List.concat_eq_append]⟩

theorem path_next_tail {s : State} {l : List Nat} :
    ∀ {a b : Nat}, Path s a l b → ∀ x ∈ l, nextOf s x ∈ l.tail ∨ nextOf s x = b := by
  induction l with
  | nil => intro a b _ x hx; simp at hx
  | cons y l ih =>
    intro a b h x hx
    obtain ⟨hy, f, hf, hrest⟩ := h
    subst hy
    rcases List.mem_cons.mp hx with rfl | hx
    · rw [nextOf_eq hf]
      cases l with
      | nil => right; exact hrest
      | cons z l =>
        left
        have : z = f.next := hrest.1
        simp [this]
    · rcases ih hrest x hx with h | h
      · left; exact List.mem_of_mem_tail h
      · right; exact h

theorem path_start_mem {s : State} {l : List Nat} {a b : Nat} (h : Path s a l b)
    (hne : l ≠ []) : a ∈ l := by
  cases l with
  | nil => exact absurd rfl hne
  | cons x l => rw [h.1]; exact List.mem_cons_self _ _

/-- Unlinking a finished member of a well-formed ring with at least two blocks: `pop`
returns the successor, the ring sequence loses exactly that block and stays well formed. -/
theorem pop_ring (fuel : Nat) {s : State} {f : Nat} {ff : Fiber} (hwf : WellFormed s)
    (hm : f ∈ ringList s) (hf : s.fiber f = some ff) (hfin : ff.status = STATE_FINISHED)
    (h2 : 2 ≤ s.size) (hfuel : s.size ≤ fuel) :
    ∃ prev pf, prev ∈ ringList s ∧ prev ≠ f ∧ s.fiber prev = some pf ∧ pf.next = f ∧
      pop fuel s f = Res.ok (ff.next, unlinked s f prev pf ff.next) ∧
      WellFormed (unlinked s f prev pf ff.next) ∧
      ringList (unlinked s f prev pf ff.next) = (ringList s).erase f ∧
      ff.next ∈ (ringList s).erase f ∧
      (ringList s).getLast? = some s.tail ∧
      (f = s.tail → ((ringList s).erase f).getLast? = some prev) := by
  have hp := hwf.path
  have hnd := hwf.nodup
  have hlen : (ringList s).length = s.size := ringList_length
  have hlast := hwf.last
  obtain ⟨l1, l2, hl⟩ := List.append_of_mem hm
  rw [hl] at hp hnd hlen hlast
  have hsz : ¬ (s.size - 1 = 0) := by omega
  have hs0 : s.size ≠ 0 := by omega
  have hf0 := fiber_ne_zero hf
  have hfl1 : f ∉ l1 := by
    intro h
    have := (List.nodup_append.mp hnd).2.2
    exact this h (List.mem_cons_self _ _)
  have hfl2 : f ∉ l2 := by
    have := (List.nodup_append.mp hnd).2.1
    exact (List.nodup_cons.mp this).1
  have hnd12 : (l1 ++ l2).Nodup := by
    have h1 := (List.nodup_append.mp hnd)
    refine List.nodup_append.mpr ⟨h1.1, (List.nodup_cons.mp h1.2.1).2, ?_⟩
    intro x hx1 hx2
    exact h1.2.2 hx1 (List.mem_cons_of_mem _ hx2)
  have herase : (l1 ++ f :: l2).erase f = l1 ++ l2 := by
    rw [List.erase_append_right _ hfl1, List.erase_cons_head]
  obtain ⟨b, hp1, hp2⟩ := path_append.mp hp
  obtain ⟨hb, ff', hff', hp3⟩ := hp2
  subst hb
  rw [hf] at hff'
  cases hff'
  rw [hl, herase]
  rcases list_nil_or_snoc l1 with h1 | ⟨l1', p, h1⟩
  · -- the unlinked block is the head
    subst h1
    have hhead : s.head = f := hp1
    rcases list_nil_or_snoc l2 with h2' | ⟨l2', t, h2'⟩
    · subst h2'
      simp at hlen
      omega
    subst h2'
    have htail : s.tail = t := by
      have : (([] : List Nat) ++ f :: (l2' ++ [t])) = (f :: l2') ++ [t] := by simp
      rw [this, List.getLast?_concat] at hlast
      exact (Option.some.inj hlast).symm
    obtain ⟨c, hp4, hp5⟩ := path_append.mp hp3
    obtain ⟨hc, tf, htf, htn⟩ := hp5
    subst hc
    have htn' : tf.next = s.head := htn
    have htf' : t ≠ f := fun e => hfl2 (e ▸ by simp)
    have ht0 := fiber_ne_zero htf
    have hwalkpath : Path s f (f :: l2') t := ⟨rfl, ff, hf, hp4⟩
    have hnext : ∀ x ∈ f :: l2', nextOf s x ≠ f := by
      intro x hx e
      rcases path_next_tail hwalkpath x hx with h | h
      · rw [e] at h
        exact hfl2 (by simp at h; simp [h])
      · rw [e] at h
        exact htf' h.symm
    have hwalk : popWalk fuel s f s.head = Res.ok t := by
      rw [hhead]
      exact popWalk_path (f :: l2') f t fuel tf hwalkpath hnext htf (by rw [htn', hhead])
        (by simp at hlen ⊢; omega)
    have hpop := pop_unlink hf hfin hs0 hwalk htf htf'
    rw [if_neg hsz] at hpop
    have hframe : ∀ q ∈ l2', (unlinked s f t tf ff.next).fiber q = s.fiber q := by
      intro q hq
      have hqf : q ≠ f := fun e => hfl2 (e ▸ by simp [hq])
      have hqt : q ≠ t := by
        intro e
        have := (List.nodup_append.mp hnd12).2.1
        have := (List.nodup_append.mp this).2.2
        exact this (e ▸ hq) (by simp)
      exact unlinked_fiber_other hqf hqt
    have hnewpath : Path (unlinked s f t tf ff.next) ff.next (l2' ++ [t]) ff.next :=
      path_append.mpr ⟨t, Path.frame hframe hp4,
        ⟨rfl, _, unlinked_fiber_prev htf' ht0, rfl⟩⟩
    have hh' : (unlinked s f t tf ff.next).head = ff.next := by simp [unlinked, hhead]
    have ht' : (unlinked s f t tf ff.next).tail = t := by
      simp [unlinked, htail, Ne.symm htf']
    have hsz' : (unlinked s f t tf ff.next).size = s.size - 1 := rfl
    have hwf' := wellFormed_of_path (unlinked s f t tf ff.next) (l2' ++ [t])
      (by rw [hh']; exact hnewpath) (by simp) (by simpa using hnd12)
      (by rw [hsz']; simp at hlen ⊢; omega) (by rw [ht']; simp)
    refine ⟨t, tf, by simp, htf', htf, by rw [htn', hhead], hpop, hwf'.1, ?_, ?_, ?_, ?_⟩
    · simpa using hwf'.2
    · simpa using path_start_mem hp3 (by simp)
    · rw [← hl]; exact hwf.last
    · intro e
      exact absurd (htail ▸ e).symm htf'
  · -- the unlinked block has a predecessor before it in the sequence
    subst h1
    obtain ⟨c, hp4, hp5⟩ := path_append.mp hp1
    obtain ⟨hc, pf, hpf, hpn⟩ := hp5
    subst hc
    have hpn' : pf.next = f := hpn
    have hpf' : p ≠ f := fun e => hfl1 (e ▸ by simp)
    have hp0 := fiber_ne_zero hpf
    have hheadmem : s.head ∈ l1' ++ [p] := path_start_mem hp1 (by simp)
    have hhead : f ≠ s.head := fun e => hfl1 (e ▸ hheadmem)
    have hnd1 : (l1' ++ [p]).Nodup := (List.nodup_append.mp hnd12).1
    have hpl1 : p ∉ l1' := by
      intro h
      exact (List.nodup_append.mp hnd1).2.2 h (by simp)
    have hnext : ∀ x ∈ l1', nextOf s x ≠ f := by
      intro x hx e
      rcases path_next_tail hp4 x hx with h | h
      · rw [e] at h
        exact hfl1 (by simp [List.mem_of_mem_tail h])
      · rw [e] at h
        exact hpf' h.symm
    have hwalk : popWalk fuel s f s.head = Res.ok p :=
      popWalk_path l1' s.head p fuel pf hp4 hnext hpf hpn' (by simp at hlen; omega)
    have hpop := pop_unlink hf hfin hs0 hwalk hpf hpf'
    rw [if_neg hsz] at hpop
    have hframe1 : ∀ q ∈ l1', (unlinked s f p pf ff.next).fiber q = s.fiber q := by
      intro q hq
      exact unlinked_fiber_other (fun e => hfl1 (e ▸ by simp [hq])) (fun e => hpl1 (e ▸ hq))
    have hframe2 : ∀ q ∈ l2, (unlinked s f p pf ff.next).fiber q = s.fiber q := by
      intro q hq
      refine unlinked_fiber_other (fun e => hfl2 (e ▸ hq)) ?_
      intro e
      exact (List.nodup_append.mp hnd12).2.2 (show p ∈ l1' ++ [p] by simp) (e ▸ hq)
    have hh' : (unlinked s f p pf ff.next).head = s.head := by simp [unlinked, hhead]
    have hnewpath : Path (unlinked s f p pf ff.next) s.head ((l1' ++ [p]) ++ l2) s.head :=
      path_append.mpr ⟨ff.next, path_append.mpr ⟨p, Path.frame hframe1 hp4,
        ⟨rfl, _, unlinked_fiber_prev hpf' hp0, rfl⟩⟩, Path.frame hframe2 hp3⟩
    have hsz' : (unlinked s f p pf ff.next).size = s.size - 1 := rfl
    have hlast' : ((l1' ++ [p]) ++ l2).getLast? = some (unlinked s f p pf ff.next).tail := by
      rcases list_nil_or_snoc l2 with h2' | ⟨l2', t, h2'⟩
      · subst h2'
        have : s.tail = f := by
          have e : (l1' ++ [p]) ++ [f] = (l1' ++ [p]) ++ [f] := rfl
          rw [List.getLast?_concat] at hlast
          exact (Option.some.inj hlast).symm
        simp [unlinked, this]
      · subst h2'
        have htail : s.tail = t := by
          have e : (l1' ++ [p]) ++ f :: (l2' ++ [t]) = ((l1' ++ [p]) ++ f :: l2') ++ [t] := by
            simp
          rw [e, List.getLast?_concat] at hlast
          exact (Option.some.inj hlast).symm
        have hft : f ≠ s.tail := fun e => hfl2 (by rw [e, htail]; simp)
        have e : (l1' ++ [p]) ++ (l2' ++ [t]) = ((l1' ++ [p]) ++ l2') ++ [t] := by simp
        rw [e, List.getLast?_concat]
        have hft' : f ≠ t := htail ▸ hft
        simp [unlinked, hft', htail]
    have hwf' := wellFormed_of_path (unlinked s f p pf ff.next) ((l1' ++ [p]) ++ l2)
      (by rw [hh']; exact hnewpath) (by simp) hnd12
      (by rw [hsz']; simp at hlen ⊢; omega) hlast'
    refine ⟨p, pf, by simp, hpf', hpf, hpn', hpop, hwf'.1, hwf'.2, ?_, ?_, ?_⟩
    · cases l2 with
      | nil =>
        have : ff.next = s.head := hp3
        rw [this]
        simpa using hheadmem
      | cons z l2 =>
        have : z = ff.next := hp3.1
        simp [this]
    · rw [← hl]; exact hwf.last
    · intro e
      rw [hlast']
      simp [unlinked, e]


/-! ## Appending -/

theorem tail_mem_ringList {s : State} (h : WellFormed s) : s.tail ∈ ringList s :=
  List.mem_of_getLast?_eq_some h.last

theorem ring_live {s : State} (h : WellFormed s) {p : Nat} (hp : p ∈ ringList s) :
    ∃ f, s.fiber p = some f :=
  Option.isSome_iff_exists.mp (h.live p hp)

theorem ring_append_of_notin {s : State} (t : State) {new : Nat} {fn : Fiber}
    (hwf : WellFormed s) (hnotin : new ∉ ringList s) (hhead : t.head = s.head) (htail : t.tail = new)
    (hsize : t.size = s.size + 1) (hnew : t.fiber new = some fn) (hfn : fn.next = s.head)
    (hold : ∃ f, t.fiber s.tail = some f ∧ f.next = new)
    (hframe : ∀ p, p ≠ new → p ≠ s.tail → t.fiber p = s.fiber p) :
    WellFormed t ∧ ringList t = ringList s ++ [new] := by
  have hp := hwf.path
  have hnd := hwf.nodup
  have hlast := hwf.last
  have hlen : (ringList s).length = s.size := ringList_length
  rcases list_nil_or_snoc (ringList s) with hnil | ⟨l', x, hl⟩
  · rw [hnil] at hlast
    simp at hlast
  rw [hl] at hp hnd hlast hlen hnotin ⊢
  have hx : x = s.tail := by
    rw [List.getLast?_concat] at hlast
    exact Option.some.inj hlast
  subst hx
  obtain ⟨c, hp1, hp2⟩ := path_append.mp hp
  obtain ⟨hc, tf, htf, _⟩ := hp2
  subst hc
  obtain ⟨f', hf', hf'n⟩ := hold
  have hframe' : ∀ q ∈ l', t.fiber q = s.fiber q := by
    intro q hq
    refine hframe q (fun e => hnotin (e ▸ by simp [hq])) ?_
    intro e
    exact (List.nodup_append.mp hnd).2.2 (e ▸ hq) (by simp)
  have hnewpath : Path t s.head ((l' ++ [s.tail]) ++ [new]) s.head :=
    path_append.mpr ⟨new, path_append.mpr ⟨s.tail, Path.frame hframe' hp1,
      ⟨rfl, f', hf', hf'n⟩⟩, ⟨rfl, fn, hnew, hfn⟩⟩
  have hnd' : ((l' ++ [s.tail]) ++ [new]).Nodup := by
    refine List.nodup_append.mpr ⟨hnd, by simp, ?_⟩
    intro a ha hb
    have : a = new := by simpa using hb
    exact hnotin (this ▸ ha)
  exact wellFormed_of_path t _ (by rw [hhead]; exact hnewpath) (by simp) hnd'
    (by rw [hsize]; simp at hlen ⊢; omega) (by rw [htail, List.getLast?_concat])

theorem ring_append {s t : State} {new : Nat} {fn : Fiber} (hwf : WellFormed s)
    (hfresh : s.fiber new = none) (hhead : t.head = s.head) (htail : t.tail = new)
    (hsize : t.size = s.size + 1) (hnew : t.fiber new = some fn) (hfn : fn.next = s.head)
    (hold : ∃ f, t.fiber s.tail = some f ∧ f.next = new)
    (hframe : ∀ p, p ≠ new → p ≠ s.tail → t.fiber p = s.fiber p) :
    WellFormed t ∧ ringList t = ringList s ++ [new] := by
  have hnotin : new ∉ ringList s := by
    intro h
    obtain ⟨f, hf⟩ := ring_live hwf h
    rw [hfresh] at hf
    cases hf
  exact ring_append_of_notin t hwf hnotin hhead htail hsize hnew hfn hold hframe

theorem push_eq {s : State} {new : Nat} {f t : Fiber} (hnew : s.fiber new = some f)
    (htail : s.fiber s.tail = some t) (hne : s.tail ≠ new) :
    push s new =
      Res.ok { (s.setFiber new { f with next := s.head }).setFiber s.tail
                 { t with next := new } with
               tail := new, size := s.size + 1 } := by
  have h1 : (s.setFiber new { f with next := s.head }).fiber s.tail = some t := by
    rw [fiber_setFiber_ne _ hne, htail]
  simp only [push, hnew, setFiber_tail, h1, setFiber_size]

/-- The state a successful `fiber_create` leaves. -/
theorem fiber_create_eq (s : State) (fiber start_routine arg : Nat) (env : CreateEnv)
    {t : Fiber} (hout : fiber ≠ 0) (hnode : env.new_node ≠ 0)
    (hfresh : s.fiber env.new_node = none) (htail : s.fiber s.tail = some t)
    (hctx : env.getcontext_ok = true) (hstack : env.ss_sp ≠ 0) :
    ∃ s', fiber_create s fiber start_routine arg env = Res.ok (0, s') ∧
      s'.cells fiber = env.new_node ∧ s'.head = s.head ∧ s'.tail = env.new_node ∧
      s'.size = s.size + 1 ∧ s'.running = s.running ∧ s'.waits = s.waits ∧
      s'.fiber env.new_node =
        some { env.junk with
          context := { uc_link := env.scheduler_ctx_addr, ss_sp := env.ss_sp,
                       ss_size := FIBER_STACK_SIZE, func := start_routine, arg := arg }
          next := s.head, status := STATE_READY, retval := 0, join_rval := 0, joinFiber := 0,
          waitList := 0 } ∧
      s'.fiber s.tail = some { t with next := env.new_node } ∧
      (∀ p, p ≠ env.new_node → p ≠ s.tail → s'.fiber p = s.fiber p) ∧
      s'.vtimer = { value_sec := TIME_SLICE_SEC, value_usec := TIME_SLICE_USEC,
                    interval_sec := TIME_SLICE_SEC, interval_usec := TIME_SLICE_USEC } ∧
      (∀ p, s.fibers p ≠ Slot.unused → s'.fibers p ≠ Slot.unused) := by
  have hne : s.tail ≠ env.new_node := by
    intro e
    rw [e, hfresh] at htail
    cases htail
  have ht0 := fiber_ne_zero htail
  let s2 := ((stop_timer s).setFiber env.new_node env.junk).setFiber env.new_node
    (init_fiber_attr { env.junk with context :=
      { uc_link := env.scheduler_ctx_addr, ss_sp := env.ss_sp, ss_size := FIBER_STACK_SIZE,
        func := start_routine, arg := arg } })
  have h2new : s2.fiber env.new_node = some (init_fiber_attr { env.junk with context :=
      { uc_link := env.scheduler_ctx_addr, ss_sp := env.ss_sp, ss_size := FIBER_STACK_SIZE,
        func := start_routine, arg := arg } }) := fiber_setFiber_self _ hnode
  have h2tail : s2.fiber s2.tail = some t := by
    show s2.fiber s.tail = some t
    rw [fiber_setFiber_ne _ hne, fiber_setFiber_ne _ hne]
    exact htail
  have hpush := push_eq h2new h2tail hne
  simp only [fiber_create, hout, hnode, if_false, hctx, hstack, Bool.true_eq_false]
  simp only [s2] at hpush
  simp only [hpush]
  refine ⟨_, rfl, ?_, ?_, ?_, ?_, ?_, ?_, ?_, ?_, ?_, ?_, ?_⟩
  rotate_right
  · intro p hp
    simp only [start_timer, stop_timer, State.setFiber, Function.update_apply]
    split_ifs <;> simp [hp]
  · simp
  · rfl
  · rfl
  · rfl
  · rfl
  · rfl
  · simp only [start_timer_fiber]
    show (((s2.setFiber env.new_node _).setFiber s.tail _)).fiber env.new_node = _
    rw [fiber_setFiber_ne _ (Ne.symm hne), fiber_setFiber_self _ hnode]
    rfl
  · simp only [start_timer_fiber]
    show (((s2.setFiber env.new_node _).setFiber s.tail _)).fiber s.tail = _
    rw [fiber_setFiber_self _ ht0]
  · intro p hp1 hp2
    simp only [start_timer_fiber]
    show (((s2.setFiber env.new_node _).setFiber s.tail _)).fiber p = _
    rw [fiber_setFiber_ne _ hp2, fiber_setFiber_ne _ hp1]
    show (((stop_timer s).setFiber env.new_node _).setFiber env.new_node _).fiber p = _
    rw [fiber_setFiber_ne _ hp1, fiber_setFiber_ne _ hp1]
    rfl
  · rfl

theorem pop_single (fuel : Nat) {s : State} {f : Nat} {ff : Fiber} (hwf : WellFormed s)
    (hm : f ∈ ringList s) (hf : s.fiber f = some ff) (hfin : ff.status = STATE_FINISHED)
    (h1 : s.size = 1) (hfuel : 1 ≤ fuel) :
    ∃ s', pop fuel s f = Res.ok (0, s') ∧ s'.size = 0 := by
  have hrl : ringList s = [s.head] := by simp [ringList, h1, walk]
  have hfh : f = s.head := by simpa [hrl] using hm
  have hth : s.tail = s.head := by
    have := hwf.last
    rw [hrl] at this
    simpa using this.symm
  have hnext : ff.next = f := by
    have := hwf.close
    rw [hth, ← hfh, nextOf_eq hf] at this
    rw [this, hfh]
  have hf0 := fiber_ne_zero hf
  obtain ⟨k, rfl⟩ : ∃ k, fuel = k + 1 := ⟨fuel - 1, by omega⟩
  have hwalk : popWalk (k + 1) s f s.head = Res.ok f := by
    rw [← hfh]
    simp [popWalk, hf, hnext]
  have hs0 : s.size ≠ 0 := by omega
  have hf1 : (s.setFiber f { ff with next := ff.next }).fiber f
      = some { ff with next := ff.next } := fiber_setFiber_self _ hf0
  have hz : s.size - 1 = 0 := by omega
  have hfin' : ¬ (ff.status ≠ STATE_FINISHED) := fun h => h hfin
  unfold pop
  simp only [hf0, if_false, hs0, hf, if_neg hfin', hwalk, hf1]
  simp only [State.freeFiber, State.setFiber, hz, if_true]
  exact ⟨_, rfl, rfl⟩

/-! ## Releasing waiters -/

theorem used_setFiber (s : State) (p : Nat) (f : Fiber) {q : Nat} (h : Used s q) :
    Used (s.setFiber p f) q := by
  unfold Used State.setFiber
  by_cases hq : q = p
  · subst hq
    simp
  · simpa [Function.update_noteq hq] using h

theorem used_freeFiber (s : State) (p : Nat) {q : Nat} (h : Used s q) :
    Used (s.freeFiber p) q := by
  unfold Used State.freeFiber
  by_cases hq : q = p
  · subst hq
    simp
  · simpa [Function.update_noteq hq] using h

theorem Woken.same (f : Fiber) : Woken f f := Or.inl rfl

theorem Woken.chain {f g h : Fiber} (h1 : Woken f g) (h2 : Woken g h) : Woken f h := by
  rcases h1 with rfl | ⟨hb, v, rfl⟩
  · exact h2
  · rcases h2 with rfl | ⟨hb', _⟩
    · exact Or.inr ⟨hb, v, rfl⟩
    · simp at hb'

theorem Woken.next {f g : Fiber} (h : Woken f g) : g.next = f.next := by
  rcases h with rfl | ⟨_, v, rfl⟩ <;> rfl

theorem Woken.retval {f g : Fiber} (h : Woken f g) : g.retval = f.retval := by
  rcases h with rfl | ⟨_, v, rfl⟩ <;> rfl

theorem Woken.joinFiber {f g : Fiber} (h : Woken f g) : g.joinFiber = f.joinFiber := by
  rcases h with rfl | ⟨_, v, rfl⟩ <;> rfl

theorem Woken.waitList {f g : Fiber} (h : Woken f g) : g.waitList = f.waitList := by
  rcases h with rfl | ⟨_, v, rfl⟩ <;> rfl

theorem Woken.of_not_blocked {f g : Fiber} (h : Woken f g) (hb : f.status ≠ STATE_BLOCKED) :
    g = f := by
  rcases h with rfl | ⟨hb', _⟩
  · rfl
  · exact absurd hb' hb

theorem Woken.status {f g : Fiber} (h : Woken f g) :
    g.status = f.status ∨ (f.status = STATE_BLOCKED ∧ g.status = STATE_READY) := by
  rcases h with rfl | ⟨hb, v, rfl⟩
  · exact Or.inl rfl
  · exact Or.inr ⟨hb, rfl⟩

theorem Released.nop (s : State) : Released s s :=
  ⟨rfl, rfl, rfl, rfl, rfl, fun _ h => h, fun _ f h => ⟨f, h, Woken.same f⟩, fun _ _ h => h,
    fun _ h => h⟩

theorem Released.andThen {s t u : State} (h1 : Released s t) (h2 : Released t u) :
    Released s u := by
  refine ⟨h2.head.trans h1.head, h2.tail.trans h1.tail, h2.size.trans h1.size,
    h2.running.trans h1.running, h2.cells.trans h1.cells, fun p h => h2.gone p (h1.gone p h),
    ?_, fun w nd h => h1.waits w nd (h2.waits w nd h), fun p h => h2.used p (h1.used p h)⟩
  intro p f hf
  obtain ⟨g, hg, hw⟩ := h1.kept p f hf
  obtain ⟨k, hk, hw'⟩ := h2.kept p g hg
  exact ⟨k, hk, hw.chain hw'⟩

theorem released_freeWait (s : State) (w : Nat) : Released s (s.freeWait w) := by
  refine ⟨rfl, rfl, rfl, rfl, rfl, fun _ h => h, fun _ f h => ⟨f, h, Woken.same f⟩, ?_,
    fun _ h => h⟩
  intro x nd h
  rw [wait_freeWait] at h
  by_cases hx : x = w
  · simp [hx] at h
  · simpa [hx] using h

theorem released_wake {s : State} {p : Nat} {f : Fiber} (hf : s.fiber p = some f)
    (hb : f.status = STATE_BLOCKED) (v : Nat) :
    Released s (s.setFiber p { f with status := STATE_READY, join_rval := v }) := by
  have hp0 := fiber_ne_zero hf
  refine ⟨rfl, rfl, rfl, rfl, rfl, ?_, ?_, fun _ _ h => h, fun q hq => used_setFiber _ _ _ hq⟩
  · intro q hq
    rw [fiber_setFiber]
    by_cases hqp : q = p
    · rw [hqp, hf] at hq
      cases hq
    · simp [hqp, hq]
  · intro q g hg
    rw [fiber_setFiber]
    by_cases hqp : q = p
    · subst hqp
      rw [hf] at hg
      cases hg
      exact ⟨_, by simp [hp0], Or.inr ⟨hb, v, rfl⟩⟩
    · exact ⟨g, by simp [hqp, hg], Woken.same g⟩

theorem release_fibers_released :
    ∀ (fuel : Nat) (s : State) (wl : Nat) (t : State),
      release_fibers fuel s wl = Res.ok t → Released s t := by
  intro fuel
  induction fuel with
  | zero => intro s wl t h; simp [release_fibers] at h
  | succ fuel ih =>
    intro s wl t h
    rw [release_fibers] at h
    by_cases hwl : wl = 0
    · simp only [hwl, if_true] at h
      cases h
      exact Released.nop s
    · simp only [hwl, if_false] at h
      cases hw : s.wait wl with
      | none => simp [hw] at h
      | some w =>
        simp only [hw] at h
        by_cases hid : w.id = 0
        · simp only [hid, if_true] at h
          exact (released_freeWait s wl).andThen (ih _ _ _ h)
        · simp only [hid, if_false] at h
          cases hwf : s.fiber w.id with
          | none => simp [hwf] at h
          | some wf =>
            simp only [hwf] at h
            by_cases hb : wf.status = STATE_BLOCKED
            · simp only [hb, if_true] at h
              cases hjf : s.fiber wf.joinFiber with
              | none => simp [hjf] at h
              | some jf =>
                simp only [hjf] at h
                exact ((released_wake hwf hb jf.retval).andThen (released_freeWait _ wl)).andThen
                  (ih _ _ _ h)
            · simp only [hb, if_false] at h
              exact (released_freeWait s wl).andThen (ih _ _ _ h)

theorem Released.next_eq {s t : State} (h : Released s t) (p : Nat) :
    (t.fiber p).map (fun f => f.next) = (s.fiber p).map (fun f => f.next) := by
  cases hf : s.fiber p with
  | none => simp [h.gone p hf]
  | some f =>
    obtain ⟨g, hg, hw⟩ := h.kept p f hf
    simp [hg, hw.next]

theorem Released.keeps_ring {s t : State} (h : Released s t) (hwf : WellFormed s) :
    WellFormed t ∧ ringList t = ringList s := by
  have hp : Path t t.head (ringList s) t.head := by
    rw [h.head]
    exact Path.congr (fun p _ => h.next_eq p) hwf.path
  exact wellFormed_of_path t _ hp (List.ne_nil_of_length_pos (by
      rw [ringList_length]; exact hwf.pos)) hwf.nodup
    (by rw [ringList_length, h.size]) (by rw [h.tail]; exact hwf.last)

theorem Released.status_of_not_blocked {s t : State} (h : Released s t) {p : Nat} {f : Fiber}
    (hf : s.fiber p = some f) (hb : f.status ≠ STATE_BLOCKED) : t.fiber p = some f := by
  obtain ⟨g, hg, hw⟩ := h.kept p f hf
  rw [hg, hw.of_not_blocked hb]

theorem InList.mono {s t : State} (h : ∀ w nd, t.wait w = some nd → s.wait w = some nd) :
    ∀ {a w : Nat}, InList t a w → InList s a w := by
  intro a w hl
  induction hl with
  | here a nd hnd => exact InList.here a nd (h a nd hnd)
  | there a w nd hnd _ ih => exact InList.there a w nd (h a nd hnd) ih

/-- A wait list that does not name `b` leaves the block of `b` untouched. -/
theorem release_fibers_keeps {b : Nat} :
    ∀ (fuel : Nat) (s : State) (wl : Nat) (t : State),
      release_fibers fuel s wl = Res.ok t →
      (∀ w nd, InList s wl w → s.wait w = some nd → nd.id ≠ b) →
      t.fiber b = s.fiber b := by
  intro fuel
  induction fuel with
  | zero => intro s wl t h; simp [release_fibers] at h
  | succ fuel ih =>
    intro s wl t h hl
    rw [release_fibers] at h
    by_cases hwl : wl = 0
    · simp only [hwl, if_true] at h
      cases h
      rfl
    · simp only [hwl, if_false] at h
      cases hw : s.wait wl with
      | none => simp [hw] at h
      | some w =>
        simp only [hw] at h
        have hwb : w.id ≠ b := hl wl w (InList.here wl w hw) hw
        have hnext : ∀ (u : State), (∀ x nd, u.wait x = some nd → s.wait x = some nd) →
            ∀ x nd, InList u w.next x → u.wait x = some nd → nd.id ≠ b := by
          intro u hu x nd hx hnd
          exact hl x nd (InList.there wl x w hw (InList.mono hu hx)) (hu x nd hnd)
        by_cases hid : w.id = 0
        · simp only [hid, if_true] at h
          have := ih (s.freeWait wl) w.next t h (hnext _ (released_freeWait s wl).waits)
          simpa using this
        · simp only [hid, if_false] at h
          cases hwf : s.fiber w.id with
          | none => simp [hwf] at h
          | some wf =>
            simp only [hwf] at h
            by_cases hb : wf.status = STATE_BLOCKED
            · simp only [hb, if_true] at h
              cases hjf : s.fiber wf.joinFiber with
              | none => simp [hjf] at h
              | some jf =>
                simp only [hjf] at h
                have hrel := (released_wake hwf hb jf.retval).andThen
                  (released_freeWait (s.setFiber w.id
                    { wf with status := STATE_READY, join_rval := jf.retval }) wl)
                rw [ih _ _ _ h (hnext _ hrel.waits)]
                simp only [fiber_freeWait]
                exact fiber_setFiber_ne _ (Ne.symm hwb)
            · simp only [hb, if_false] at h
              have := ih (s.freeWait wl) w.next t h (hnext _ (released_freeWait s wl).waits)
              simpa using this

/-! ## The scheduler loop -/

theorem popWalk_mono {s : State} {f : Nat} :
    ∀ (fuel fuel' a p : Nat), popWalk fuel s f a = Res.ok p → fuel ≤ fuel' →
      popWalk fuel' s f a = Res.ok p := by
  intro fuel
  induction fuel with
  | zero => intro fuel' a p h; simp [popWalk] at h
  | succ fuel ih =>
    intro fuel' a p h hle
    obtain ⟨k, rfl⟩ : ∃ k, fuel' = k + 1 := ⟨fuel' - 1, by omega⟩
    rw [popWalk] at h ⊢
    cases ha : s.fiber a with
    | none => simp [ha] at h
    | some pf =>
      simp only [ha] at h ⊢
      by_cases hne : f ≠ pf.next
      · rw [if_pos hne] at h ⊢
        exact ih k _ p h (by omega)
      · rw [if_neg hne] at h ⊢
        exact h

theorem pop_mono {s : State} {c fuel fuel' : Nat} {r : Nat × State}
    (h : pop fuel s c = Res.ok r) (hle : fuel ≤ fuel') : pop fuel' s c = Res.ok r := by
  unfold pop at h ⊢
  by_cases hc : c = 0
  · simpa [hc] using h
  simp only [hc, if_false] at h ⊢
  by_cases hs : s.size = 0
  · simpa [hs] using h
  simp only [hs, if_false] at h ⊢
  cases hf : s.fiber c with
  | none => simp [hf] at h
  | some ff =>
    simp only [hf] at h ⊢
    by_cases hfin : ff.status ≠ STATE_FINISHED
    · rw [if_pos hfin] at h ⊢
      exact h
    rw [if_neg hfin] at h ⊢
    cases hw : popWalk fuel s c s.head with
    | ok prev =>
      rw [popWalk_mono fuel fuel' s.head prev hw hle]
      simpa [hw] using h
    | fault => simp [hw] at h
    | diverge => simp [hw] at h
    | exit e => simp [hw] at h

/-- What a call of `pop` that returns a non-null pointer did. -/
theorem pop_inv {s s2 : State} {c nx fuel : Nat} (h : pop fuel s c = Res.ok (nx, s2))
    (hnx : nx ≠ 0) :
    ∃ ff prev pf, s.fiber c = some ff ∧ ff.status = STATE_FINISHED ∧
      popWalk fuel s c s.head = Res.ok prev ∧ s.fiber prev = some pf ∧ nx = ff.next ∧
      s2 = unlinked s c prev pf ff.next := by
  unfold pop at h
  by_cases hc : c = 0
  · simp only [hc, if_true, Res.ok.injEq, Prod.mk.injEq] at h
    exact absurd h.1.symm hnx
  simp only [hc, if_false] at h
  by_cases hs : s.size = 0
  · simp only [hs, if_true, Res.ok.injEq, Prod.mk.injEq] at h
    exact absurd h.1.symm hnx
  simp only [hs, if_false] at h
  cases hf : s.fiber c with
  | none => simp [hf] at h
  | some ff =>
    simp only [hf] at h
    by_cases hfin : ff.status ≠ STATE_FINISHED
    · rw [if_pos hfin] at h
      simp only [Res.ok.injEq, Prod.mk.injEq] at h
      exact absurd h.1.symm hnx
    rw [if_neg hfin] at h
    have hfin' : ff.status = STATE_FINISHED := not_not.mp hfin
    cases hw : popWalk fuel s c s.head with
    | fault => simp [hw] at h
    | diverge => simp [hw] at h
    | exit e => simp [hw] at h
    | ok prev =>
      simp only [hw] at h
      cases hp : s.fiber prev with
      | none => simp [hp] at h
      | some pf =>
        simp only [hp] at h
        have hp0 := fiber_ne_zero hp
        cases hf1 : (s.setFiber prev { pf with next := ff.next }).fiber c with
        | none => simp [hf1] at h
        | some f1 =>
          simp only [hf1] at h
          have hnext : f1.next = ff.next := by
            rw [fiber_setFiber] at hf1
            by_cases hcp : c = prev
            · simp only [hcp, if_true, hp0, if_false, Option.some.injEq] at hf1
              rw [← hf1]
            · simp only [hcp, if_false] at hf1
              rw [hf] at hf1
              cases hf1
              rfl
          by_cases hz : s.size - 1 = 0
          · simp only [State.freeFiber, State.setFiber, hz, if_true, Res.ok.injEq,
              Prod.mk.injEq] at h
            exact absurd h.1.symm hnx
          · simp only [State.freeFiber, State.setFiber, hz, if_false, Res.ok.injEq,
              Prod.mk.injEq] at h
            refine ⟨ff, prev, pf, rfl, hfin', rfl, hp, h.1.symm, ?_⟩
            rw [← h.2, hnext]
            rfl

/-- Induction over the scheduler's scan: a property of the state and the cursor that
survives reaping a finished fiber, skipping a blocked one and waking a blocked one holds
when the scan commits. -/
theorem schedLoop_induct {fuel : Nat} (P : State → Nat → Prop) (Q : State → Prop)
    (hcommit : ∀ s c nf, P s c → s.fiber c = some nf → nf.status = STATE_READY →
      Q (commit s c))
    (hreap : ∀ s c nf s1 s2 nx, P s c → s.fiber c = some nf → nf.status = STATE_FINISHED →
      release_fibers fuel s nf.waitList = Res.ok s1 → pop fuel s1 c = Res.ok (nx, s2) →
      nx ≠ 0 → P s2 nx)
    (hskip : ∀ s c nf jf, P s c → s.fiber c = some nf → nf.status = STATE_BLOCKED →
      s.fiber nf.joinFiber = some jf → jf.status ≠ STATE_FINISHED → P s nf.next)
    (hwake : ∀ s c nf jf, P s c → s.fiber c = some nf → nf.status = STATE_BLOCKED →
      s.fiber nf.joinFiber = some jf → jf.status = STATE_FINISHED →
      P (s.setFiber c { nf with status := STATE_READY }) c) :
    ∀ (n : Nat) (s : State) (c : Nat) (s' : State),
      P s c → schedLoop fuel n s c = Res.ok s' → Q s' := by
  intro n
  induction n with
  | zero => intro s c s' _ h; simp [schedLoop] at h
  | succ n ih =>
    intro s c s' hP h
    have tail : ∀ (s3 : State) (nx : Nat), P s3 nx →
        (match s3.fiber nx with
          | none => Res.fault
          | some nf3 =>
            if nf3.status = STATE_BLOCKED then
              match s3.fiber nf3.joinFiber with
              | none => Res.fault
              | some jf =>
                if jf.status ≠ STATE_FINISHED then schedLoop fuel n s3 nf3.next
                else schedLoop fuel n (s3.setFiber nx { nf3 with status := STATE_READY }) nx
            else schedLoop fuel n s3 nx) = Res.ok s' → Q s' := by
      intro s3 nx hP3 h3
      cases hnf3 : s3.fiber nx with
      | none => simp [hnf3] at h3
      | some nf3 =>
        simp only [hnf3] at h3
        by_cases hb : nf3.status = STATE_BLOCKED
        · simp only [hb, if_true] at h3
          cases hjf : s3.fiber nf3.joinFiber with
          | none => simp [hjf] at h3
          | some jf =>
            simp only [hjf] at h3
            by_cases hj : jf.status ≠ STATE_FINISHED
            · rw [if_pos hj] at h3
              exact ih _ _ _ (hskip s3 nx nf3 jf hP3 hnf3 hb hjf hj) h3
            · rw [if_neg hj] at h3
              exact ih _ _ _ (hwake s3 nx nf3 jf hP3 hnf3 hb hjf (not_not.mp hj)) h3
        · simp only [hb, if_false] at h3
          exact ih _ _ _ hP3 h3
    rw [schedLoop] at h
    cases hc : s.fiber c with
    | none => simp [hc] at h
    | some nf =>
      simp only [hc] at h
      by_cases hr : nf.status = STATE_READY
      · simp only [hr, if_true, Res.ok.injEq] at h
        rw [← h]
        exact hcommit s c nf hP hc hr
      · simp only [hr, if_false] at h
        by_cases hfin : nf.status = STATE_FINISHED
        · simp only [hfin, if_true] at h
          cases hrel : release_fibers fuel s nf.waitList with
          | fault => simp [hrel] at h
          | diverge => simp [hrel] at h
          | exit e => simp [hrel] at h
          | ok s1 =>
            simp only [hrel] at h
            cases hpop : pop fuel s1 c with
            | fault => simp [hpop] at h
            | diverge => simp [hpop] at h
            | exit e => simp [hpop] at h
            | ok r =>
              obtain ⟨nx, s2⟩ := r
              simp only [hpop] at h
              by_cases hnx : nx = 0
              · simp only [hnx, if_true] at h
                by_cases hz : s2.size = 0 <;> simp [hz] at h
              · simp only [hnx, if_false] at h
                exact tail s2 nx (hreap s c nf s1 s2 nx hP hc hfin hrel hpop hnx) h
        · simp only [hfin, if_false] at h
          exact tail s c hP h

/-! ## The running fiber is a ready member of the ring -/

theorem ring_congr {s : State} (t : State) (hwf : WellFormed s)
    (hf : ∀ p ∈ ringList s, (t.fiber p).map (fun f => f.next) = (s.fiber p).map (fun f => f.next))
    (hh : t.head = s.head) (ht : t.tail = s.tail) (hs : t.size = s.size) :
    WellFormed t ∧ ringList t = ringList s := by
  have hp : Path t t.head (ringList s) t.head := by
    rw [hh]
    exact Path.congr hf hwf.path
  exact wellFormed_of_path t _ hp (List.ne_nil_of_length_pos (by
      rw [ringList_length]; exact hwf.pos)) hwf.nodup
    (by rw [ringList_length, hs]) (by rw [ht]; exact hwf.last)

theorem next_mem_ring {s : State} (hwf : WellFormed s) {p : Nat} (hp : p ∈ ringList s) :
    nextOf s p ∈ ringList s := by
  rcases path_next_tail hwf.path p hp with h | h
  · exact List.mem_of_mem_tail h
  · rw [h]
    exact head_mem_ringList hwf

/-- What `pop` does to a finished member of a well-formed ring, whatever the fuel it
returned with. -/
theorem pop_member {s s2 : State} {c nx fuel : Nat} {ff : Fiber} (hwf : WellFormed s)
    (hm : c ∈ ringList s) (hf : s.fiber c = some ff) (hfin : ff.status = STATE_FINISHED)
    (h : pop fuel s c = Res.ok (nx, s2)) :
    (2 ≤ s.size ∧ nx = ff.next ∧ nx ≠ 0 ∧ WellFormed s2 ∧
      ringList s2 = (ringList s).erase c ∧ nx ∈ ringList s2 ∧
      ∃ prev pf, s2 = unlinked s c prev pf ff.next ∧ s.fiber prev = some pf ∧ prev ≠ c ∧
        prev ∈ ringList s) ∨
    (s.size = 1 ∧ nx = 0 ∧ s2.size = 0) := by
  by_cases h2 : 2 ≤ s.size
  · left
    obtain ⟨prev, pf, hpm, hpc, hpf, _, hpop, hwf', hrl, hnx, _, _⟩ :=
      pop_ring (max fuel s.size) hwf hm hf hfin h2 (le_max_right _ _)
    have := pop_mono h (le_max_left fuel s.size)
    rw [hpop] at this
    simp only [Res.ok.injEq, Prod.mk.injEq] at this
    obtain ⟨e1, e2⟩ := this
    subst e1
    subst e2
    have hnx0 : ff.next ≠ 0 := by
      obtain ⟨g, hg⟩ := ring_live hwf (List.mem_of_mem_erase hnx)
      exact fiber_ne_zero hg
    exact ⟨h2, rfl, hnx0, hwf', hrl, hrl ▸ hnx, prev, pf, rfl, hpf, hpc, hpm⟩
  · right
    have h1 : s.size = 1 := by have := hwf.pos; omega
    obtain ⟨s', hpop, hz⟩ := pop_single (max fuel 1) hwf hm hf hfin h1 (le_max_right _ _)
    have := pop_mono h (le_max_left fuel 1)
    rw [hpop] at this
    simp only [Res.ok.injEq, Prod.mk.injEq] at this
    obtain ⟨e1, e2⟩ := this
    subst e1
    subst e2
    exact ⟨h1, rfl, hz⟩

theorem schedLoop_runner {fuel : Nat} :
    ∀ (n : Nat) (s : State) (c : Nat) (s' : State),
      (WellFormed s ∧ c ∈ ringList s) → schedLoop fuel n s c = Res.ok s' → RunnerReady s' := by
  apply schedLoop_induct (fun s c => WellFormed s ∧ c ∈ ringList s) RunnerReady
  · rintro s c nf ⟨hwf, hc⟩ hnf hr
    obtain ⟨hwf', hrl⟩ := ring_congr (commit s c) hwf (fun _ _ => rfl) rfl rfl rfl
    exact ⟨hwf', by rw [hrl]; exact hc, by simp [statusOf, hnf, hr]⟩
  · rintro s c nf s1 s2 nx ⟨hwf, hc⟩ hnf hfin hrel hpop hnx
    have hR := release_fibers_released _ _ _ _ hrel
    obtain ⟨hwf1, hrl1⟩ := hR.keeps_ring hwf
    have hnf1 : s1.fiber c = some nf := hR.status_of_not_blocked hnf (by simp [hfin])
    rcases pop_member hwf1 (hrl1 ▸ hc) hnf1 hfin hpop with ⟨_, _, _, hwf2, _, hmem, _⟩ | ⟨_, h0, _⟩
    · exact ⟨hwf2, hmem⟩
    · exact absurd h0 hnx
  · rintro s c nf jf ⟨hwf, hc⟩ hnf _ _ _
    refine ⟨hwf, ?_⟩
    rw [← nextOf_eq hnf]
    exact next_mem_ring hwf hc
  · rintro s c nf jf ⟨hwf, hc⟩ hnf _ _ _
    have hc0 := fiber_ne_zero hnf
    obtain ⟨hwf', hrl⟩ := ring_congr (s.setFiber c { nf with status := STATE_READY }) hwf
      (fun p _ => by
        rw [fiber_setFiber]
        by_cases hpc : p = c
        · subst hpc
          simp [hc0, hnf]
        · simp [hpc]) rfl rfl rfl
    exact ⟨hwf', by rw [hrl]; exact hc⟩

/-- A scheduler invocation on a well-formed ring that holds the running fiber, when it
commits, leaves a well-formed ring whose running fiber is a ready member. -/
theorem scheduler_runner {fuel : Nat} {s s' : State} (hwf : WellFormed s)
    (hm : s.running ∈ ringList s) (h : scheduler fuel s = Res.ok s') : RunnerReady s' := by
  unfold scheduler at h
  obtain ⟨hwf0, hrl0⟩ := ring_congr (stop_timer s) hwf (fun _ _ => rfl) rfl rfl rfl
  have hrun : (stop_timer s).fiber (stop_timer s).running = s.fiber s.running := rfl
  simp only [hrun] at h
  cases hr : s.fiber s.running with
  | none => simp [hr] at h
  | some r =>
    simp only [hr] at h
    refine schedLoop_runner fuel (stop_timer s) r.next s' ⟨hwf0, ?_⟩ h
    rw [← nextOf_eq hr]
    exact next_mem_ring hwf0 (by rw [hrl0]; exact hm)

/-! ## Moves keep the running fiber a ready member -/

theorem SameLinks.ident (s : State) : SameLinks s s :=
  ⟨rfl, rfl, rfl, rfl, fun _ => rfl, fun _ _ h => h, fun _ h => h⟩

theorem SameLinks.comp {s t u : State} (h1 : SameLinks s t) (h2 : SameLinks t u) :
    SameLinks s u :=
  ⟨h2.head.trans h1.head, h2.tail.trans h1.tail, h2.size.trans h1.size,
    h2.running.trans h1.running, fun p => (h2.links p).trans (h1.links p),
    fun p hp hg => h2.fin p (by rw [h1.running]; exact hp) (h1.fin p hp hg),
    fun p h => h2.used p (h1.used p h)⟩

theorem SameLinks.same_ring {s t : State} (h : SameLinks s t) (hwf : WellFormed s) :
    WellFormed t ∧ ringList t = ringList s :=
  ring_congr t hwf (fun p _ => h.links p) h.head h.tail h.size

theorem sameLinks_setFiber {s : State} {p : Nat} {f : Fiber} (g : Fiber)
    (hf : s.fiber p = some f) (hg : g.next = f.next)
    (hst : p = s.running ∨ g.status = f.status) : SameLinks s (s.setFiber p g) := by
  refine ⟨rfl, rfl, rfl, rfl, fun q => ?_, fun q hq hgone k hk => ?_,
    fun q hq => used_setFiber _ _ _ hq⟩
  · rw [fiber_setFiber]
    by_cases hq : q = p
    · subst hq
      simp [fiber_ne_zero hf, hf, hg]
    · simp [hq]
  · rw [fiber_setFiber] at hk
    by_cases hqp : q = p
    · subst hqp
      simp only [if_true, fiber_ne_zero hf, if_false, Option.some.injEq] at hk
      subst hk
      rcases hst with h | h
      · exact absurd h hq
      · rw [h]
        exact hgone f hf
    · simp only [hqp, if_false] at hk
      exact hgone k hk

theorem Released.sameLinks {s t : State} (h : Released s t) : SameLinks s t := by
  refine ⟨h.head, h.tail, h.size, h.running, h.next_eq, fun p _ hg k hk => ?_, h.used⟩
  cases hf : s.fiber p with
  | none =>
    rw [h.gone p hf] at hk
    cases hk
  | some f =>
    have hfin := hg f hf
    rw [h.status_of_not_blocked hf (by simp [hfin])] at hk
    cases hk
    exact hfin

theorem RunnerReady.of_sameLinks {s t : State} (hr : RunnerReady s) (h : SameLinks s t)
    (hst : statusOf t s.running = some STATE_READY) : RunnerReady t := by
  obtain ⟨hwf, hrl⟩ := h.same_ring hr.wf
  exact ⟨hwf, by rw [hrl, h.running]; exact hr.mem, by rw [h.running]; exact hst⟩

theorem RunnerReady.running_live {s : State} (hr : RunnerReady s) :
    ∃ r, s.fiber s.running = some r ∧ r.status = STATE_READY := by
  have := hr.ready
  cases hf : s.fiber s.running with
  | none => simp [statusOf, hf] at this
  | some r =>
    simp only [statusOf, hf, Option.map_some', Option.some.injEq] at this
    exact ⟨r, rfl, this⟩

theorem RunnerReady.of_released {s t : State} (hr : RunnerReady s) (h : Released s t) :
    RunnerReady t := by
  obtain ⟨r, hrf, hrs⟩ := hr.running_live
  refine hr.of_sameLinks h.sameLinks ?_
  rw [statusOf, h.status_of_not_blocked hrf (by simp [hrs])]
  simp [hrs]

theorem fiber_join_returned {fuel : Nat} {s s' : State} {id retval waitingNode : Nat}
    {code : Int}
    (h : fiber_join fuel s id retval waitingNode = Res.ok (JoinResult.returned code s')) :
    Released s s' := by
  unfold fiber_join at h
  cases hloc : locate s id with
  | fault => simp [hloc] at h
  | diverge => simp [hloc] at h
  | exit e => simp [hloc] at h
  | ok r =>
    obtain ⟨i, node⟩ := r
    simp only [hloc] at h
    by_cases hi : i > s.size
    · rw [if_pos hi] at h
      simp only [Res.ok.injEq, JoinResult.returned.injEq] at h
      rw [← h.2]
      exact Released.nop s
    rw [if_neg hi] at h
    by_cases hn : node = s.running
    · rw [if_pos hn] at h
      simp only [Res.ok.injEq, JoinResult.returned.injEq] at h
      rw [← h.2]
      exact Released.nop s
    rw [if_neg hn] at h
    cases hfn : s.fiber node with
    | none => simp [hfn] at h
    | some fn =>
      simp only [hfn] at h
      by_cases hfin : fn.status = STATE_FINISHED
      · rw [if_pos hfin] at h
        cases hrel : release_fibers fuel s fn.waitList with
        | fault => simp [hrel] at h
        | diverge => simp [hrel] at h
        | exit e => simp [hrel] at h
        | ok s1 =>
          simp only [hrel, Res.ok.injEq, JoinResult.returned.injEq] at h
          rw [← h.2]
          exact release_fibers_released _ _ _ _ hrel
      · rw [if_neg hfin] at h
        by_cases hw : waitingNode = 0
        · rw [if_pos hw] at h
          simp only [Res.ok.injEq, JoinResult.returned.injEq] at h
          rw [← h.2]
          exact Released.nop s
        · rw [if_neg hw] at h
          cases hb : join_block (join_enqueue s id node fn waitingNode) node <;>
            simp [hb] at h

theorem sameLinks_of_fiber_eq {s t : State} (hh : t.head = s.head) (ht : t.tail = s.tail)
    (hs : t.size = s.size) (hr : t.running = s.running) (hf : t.fibers = s.fibers) :
    SameLinks s t := by
  have hfib : ∀ p, t.fiber p = s.fiber p := fun p => by simp [State.fiber, hf]
  exact ⟨hh, ht, hs, hr, fun p => by rw [hfib p], fun p _ hg k hk => hg k (hfib p ▸ hk),
    fun p h => by unfold Used at h ⊢; rw [hf]; exact h⟩

theorem join_enqueue_sameLinks {s : State} {id node waitingNode : Nat} {fn : Fiber}
    (hfn : s.fiber node = some fn) : SameLinks s (join_enqueue s id node fn waitingNode) := by
  have h2 : (stop_timer (s.setWait waitingNode { id := id, next := 0 })).fiber node = some fn :=
    hfn
  have hA : SameLinks s (stop_timer (s.setWait waitingNode { id := id, next := 0 })) :=
    sameLinks_of_fiber_eq rfl rfl rfl rfl rfl
  have hB := hA.comp (sameLinks_setFiber { fn with waitList := waitingNode } h2 rfl
    (Or.inr rfl))
  unfold join_enqueue
  by_cases hw : fn.waitList = 0
  · simp only [hw, if_true]
    simpa [hw] using hB
  · simp only [hw, if_false]
    exact hB.comp (sameLinks_of_fiber_eq rfl rfl rfl rfl rfl)

theorem join_block_sameLinks {s s4 : State} {node : Nat} (h : join_block s node = Res.ok s4) :
    SameLinks s s4 ∧ ∃ r, s.fiber s.running = some r ∧
      s4 = s.setFiber s.running { r with joinFiber := node, status := STATE_BLOCKED } := by
  unfold join_block at h
  cases hr : s.fiber s.running with
  | none => simp [hr] at h
  | some r =>
    simp only [hr, Res.ok.injEq] at h
    subst h
    exact ⟨sameLinks_setFiber _ hr rfl (Or.inl rfl), r, rfl, rfl⟩

theorem fiber_join_suspended {fuel : Nat} {s s1 : State} {id retval waitingNode : Nat}
    (h : fiber_join fuel s id retval waitingNode = Res.ok (JoinResult.suspended s1)) :
    SameLinks s s1 := by
  unfold fiber_join at h
  cases hloc : locate s id with
  | fault => simp [hloc] at h
  | diverge => simp [hloc] at h
  | exit e => simp [hloc] at h
  | ok r =>
    obtain ⟨i, node⟩ := r
    simp only [hloc] at h
    by_cases hi : i > s.size
    · rw [if_pos hi] at h
      simp at h
    rw [if_neg hi] at h
    by_cases hn : node = s.running
    · rw [if_pos hn] at h
      simp at h
    rw [if_neg hn] at h
    cases hfn : s.fiber node with
    | none => simp [hfn] at h
    | some fn =>
      simp only [hfn] at h
      by_cases hfin : fn.status = STATE_FINISHED
      · rw [if_pos hfin] at h
        cases hrel : release_fibers fuel s fn.waitList <;> simp [hrel] at h
      · rw [if_neg hfin] at h
        by_cases hw : waitingNode = 0
        · rw [if_pos hw] at h
          simp at h
        · rw [if_neg hw] at h
          cases hb : join_block (join_enqueue s id node fn waitingNode) node with
          | fault => simp [hb] at h
          | diverge => simp [hb] at h
          | exit e => simp [hb] at h
          | ok s4 =>
            simp only [hb, Res.ok.injEq, JoinResult.suspended.injEq] at h
            subst h
            exact (join_enqueue_sameLinks hfn).comp (join_block_sameLinks hb).1

theorem fiber_exit_sameLinks {s s1 : State} {v : Nat} (h : fiber_exit s v = Res.ok s1) :
    SameLinks s s1 := by
  unfold fiber_exit at h
  cases hr : s.fiber s.running with
  | none => simp [hr] at h
  | some r =>
    have hr0 := fiber_ne_zero hr
    have h1 : (s.setFiber s.running { r with retval := v }).fiber
        (s.setFiber s.running { r with retval := v }).running = some { r with retval := v } :=
      fiber_setFiber_self _ hr0
    simp only [hr, h1, Res.ok.injEq] at h
    subst h
    exact (sameLinks_setFiber { r with retval := v } hr rfl (Or.inl rfl)).comp
      (sameLinks_setFiber { r with retval := v, status := STATE_FINISHED } h1 rfl (Or.inl rfl))

theorem fiber_join_resume_sameLinks {s s' : State} {retval : Nat} {code : Int}
    (h : fiber_join_resume s retval = Res.ok (code, s')) :
    SameLinks s s' ∧ statusOf s' s.running = some STATE_READY := by
  unfold fiber_join_resume at h
  cases hr : s.fiber s.running with
  | none => simp [hr] at h
  | some r =>
    have hr0 := fiber_ne_zero hr
    simp only [hr] at h
    have last : ∀ (s2 : State), SameLinks s s2 →
        (match s2.fiber s2.running with
          | none => Res.fault
          | some r2 =>
            Res.ok ((0 : Int), s2.setFiber s2.running { r2 with status := STATE_READY }))
          = Res.ok (code, s') →
        SameLinks s s' ∧ statusOf s' s.running = some STATE_READY := by
      intro s2 h2 hm
      cases hr2 : s2.fiber s2.running with
      | none => simp [hr2] at hm
      | some r2 =>
        simp only [hr2, Res.ok.injEq, Prod.mk.injEq] at hm
        obtain ⟨_, rfl⟩ := hm
        refine ⟨h2.comp (sameLinks_setFiber { r2 with status := STATE_READY } hr2 rfl
          (Or.inl rfl)), ?_⟩
        rw [← h2.running, statusOf, fiber_setFiber_self _ (fiber_ne_zero hr2)]
        rfl
    by_cases hret : retval ≠ 0
    · rw [if_pos hret] at h
      have store : ∀ (v : Nat),
          (match
            (match (Res.ok { s with cells := Function.update s.cells retval v } : Res State) with
              | Res.ok s1 =>
                match s1.fiber s1.running with
                | none => Res.fault
                | some r1 =>
                  Res.ok (s1.setFiber s1.running { r1 with retval := 0, join_rval := 0 })
              | Res.fault => Res.fault
              | Res.diverge => Res.diverge
              | Res.exit c => Res.exit c) with
            | Res.ok s2 =>
              match s2.fiber s2.running with
              | none => Res.fault
              | some r2 =>
                Res.ok ((0 : Int), s2.setFiber s2.running { r2 with status := STATE_READY })
            | Res.fault => Res.fault
            | Res.diverge => Res.diverge
            | Res.exit c => Res.exit c) = Res.ok (code, s') →
          SameLinks s s' ∧ statusOf s' s.running = some STATE_READY := by
        intro v hv
        have hc : ({ s with cells := Function.update s.cells retval v } : State).fiber
            ({ s with cells := Function.update s.cells retval v } : State).running = some r := hr
        simp only [hc] at hv
        have hA : SameLinks s ({ s with cells := Function.update s.cells retval v } : State) :=
          sameLinks_of_fiber_eq rfl rfl rfl rfl rfl
        have hB : SameLinks ({ s with cells := Function.update s.cells retval v } : State)
            (({ s with cells := Function.update s.cells retval v } : State).setFiber s.running
              { r with retval := 0, join_rval := 0 }) :=
          sameLinks_setFiber { r with retval := 0, join_rval := 0 } hc rfl (Or.inl rfl)
        exact last _ (hA.comp hB) hv
      by_cases hj : r.join_rval = 0 ∧ r.joinFiber ≠ 0
      · rw [if_pos hj] at h
        cases hjf : s.fiber r.joinFiber with
        | none => simp [hjf] at h
        | some jf =>
          simp only [hjf] at h
          exact store jf.retval h
      · rw [if_neg hj] at h
        exact store r.join_rval h
    · rw [if_neg hret] at h
      exact last s (SameLinks.ident s) h

theorem RunnerReady.of_agree {s t : State} (hr : RunnerReady s)
    (hf : ∀ p ∈ ringList s, t.fiber p = s.fiber p) (hh : t.head = s.head)
    (ht : t.tail = s.tail) (hs : t.size = s.size) (hrun : t.running = s.running) :
    RunnerReady t := by
  obtain ⟨hwf, hrl⟩ := ring_congr t hr.wf (fun p hp => by rw [hf p hp]) hh ht hs
  refine ⟨hwf, by rw [hrl, hrun]; exact hr.mem, ?_⟩
  rw [hrun, statusOf, hf _ hr.mem]
  exact hr.ready

theorem fiber_create_runner {s s' : State} {fiber start_routine arg : Nat} {env : CreateEnv}
    {code : Int} (hr : RunnerReady s) (hfresh' : env.new_node ≠ 0 → s.fiber env.new_node = none)
    (h : fiber_create s fiber start_routine arg env = Res.ok (code, s')) : RunnerReady s' := by
  have hstop : RunnerReady (stop_timer s) :=
    hr.of_agree (fun _ _ => rfl) rfl rfl rfl rfl
  by_cases h0 : fiber = 0
  · simp only [fiber_create, h0, if_true, Res.ok.injEq, Prod.mk.injEq] at h
    rw [← h.2]
    exact hstop
  by_cases h1 : env.new_node = 0
  · simp only [fiber_create, h0, h1, if_true, if_false, Res.ok.injEq, Prod.mk.injEq] at h
    rw [← h.2]
    exact hstop
  have hfresh := hfresh' h1
  have hleak : RunnerReady ((stop_timer s).setFiber env.new_node env.junk) := by
    refine hr.of_agree (fun p hp => ?_) rfl rfl rfl rfl
    have hne : p ≠ env.new_node := by
      intro e
      obtain ⟨f, hf⟩ := ring_live hr.wf hp
      rw [e, hfresh] at hf
      cases hf
    rw [fiber_setFiber_ne _ hne]
    rfl
  cases h2 : env.getcontext_ok with
  | false =>
    simp only [fiber_create, h0, h1, h2, if_true, if_false, Res.ok.injEq, Prod.mk.injEq] at h
    rw [← h.2]
    exact hleak
  | true =>
  by_cases h3 : env.ss_sp = 0
  · simp only [fiber_create, h0, h1, h2, h3, if_true, if_false, Res.ok.injEq,
      Prod.mk.injEq, Bool.true_eq_false] at h
    rw [← h.2]
    exact hleak
  obtain ⟨t, ht⟩ := ring_live hr.wf (tail_mem_ringList hr.wf)
  obtain ⟨s'', hc, _, hhead, htail, hsize, hrun, _, hnew, hold, hframe, _, _⟩ :=
    fiber_create_eq s fiber start_routine arg env h0 h1 hfresh ht h2 h3
  rw [hc] at h
  simp only [Res.ok.injEq, Prod.mk.injEq] at h
  obtain ⟨_, rfl⟩ := h
  obtain ⟨hwf', hrl⟩ := ring_append hr.wf hfresh hhead htail hsize hnew rfl ⟨_, hold, rfl⟩ hframe
  obtain ⟨r, hrf, hrs⟩ := hr.running_live
  refine ⟨hwf', by rw [hrl, hrun]; exact List.mem_append_left _ hr.mem, ?_⟩
  rw [hrun, statusOf]
  by_cases hrt : s.running = s.tail
  · rw [hrt, hold]
    rw [hrt, ht] at hrf
    cases hrf
    simp [hrs]
  · have hrn : s.running ≠ env.new_node := by
      intro e
      rw [e, hfresh] at hrf
      cases hrf
    rw [hframe _ hrn hrt, hrf]
    simp [hrs]

theorem fiber_destroy_runner {s s' : State} {fuel id : Nat} {code : Int} (hr : RunnerReady s)
    (h : fiber_destroy fuel s id = Res.ok (code, s')) : RunnerReady s' := by
  have hwf := hr.wf
  obtain ⟨r, hrf, hrs⟩ := hr.running_live
  by_cases hm : id ∈ ringList s
  · obtain ⟨ff, hf⟩ := ring_live hwf hm
    by_cases hfin : ff.status = STATE_FINISHED
    · obtain ⟨j, hj, hloc⟩ := locate_mem hwf hm
      have hj' : ¬ j > s.size := by omega
      unfold fiber_destroy at h
      simp only [hloc, if_neg hj'] at h
      cases hpop : pop fuel s id with
      | fault => simp [hpop] at h
      | diverge => simp [hpop] at h
      | exit e => simp [hpop] at h
      | ok res =>
        obtain ⟨nx, s1⟩ := res
        have hs1 : s' = s1 := by
          simp only [hpop] at h
          by_cases hnx : nx = 0
          · simp only [hnx, if_true, Res.ok.injEq, Prod.mk.injEq] at h
            exact h.2.symm
          · simp only [hnx, if_false, Res.ok.injEq, Prod.mk.injEq] at h
            exact h.2.symm
        subst hs1
        have hne : s.running ≠ id := by
          intro e
          rw [e, hf] at hrf
          cases hrf
          rw [hfin] at hrs
          cases hrs
        rcases pop_member hwf hm hf hfin hpop with
          ⟨_, _, _, hwf2, hrl2, _, prev, pf, rfl, hpf, hpc, _⟩ | ⟨h1, _, _⟩
        · refine ⟨hwf2, ?_, ?_⟩
          · rw [hrl2]
            exact (hwf.nodup.mem_erase_iff).mpr ⟨hne, hr.mem⟩
          · show statusOf _ s.running = _
            rw [statusOf, unlinked_fiber, if_neg hne]
            by_cases hrp : s.running = prev
            · rw [if_pos hrp, if_neg (fiber_ne_zero hrf)]
              rw [hrp, hpf] at hrf
              cases hrf
              simp [hrs]
            · rw [if_neg hrp, hrf]
              simp [hrs]
        · exfalso
          have hrl : ringList s = [s.head] := by simp [ringList, h1, walk]
          have e1 : id = s.head := by simpa [hrl] using hm
          have e2 : s.running = s.head := by simpa [hrl] using hr.mem
          exact hne (e2.trans e1.symm)
    · have hst : statusOf s id = some STATE_READY ∨ statusOf s id = some STATE_BLOCKED := by
        simp only [statusOf, hf, Option.map_some', Option.some.injEq]
        cases hs : ff.status <;> simp_all
      rw [fiber_destroy_reject fuel s hwf id (Or.inr hst)] at h
      simp only [Res.ok.injEq, Prod.mk.injEq] at h
      rw [← h.2]
      exact hr
  · rw [fiber_destroy_reject fuel s hwf id (Or.inl hm)] at h
    simp only [Res.ok.injEq, Prod.mk.injEq] at h
    rw [← h.2]
    exact hr

theorem init_runner (parentFiber : Nat) (junk : Fiber) (sched_sp scheduler_fn : Nat)
    (cells : Nat → Nat) (hp : parentFiber ≠ 0) :
    RunnerReady (init_fiber_list parentFiber junk sched_sp scheduler_fn cells) := by
  have hf : (init_fiber_list parentFiber junk sched_sp scheduler_fn cells).fiber parentFiber
      = some { junk with context := parent_ctx, next := parentFiber, status := STATE_READY } := by
    simp [State.fiber, init_fiber_list, hp]
  have hrl : ringList (init_fiber_list parentFiber junk sched_sp scheduler_fn cells)
      = [parentFiber] := rfl
  refine ⟨⟨Nat.one_pos, ?_, ?_, ?_, ?_⟩, ?_, ?_⟩
  · intro p hpm
    rw [hrl] at hpm
    simp only [List.mem_singleton] at hpm
    rw [hpm, hf]
    rfl
  · rw [hrl]
    simp
  · rw [hrl]
    rfl
  · show nextOf _ parentFiber = parentFiber
    rw [nextOf_eq hf]
  · rw [hrl]
    exact List.mem_singleton_self _
  · show statusOf _ parentFiber = _
    rw [statusOf, hf]
    rfl

theorem step_runner {s s' : State} (hr : RunnerReady s) (h : Step s s') : RunnerReady s' := by
  cases h
  · rename_i hfresh _
    refine fiber_create_runner hr (fun h0 => ?_) (by assumption)
    simp [State.fiber, hfresh h0]
  · exact fiber_destroy_runner hr (by assumption)
  · exact hr.of_released (fiber_join_returned (by assumption))
  · rename_i hj hs
    have hl := fiber_join_suspended hj
    obtain ⟨hwf1, hrl1⟩ := hl.same_ring hr.wf
    exact scheduler_runner hwf1 (by rw [hrl1, hl.running]; exact hr.mem) hs
  · obtain ⟨hl, hst⟩ := fiber_join_resume_sameLinks (by assumption)
    exact hr.of_sameLinks hl hst
  · rename_i he hs
    have hl := fiber_exit_sameLinks he
    obtain ⟨hwf1, hrl1⟩ := hl.same_ring hr.wf
    exact scheduler_runner hwf1 (by rw [hrl1, hl.running]; exact hr.mem) hs
  · exact scheduler_runner hr.wf hr.mem (by assumption)

theorem reachable_runner {s : State} (h : Reachable s) : RunnerReady s := by
  induction h with
  | boot parentFiber junk sched_sp scheduler_fn cells hp =>
    exact init_runner parentFiber junk sched_sp scheduler_fn cells hp
  | step _ _ _ hstep ih => exact step_runner ih hstep

/-! ## What a scan does to the blocks -/

theorem Aged.unchanged (f : Fiber) : Aged f f := ⟨rfl, rfl, rfl, Or.inl rfl⟩

theorem Aged.later {f g h : Fiber} (h1 : Aged f g) (h2 : Aged g h) : Aged f h := by
  obtain ⟨a1, b1, c1, d1⟩ := h1
  obtain ⟨a2, b2, c2, d2⟩ := h2
  refine ⟨a2.trans a1, b2.trans b1, c2.trans c1, ?_⟩
  rcases d1 with d1 | ⟨d1, e1⟩
  · rcases d2 with d2 | ⟨d2, e2⟩
    · exact Or.inl (d2.trans d1)
    · exact Or.inr ⟨d1 ▸ d2, e2⟩
  · rcases d2 with d2 | ⟨d2, _⟩
    · exact Or.inr ⟨d1, d2.trans e1⟩
    · rw [e1] at d2
      cases d2

theorem Aged.finished {f g : Fiber} (h : Aged f g) (hg : g.status = STATE_FINISHED) :
    f.status = STATE_FINISHED := by
  rcases h.2.2.2 with h' | ⟨_, h'⟩
  · rw [← h', hg]
  · rw [h'] at hg
    cases hg

theorem Aged.of_finished {f g : Fiber} (h : Aged f g) (hf : f.status = STATE_FINISHED) :
    g.status = STATE_FINISHED := by
  rcases h.2.2.2 with h' | ⟨h', _⟩
  · rw [h', hf]
  · rw [hf] at h'
    cases h'

theorem Aged.not_finished {f g : Fiber} (h : Aged f g) (hf : f.status ≠ STATE_FINISHED) :
    g.status ≠ STATE_FINISHED :=
  fun hg => hf (h.finished hg)

theorem Woken.aged {f g : Fiber} (h : Woken f g) : Aged f g :=
  ⟨h.joinFiber, h.waitList, h.retval, h.status⟩

theorem Scanned.nothing (s : State) : Scanned s s :=
  ⟨fun _ _ h => h, fun _ h => h, fun _ g h => ⟨g, h, Aged.unchanged g⟩, fun _ f h _ => ⟨f, h⟩,
    fun _ h => h⟩

theorem Scanned.followedBy {s t u : State} (h1 : Scanned s t) (h2 : Scanned t u) : Scanned s u := by
  refine ⟨fun w nd h => h1.waits w nd (h2.waits w nd h), fun p h => h1.ring p (h2.ring p h),
    ?_, ?_, fun p h => h2.used p (h1.used p h)⟩
  · intro p k hk
    obtain ⟨g, hg, hgk⟩ := h2.aged p k hk
    obtain ⟨f, hf, hfg⟩ := h1.aged p g hg
    exact ⟨f, hf, hfg.later hgk⟩
  · intro p f hf hfin
    obtain ⟨g, hg⟩ := h1.kept p f hf hfin
    obtain ⟨f', hf', hag⟩ := h1.aged p g hg
    rw [hf] at hf'
    cases hf'
    exact h2.kept p g hg (hag.not_finished hfin)

theorem Scanned.gone {s t : State} (h : Scanned s t) {x : Nat} (hx : Gone s x) : Gone t x := by
  intro g hg
  obtain ⟨f, hf, hag⟩ := h.aged x g hg
  exact hag.of_finished (hx f hf)

theorem walk_congr {s t : State} (h : ∀ p, nextOf t p = nextOf s p) :
    ∀ (n a : Nat), walk t n a = walk s n a := by
  intro n
  induction n with
  | zero => intro a; rfl
  | succ n ih => intro a; simp only [walk, h, ih]

theorem ringList_of_fibers_eq {s t : State} (hf : t.fibers = s.fibers) (hh : t.head = s.head)
    (hs : t.size = s.size) : ringList t = ringList s := by
  unfold ringList
  rw [hh, hs]
  exact walk_congr (fun p => by simp [nextOf, State.fiber, hf]) _ _

theorem scanned_of_eq {s t : State} (hf : t.fibers = s.fibers) (hw : t.waits = s.waits)
    (hh : t.head = s.head) (hs : t.size = s.size) : Scanned s t := by
  have hfib : ∀ p, t.fiber p = s.fiber p := fun p => by simp [State.fiber, hf]
  have hwt : ∀ p, t.wait p = s.wait p := fun p => by simp [State.wait, hw]
  refine ⟨fun w nd h => hwt w ▸ h, fun p hp => ?_, fun p g hg => ⟨g, hfib p ▸ hg, Aged.unchanged g⟩,
    fun p f h _ => ⟨f, (hfib p).trans h⟩, fun p h => ?_⟩
  · rw [ringList_of_fibers_eq hf hh hs] at hp
    exact hp
  · unfold Used at h ⊢
    rw [hf]
    exact h

theorem Released.toScanned {s t : State} (h : Released s t) (hwf : WellFormed s) :
    Scanned s t := by
  refine ⟨h.waits, fun p hp => ?_, ?_, ?_, h.used⟩
  · rw [(h.keeps_ring hwf).2] at hp
    exact hp
  · intro p g hg
    cases hf : s.fiber p with
    | none =>
      rw [h.gone p hf] at hg
      cases hg
    | some f =>
      obtain ⟨g', hg', hw⟩ := h.kept p f hf
      rw [hg] at hg'
      cases hg'
      exact ⟨f, rfl, hw.aged⟩
  · intro p f hf _
    obtain ⟨g, hg, _⟩ := h.kept p f hf
    exact ⟨g, hg⟩

theorem scanned_unlinked {s : State} {c prev : Nat} {ff pf : Fiber} (hf : s.fiber c = some ff)
    (hfin : ff.status = STATE_FINISHED) (hpf : s.fiber prev = some pf)
    (hring : ∀ p ∈ ringList (unlinked s c prev pf ff.next), p ∈ ringList s) :
    Scanned s (unlinked s c prev pf ff.next) := by
  refine ⟨fun _ _ h => h, hring, ?_, ?_, ?_⟩
  · intro p g hg
    rw [unlinked_fiber] at hg
    by_cases hpc : p = c
    · simp [hpc] at hg
    · simp only [hpc, if_false] at hg
      by_cases hpp : p = prev
      · subst hpp
        simp only [if_true, fiber_ne_zero hpf, if_false, Option.some.injEq] at hg
        subst hg
        exact ⟨pf, hpf, rfl, rfl, rfl, Or.inl rfl⟩
      · simp only [hpp, if_false] at hg
        exact ⟨g, hg, Aged.unchanged g⟩
  · intro p f hp hnf
    have hpc : p ≠ c := by
      intro e
      rw [e, hf] at hp
      cases hp
      exact hnf hfin
    by_cases hpp : p = prev
    · subst hpp
      exact ⟨_, unlinked_fiber_prev hpc (fiber_ne_zero hpf)⟩
    · exact ⟨f, by rw [unlinked_fiber_other hpc hpp, hp]⟩
  · intro p hp
    exact used_freeFiber _ _ (used_setFiber _ _ _ hp)

theorem scanned_wake {s : State} {c : Nat} {nf : Fiber} (hnf : s.fiber c = some nf)
    (hb : nf.status = STATE_BLOCKED) (hwf : WellFormed s) :
    Scanned s (s.setFiber c { nf with status := STATE_READY }) := by
  have hc0 := fiber_ne_zero hnf
  refine ⟨fun _ _ h => h, fun p hp => ?_, ?_, ?_, fun p hp => used_setFiber _ _ _ hp⟩
  · have := (ring_congr (s.setFiber c { nf with status := STATE_READY }) hwf (fun q _ => by
      rw [fiber_setFiber]
      by_cases hq : q = c
      · subst hq
        simp [hc0, hnf]
      · simp [hq]) rfl rfl rfl).2
    rw [this] at hp
    exact hp
  · intro p g hg
    rw [fiber_setFiber] at hg
    by_cases hp : p = c
    · subst hp
      simp only [if_true, hc0, if_false, Option.some.injEq] at hg
      subst hg
      exact ⟨nf, hnf, rfl, rfl, rfl, Or.inr ⟨hb, rfl⟩⟩
    · simp only [hp, if_false] at hg
      exact ⟨g, hg, Aged.unchanged g⟩
  · intro p f hp _
    by_cases hpc : p = c
    · subst hpc
      exact ⟨_, fiber_setFiber_self _ hc0⟩
    · exact ⟨f, by rw [fiber_setFiber_ne _ hpc, hp]⟩

/-- Reaping a finished member `c` of a well-formed ring, as one iteration of the scan
does it. -/
theorem ring_reap {fuel : Nat} {s s1 s2 : State} {c nx : Nat} {nf : Fiber}
    (hwf : WellFormed s) (hc : c ∈ ringList s) (hnf : s.fiber c = some nf)
    (hfin : nf.status = STATE_FINISHED)
    (hrel : release_fibers fuel s nf.waitList = Res.ok s1)
    (hpop : pop fuel s1 c = Res.ok (nx, s2)) (hnx : nx ≠ 0) :
    Released s s1 ∧ WellFormed s1 ∧ ringList s1 = ringList s ∧ s1.fiber c = some nf ∧
      nx = nf.next ∧ WellFormed s2 ∧ ringList s2 = (ringList s).erase c ∧
      nx ∈ ringList s2 ∧ Scanned s s2 ∧
      ∃ prev pf, s2 = unlinked s1 c prev pf nf.next ∧ s1.fiber prev = some pf ∧ prev ≠ c := by
  have hR := release_fibers_released _ _ _ _ hrel
  obtain ⟨hwf1, hrl1⟩ := hR.keeps_ring hwf
  have hnf1 : s1.fiber c = some nf := hR.status_of_not_blocked hnf (by simp [hfin])
  rcases pop_member hwf1 (hrl1 ▸ hc) hnf1 hfin hpop with
    ⟨_, hnxe, _, hwf2, hrl2, hmem, prev, pf, he, hpf, hpc, _⟩ | ⟨_, h0, _⟩
  · refine ⟨hR, hwf1, hrl1, hnf1, hnxe, hwf2, hrl1 ▸ hrl2, hmem, ?_, prev, pf, he, hpf, hpc⟩
    refine (hR.toScanned hwf).followedBy ?_
    rw [he]
    refine scanned_unlinked hnf1 hfin hpf (fun p hp => ?_)
    rw [← he, hrl2] at hp
    exact List.mem_of_mem_erase hp
  · exact absurd h0 hnx

/-! ## A blocked joiner is passed over -/

theorem WaitsOn.after_scan {s t : State} {b : Nat} (hb : WaitsOn s b) (h : Scanned s t)
    (hst : ∃ g, t.fiber b = some g ∧ g.status = STATE_BLOCKED) : WaitsOn t b := by
  obtain ⟨⟨fb, ft, hfb, _, hft, hftn⟩, hH⟩ := hb
  obtain ⟨g, hg, hgs⟩ := hst
  obtain ⟨f, hf, hag⟩ := h.aged b g hg
  rw [hfb] at hf
  cases hf
  obtain ⟨gt, hgt⟩ := h.kept _ ft hft hftn
  obtain ⟨ft', hft', hagt⟩ := h.aged _ gt hgt
  rw [hft] at hft'
  cases hft'
  refine ⟨⟨g, gt, hg, hgs, by rw [hag.1]; exact hgt, hagt.not_finished hftn⟩, ?_⟩
  intro F hF fF hfF hfin w nd hw hnd
  obtain ⟨f0, hf0, hag0⟩ := h.aged F fF hfF
  refine hH F (h.ring F hF) f0 hf0 (hag0.finished hfin) w nd ?_ (h.waits w nd hnd)
  rw [← hag0.2.1]
  exact InList.mono h.waits hw

theorem WaitsOn.block {s : State} {b : Nat} (hb : WaitsOn s b) :
    ∃ fb ft, s.fiber b = some fb ∧ fb.status = STATE_BLOCKED ∧
      s.fiber fb.joinFiber = some ft ∧ ft.status ≠ STATE_FINISHED := hb.1

theorem schedLoop_waitsOn {fuel : Nat} {b : Nat} :
    ∀ (n : Nat) (s : State) (c : Nat) (s' : State),
      (WellFormed s ∧ c ∈ ringList s ∧ WaitsOn s b) → schedLoop fuel n s c = Res.ok s' →
      WaitsOn s' b ∧ s'.running ≠ b := by
  apply schedLoop_induct (fun s c => WellFormed s ∧ c ∈ ringList s ∧ WaitsOn s b)
    (fun s' => WaitsOn s' b ∧ s'.running ≠ b)
  · rintro s c nf ⟨_, _, hb⟩ hnf hr
    obtain ⟨fb, _, hfb, hfbs, _, _⟩ := hb.block
    refine ⟨hb.after_scan (scanned_of_eq rfl rfl rfl rfl) ⟨fb, hfb, hfbs⟩, ?_⟩
    intro e
    have e' : c = b := e
    rw [e', hfb] at hnf
    cases hnf
    rw [hr] at hfbs
    cases hfbs
  · rintro s c nf s1 s2 nx ⟨hwf, hc, hb⟩ hnf hfin hrel hpop hnx
    obtain ⟨_, _, _, hnf1, _, hwf2, _, hmem, hsc, prev, pf, he, hpf, hpc⟩ :=
      ring_reap hwf hc hnf hfin hrel hpop hnx
    obtain ⟨fb, _, hfb, hfbs, _, _⟩ := hb.block
    have hkeep : s1.fiber b = s.fiber b :=
      release_fibers_keeps fuel s nf.waitList s1 hrel (fun w nd hw hnd =>
        hb.2 c hc nf hnf hfin w nd hw hnd)
    have hbc : b ≠ c := by
      intro e
      rw [e, hnf] at hfb
      cases hfb
      rw [hfin] at hfbs
      cases hfbs
    have hb2 : ∃ g, s2.fiber b = some g ∧ g.status = STATE_BLOCKED := by
      rw [he]
      by_cases hbp : b = prev
      · have hprev : s1.fiber b = some pf := by rw [hbp]; exact hpf
        rw [hkeep, hfb] at hprev
        have hpe : fb = pf := Option.some.inj hprev
        refine ⟨{ pf with next := nf.next }, ?_, by rw [← hpe]; exact hfbs⟩
        rw [hbp]
        exact unlinked_fiber_prev hpc (fiber_ne_zero hpf)
      · exact ⟨fb, by rw [unlinked_fiber_other hbc hbp, hkeep, hfb], hfbs⟩
    exact ⟨hwf2, hmem, hb.after_scan hsc hb2⟩
  · rintro s c nf jf ⟨hwf, hc, hb⟩ hnf _ _ _
    refine ⟨hwf, ?_, hb⟩
    rw [← nextOf_eq hnf]
    exact next_mem_ring hwf hc
  · rintro s c nf jf ⟨hwf, hc, hb⟩ hnf hnb hjf hjfin
    obtain ⟨fb, ft, hfb, hfbs, hft, hftn⟩ := hb.block
    have hbc : b ≠ c := by
      intro e
      rw [e, hnf] at hfb
      cases hfb
      rw [hjf] at hft
      cases hft
      exact hftn hjfin
    have hsc := scanned_wake hnf hnb hwf
    obtain ⟨hwf', hrl⟩ := ring_congr (s.setFiber c { nf with status := STATE_READY }) hwf
      (fun p _ => by
        rw [fiber_setFiber]
        by_cases hpc : p = c
        · subst hpc
          simp [fiber_ne_zero hnf, hnf]
        · simp [hpc]) rfl rfl rfl
    exact ⟨hwf', by rw [hrl]; exact hc,
      hb.after_scan hsc ⟨fb, by rw [fiber_setFiber_ne _ hbc, hfb], hfbs⟩⟩

theorem hostJoins_wf : WellFormed hostJoins :=
  ⟨by decide, by decide, by decide, by decide, by decide⟩

theorem hostJoins_waitsOn : WaitsOn hostJoins 1 := by
  refine ⟨⟨_, _, rfl, rfl, rfl, by decide⟩, ?_⟩
  intro F hF fF hfF hfin
  have hst : ∀ p ∈ ringList hostJoins, statusOf hostJoins p ≠ some STATE_FINISHED := by decide
  exact absurd (by simp [statusOf, hfF, hfin]) (hst F hF)

/-! ## A finished fiber stays finished -/

theorem schedLoop_scanned {fuel : Nat} (s0 : State) :
    ∀ (n : Nat) (s : State) (c : Nat) (s' : State),
      (WellFormed s ∧ c ∈ ringList s ∧ Scanned s0 s) → schedLoop fuel n s c = Res.ok s' →
      Scanned s0 s' := by
  apply schedLoop_induct (fun s c => WellFormed s ∧ c ∈ ringList s ∧ Scanned s0 s)
    (fun s' => Scanned s0 s')
  · rintro s c nf ⟨_, _, hsc⟩ _ _
    exact hsc.followedBy (scanned_of_eq rfl rfl rfl rfl)
  · rintro s c nf s1 s2 nx ⟨hwf, hc, hsc⟩ hnf hfin hrel hpop hnx
    obtain ⟨_, _, _, _, _, hwf2, _, hmem, hsc2, _⟩ := ring_reap hwf hc hnf hfin hrel hpop hnx
    exact ⟨hwf2, hmem, hsc.followedBy hsc2⟩
  · rintro s c nf jf ⟨hwf, hc, hsc⟩ hnf _ _ _
    refine ⟨hwf, ?_, hsc⟩
    rw [← nextOf_eq hnf]
    exact next_mem_ring hwf hc
  · rintro s c nf jf ⟨hwf, hc, hsc⟩ hnf hnb _ _
    obtain ⟨hwf', hrl⟩ := ring_congr (s.setFiber c { nf with status := STATE_READY }) hwf
      (fun p _ => by
        rw [fiber_setFiber]
        by_cases hpc : p = c
        · subst hpc
          simp [fiber_ne_zero hnf, hnf]
        · simp [hpc]) rfl rfl rfl
    exact ⟨hwf', by rw [hrl]; exact hc, hsc.followedBy (scanned_wake hnf hnb hwf)⟩

theorem scheduler_scanned {fuel : Nat} {s s' : State} (hwf : WellFormed s)
    (hm : s.running ∈ ringList s) (h : scheduler fuel s = Res.ok s') : Scanned s s' := by
  unfold scheduler at h
  obtain ⟨hwf0, hrl0⟩ := ring_congr (stop_timer s) hwf (fun _ _ => rfl) rfl rfl rfl
  have hrun : (stop_timer s).fiber (stop_timer s).running = s.fiber s.running := rfl
  simp only [hrun] at h
  cases hr : s.fiber s.running with
  | none => simp [hr] at h
  | some r =>
    simp only [hr] at h
    refine schedLoop_scanned s fuel (stop_timer s) r.next s'
      ⟨hwf0, ?_, scanned_of_eq rfl rfl rfl rfl⟩ h
    rw [← nextOf_eq hr]
    exact next_mem_ring hwf0 (by rw [hrl0]; exact hm)

theorem fiber_destroy_scanned {s s' : State} {fuel id : Nat} {code : Int} (hr : RunnerReady s)
    (h : fiber_destroy fuel s id = Res.ok (code, s')) : Scanned s s' := by
  have hwf := hr.wf
  by_cases hm : id ∈ ringList s
  · obtain ⟨ff, hf⟩ := ring_live hwf hm
    by_cases hfin : ff.status = STATE_FINISHED
    · obtain ⟨j, hj, hloc⟩ := locate_mem hwf hm
      have hj' : ¬ j > s.size := by omega
      unfold fiber_destroy at h
      simp only [hloc, if_neg hj'] at h
      cases hpop : pop fuel s id with
      | fault => simp [hpop] at h
      | diverge => simp [hpop] at h
      | exit e => simp [hpop] at h
      | ok res =>
        obtain ⟨nx, s1⟩ := res
        have hs1 : s' = s1 := by
          simp only [hpop] at h
          by_cases hnx : nx = 0
          · simp only [hnx, if_true, Res.ok.injEq, Prod.mk.injEq] at h
            exact h.2.symm
          · simp only [hnx, if_false, Res.ok.injEq, Prod.mk.injEq] at h
            exact h.2.symm
        subst hs1
        rcases pop_member hwf hm hf hfin hpop with
          ⟨_, _, _, _, hrl2, _, prev, pf, he, hpf, _, _⟩ | ⟨h1, _, _⟩
        · rw [he]
          refine scanned_unlinked hf hfin hpf (fun p hp => ?_)
          rw [← he, hrl2] at hp
          exact List.mem_of_mem_erase hp
        · exfalso
          obtain ⟨r, hrf, hrs⟩ := hr.running_live
          have hrl : ringList s = [s.head] := by simp [ringList, h1, walk]
          have e1 : id = s.head := by simpa [hrl] using hm
          have e2 : s.running = s.head := by simpa [hrl] using hr.mem
          rw [e2, ← e1, hf] at hrf
          cases hrf
          rw [hfin] at hrs
          cases hrs
    · have hst : statusOf s id = some STATE_READY ∨ statusOf s id = some STATE_BLOCKED := by
        simp only [statusOf, hf, Option.map_some', Option.some.injEq]
        cases hs : ff.status <;> simp_all
      rw [fiber_destroy_reject fuel s hwf id (Or.inr hst)] at h
      simp only [Res.ok.injEq, Prod.mk.injEq] at h
      rw [← h.2]
      exact Scanned.nothing s
  · rw [fiber_destroy_reject fuel s hwf id (Or.inl hm)] at h
    simp only [Res.ok.injEq, Prod.mk.injEq] at h
    rw [← h.2]
    exact Scanned.nothing s

theorem fiber_create_gone {s s' : State} {fiber start_routine arg : Nat} {env : CreateEnv}
    {code : Int} {x : Nat} (hr : RunnerReady s)
    (hfresh' : env.new_node ≠ 0 → s.fibers env.new_node = Slot.unused)
    (h : fiber_create s fiber start_routine arg env = Res.ok (code, s'))
    (hu : Used s x) (hg : Gone s x) : Used s' x ∧ Gone s' x := by
  by_cases h0 : fiber = 0
  · simp only [fiber_create, h0, if_true, Res.ok.injEq, Prod.mk.injEq] at h
    rw [← h.2]
    exact ⟨hu, hg⟩
  by_cases h1 : env.new_node = 0
  · simp only [fiber_create, h0, h1, if_true, if_false, Res.ok.injEq, Prod.mk.injEq] at h
    rw [← h.2]
    exact ⟨hu, hg⟩
  have hfresh := hfresh' h1
  have hxn : x ≠ env.new_node := fun e => hu (e ▸ hfresh)
  have hnone : s.fiber env.new_node = none := by simp [State.fiber, hfresh]
  have hleak : Used ((stop_timer s).setFiber env.new_node env.junk) x ∧
      Gone ((stop_timer s).setFiber env.new_node env.junk) x := by
    refine ⟨used_setFiber _ _ _ hu, fun f hf => hg f ?_⟩
    rw [fiber_setFiber_ne _ hxn] at hf
    exact hf
  cases h2 : env.getcontext_ok with
  | false =>
    simp only [fiber_create, h0, h1, h2, if_true, if_false, Res.ok.injEq, Prod.mk.injEq] at h
    rw [← h.2]
    exact hleak
  | true =>
  by_cases h3 : env.ss_sp = 0
  · simp only [fiber_create, h0, h1, h2, h3, if_true, if_false, Res.ok.injEq,
      Prod.mk.injEq, Bool.true_eq_false] at h
    rw [← h.2]
    exact hleak
  obtain ⟨t, ht⟩ := ring_live hr.wf (tail_mem_ringList hr.wf)
  obtain ⟨s'', hc, _, _, _, _, _, _, _, hold, hframe, _, hused⟩ :=
    fiber_create_eq s fiber start_routine arg env h0 h1 hnone ht h2 h3
  rw [hc] at h
  simp only [Res.ok.injEq, Prod.mk.injEq] at h
  obtain ⟨_, rfl⟩ := h
  refine ⟨hused x hu, fun f hf => ?_⟩
  by_cases hxt : x = s.tail
  · rw [hxt, hold] at hf
    cases hf
    exact hg t (hxt ▸ ht)
  · rw [hframe x hxn hxt] at hf
    exact hg f hf

theorem step_gone {s s' : State} {x : Nat} (hr : RunnerReady s) (h : Step s s')
    (hu : Used s x) (hg : Gone s x) : Used s' x ∧ Gone s' x := by
  obtain ⟨r, hrf, hrs⟩ := hr.running_live
  have hxr : x ≠ s.running := by
    intro e
    have := hg r (e ▸ hrf)
    rw [hrs] at this
    cases this
  cases h
  · exact fiber_create_gone hr (by assumption) (by assumption) hu hg
  · have hsc := fiber_destroy_scanned hr (by assumption)
    exact ⟨hsc.used x hu, hsc.gone hg⟩
  · have hsc := (fiber_join_returned (by assumption)).toScanned hr.wf
    exact ⟨hsc.used x hu, hsc.gone hg⟩
  · rename_i hj hs
    have hl := fiber_join_suspended hj
    obtain ⟨hwf1, hrl1⟩ := hl.same_ring hr.wf
    have hsc := scheduler_scanned hwf1 (by rw [hrl1, hl.running]; exact hr.mem) hs
    exact ⟨hsc.used x (hl.used x hu), hsc.gone (hl.fin x hxr hg)⟩
  · obtain ⟨hl, _⟩ := fiber_join_resume_sameLinks (by assumption)
    exact ⟨hl.used x hu, hl.fin x hxr hg⟩
  · rename_i he hs
    have hl := fiber_exit_sameLinks he
    obtain ⟨hwf1, hrl1⟩ := hl.same_ring hr.wf
    have hsc := scheduler_scanned hwf1 (by rw [hrl1, hl.running]; exact hr.mem) hs
    exact ⟨hsc.used x (hl.used x hu), hsc.gone (hl.fin x hxr hg)⟩
  · have hsc := scheduler_scanned hr.wf hr.mem (by assumption)
    exact ⟨hsc.used x hu, hsc.gone hg⟩

theorem steps_gone {s s' : State} {x : Nat} (h : Steps s s') :
    RunnerReady s → Used s x → Gone s x → RunnerReady s' ∧ Used s' x ∧ Gone s' x := by
  induction h with
  | refl => intro hr hu hg; exact ⟨hr, hu, hg⟩
  | tail t u _ hstep ih =>
    intro hr hu hg
    obtain ⟨hrt, hut, hgt⟩ := ih hr hu hg
    exact ⟨step_runner hrt hstep, step_gone hrt hstep hut hgt⟩

theorem gone_not_running {s : State} {x : Nat} (hr : RunnerReady s) (hg : Gone s x) :
    s.running ≠ x := by
  obtain ⟨r, hrf, hrs⟩ := hr.running_live
  intro e
  have := hg r (e ▸ hrf)
  rw [hrs] at this
  cases this

/-- A scan whose cursor reaches a finished member `x` of the ring has unlinked and freed
`x` when it commits. -/
theorem schedLoop_removes {fuel : Nat} {x : Nat} :
    ∀ (n : Nat) (s : State) (c : Nat) (s' : State),
      (WellFormed s ∧ c ∈ ringList s ∧
        ((c = x ∧ statusOf s x = some STATE_FINISHED) ∨
          (x ∉ ringList s ∧ s.fiber x = none))) →
      schedLoop fuel n s c = Res.ok s' → x ∉ ringList s' ∧ s'.fiber x = none := by
  apply schedLoop_induct
    (fun s c => WellFormed s ∧ c ∈ ringList s ∧
      ((c = x ∧ statusOf s x = some STATE_FINISHED) ∨ (x ∉ ringList s ∧ s.fiber x = none)))
    (fun s' => x ∉ ringList s' ∧ s'.fiber x = none)
  · rintro s c nf ⟨_, _, h⟩ hnf hr
    rcases h with ⟨e, hst⟩ | ⟨h1, h2⟩
    · rw [← e, statusOf, hnf] at hst
      simp [hr] at hst
    · have hrl : ringList (commit s c) = ringList s := ringList_of_fibers_eq rfl rfl rfl
      exact ⟨by rw [hrl]; exact h1, h2⟩
  · rintro s c nf s1 s2 nx ⟨hwf, hc, h⟩ hnf hfin hrel hpop hnx
    obtain ⟨hR, _, _, _, _, hwf2, hrl2, hmem, _, prev, pf, he, hpf, hpc⟩ :=
      ring_reap hwf hc hnf hfin hrel hpop hnx
    refine ⟨hwf2, hmem, Or.inr ?_⟩
    rcases h with ⟨e, _⟩ | ⟨h1, h2⟩
    · subst e
      refine ⟨?_, by rw [he]; exact unlinked_fiber_self _ _ _ _ _⟩
      rw [hrl2]
      exact fun hx => (hwf.nodup.mem_erase_iff.mp hx).1 rfl
    · refine ⟨by rw [hrl2]; exact fun hx => h1 (List.mem_of_mem_erase hx), ?_⟩
      have hx1 : s1.fiber x = none := hR.gone x h2
      rw [he, unlinked_fiber]
      by_cases hxc : x = c
      · simp [hxc]
      · have hxp : x ≠ prev := by
          intro e
          rw [e, hpf] at hx1
          cases hx1
        simp [hxc, hxp, hx1]
  · rintro s c nf jf ⟨hwf, hc, h⟩ hnf hnb _ _
    refine ⟨hwf, by rw [← nextOf_eq hnf]; exact next_mem_ring hwf hc, Or.inr ?_⟩
    rcases h with ⟨e, hst⟩ | h
    · rw [← e, statusOf, hnf] at hst
      simp [hnb] at hst
    · exact h
  · rintro s c nf jf ⟨hwf, hc, h⟩ hnf hnb _ _
    obtain ⟨hwf', hrl⟩ := ring_congr (s.setFiber c { nf with status := STATE_READY }) hwf
      (fun p _ => by
        rw [fiber_setFiber]
        by_cases hpc : p = c
        · subst hpc
          simp [fiber_ne_zero hnf, hnf]
        · simp [hpc]) rfl rfl rfl
    refine ⟨hwf', by rw [hrl]; exact hc, Or.inr ?_⟩
    rcases h with ⟨e, hst⟩ | ⟨h1, h2⟩
    · rw [← e, statusOf, hnf] at hst
      simp [hnb] at hst
    · refine ⟨by rw [hrl]; exact h1, ?_⟩
      have hxc : x ≠ c := by
        intro e
        rw [e, hnf] at h2
        cases h2
      rw [fiber_setFiber_ne _ hxc]
      exact h2

theorem fiber_exit_eq {s : State} {r : Fiber} (v : Nat) (hr : s.fiber s.running = some r) :
    fiber_exit s v =
      Res.ok ((s.setFiber s.running { r with retval := v }).setFiber s.running
        { r with retval := v, status := STATE_FINISHED }) := by
  have hr0 := fiber_ne_zero hr
  have h1 : (s.setFiber s.running { r with retval := v }).fiber
      (s.setFiber s.running { r with retval := v }).running = some { r with retval := v } :=
    fiber_setFiber_self _ hr0
  simp only [fiber_exit, hr, h1]
  rfl

/-! ## Round robin -/

theorem walk_eq_map (s : State) :
    ∀ (n a : Nat), walk s n a = (List.range n).map (fun k => (nextOf s)^[k] a) := by
  intro n
  induction n with
  | zero => intro a; rfl
  | succ n ih =>
    intro a
    rw [walk, ih, List.range_succ_eq_map, List.map_cons, List.map_map]
    rfl

theorem WellFormed.cycle {s : State} (h : WellFormed s) :
    (nextOf s)^[s.size] s.head = s.head := by
  obtain ⟨n, hn⟩ : ∃ n, s.size = n + 1 := ⟨s.size - 1, by have := h.pos; omega⟩
  have hl := walk_getLast s n s.head
  have hlast := h.last
  unfold ringList at hlast
  rw [hn] at hlast ⊢
  rw [hl] at hlast
  have ht : (nextOf s)^[n] s.head = s.tail := by simpa using hlast
  rw [Function.iterate_succ_apply', ht]
  exact h.close

theorem WellFormed.periodic {s : State} (h : WellFormed s) (k : Nat) :
    (nextOf s)^[k % s.size] s.head = (nextOf s)^[k] s.head := by
  have hper : ∀ q r, (nextOf s)^[r + s.size * q] s.head = (nextOf s)^[r] s.head := by
    intro q
    induction q with
    | zero => intro r; simp
    | succ q ih =>
      intro r
      have : r + s.size * (q + 1) = (r + s.size * q) + s.size := by ring
      rw [this, Function.iterate_add_apply, h.cycle, ih]
  conv_rhs => rw [← Nat.mod_add_div k s.size]
  exact (hper _ _).symm

theorem WellFormed.nth_inj {s : State} (h : WellFormed s) {i j : Nat} (hi : i < s.size)
    (hj : j < s.size) (e : (nextOf s)^[i] s.head = (nextOf s)^[j] s.head) : i = j := by
  have hnd := h.nodup
  unfold ringList at hnd
  rw [walk_eq_map] at hnd
  exact List.inj_on_of_nodup_map hnd (List.mem_range.mpr hi) (List.mem_range.mpr hj) e

theorem WellFormed.nth_of_mem {s : State} (_h : WellFormed s) {p : Nat} (hp : p ∈ ringList s) :
    ∃ i, i < s.size ∧ (nextOf s)^[i] s.head = p := by
  unfold ringList at hp
  rw [walk_eq_map, List.mem_map] at hp
  obtain ⟨i, hi, e⟩ := hp
  exact ⟨i, List.mem_range.mp hi, e⟩

theorem WellFormed.nth_mem {s : State} (h : WellFormed s) (k : Nat) :
    (nextOf s)^[k] s.head ∈ ringList s := by
  rw [← h.periodic k]
  unfold ringList
  rw [walk_eq_map, List.mem_map]
  exact ⟨k % s.size, List.mem_range.mpr (Nat.mod_lt _ h.pos), rfl⟩

theorem scheduler_ready {fuel : Nat} {s : State} {r nf : Fiber} (hfuel : 1 ≤ fuel)
    (hr : s.fiber s.running = some r) (hnf : s.fiber r.next = some nf)
    (hst : nf.status = STATE_READY) :
    scheduler fuel s = Res.ok (commit (stop_timer s) r.next) := by
  obtain ⟨k, rfl⟩ : ∃ k, fuel = k + 1 := ⟨fuel - 1, by omega⟩
  have h1 : (stop_timer s).fiber (stop_timer s).running = some r := hr
  have h2 : (stop_timer s).fiber r.next = some nf := hnf
  simp only [scheduler, h1, schedLoop, h2, hst, if_true]

theorem slices_ready {fuel : Nat} {s : State} (hwf : WellFormed s)
    (hready : ∀ p ∈ ringList s, statusOf s p = some STATE_READY) (hfuel : 1 ≤ fuel)
    (i0 : Nat) (hrun : s.running = (nextOf s)^[i0] s.head) :
    ∀ j, ∃ t, slices fuel j s = Res.ok t ∧ t.fibers = s.fibers ∧
      t.running = (nextOf s)^[i0 + j] s.head := by
  intro j
  induction j with
  | zero => exact ⟨s, rfl, rfl, hrun⟩
  | succ j ih =>
    obtain ⟨t, ht, hfib, hrun'⟩ := ih
    have hfiber : ∀ p, t.fiber p = s.fiber p := fun p => by simp [State.fiber, hfib]
    have hm : t.running ∈ ringList s := by rw [hrun']; exact hwf.nth_mem _
    obtain ⟨r, hr⟩ := ring_live hwf hm
    have hm' : r.next ∈ ringList s := by
      rw [← nextOf_eq hr]
      exact next_mem_ring hwf hm
    obtain ⟨nf, hnf⟩ := ring_live hwf hm'
    have hst : nf.status = STATE_READY := by
      have := hready _ hm'
      simpa [statusOf, hnf] using this
    have hsched := scheduler_ready hfuel ((hfiber _).trans hr) ((hfiber _).trans hnf) hst
    refine ⟨commit (stop_timer t) r.next, ?_, hfib, ?_⟩
    · simp only [slices, ht, hsched]
    · show r.next = _
      rw [← nextOf_eq hr, hrun', ← Function.iterate_succ_apply' (nextOf s)]
      rfl

theorem selected_ready {fuel : Nat} {s : State} (hwf : WellFormed s)
    (hready : ∀ p ∈ ringList s, statusOf s p = some STATE_READY) (hfuel : 1 ≤ fuel)
    (i0 : Nat) (hrun : s.running = (nextOf s)^[i0] s.head) (j : Nat) :
    selected fuel s j = some ((nextOf s)^[i0 + (j + 1)] s.head) := by
  obtain ⟨t, ht, _, hrun'⟩ := slices_ready hwf hready hfuel i0 hrun (j + 1)
  simp only [selected, ht, hrun']

theorem count_congr {p q : Nat → Prop} [DecidablePred p] [DecidablePred q]
    (h : ∀ i, p i ↔ q i) : ∀ n, Nat.count p n = Nat.count q n := by
  intro n
  induction n with
  | zero => simp
  | succ n ih =>
    rw [Nat.count_succ, Nat.count_succ, ih]
    by_cases hp : p n
    · simp [hp, (h n).mp hp]
    · have hq : ¬ q n := fun hq => hp ((h n).mpr hq)
      simp [hp, hq]

theorem ceil_div_of_mod_pos {K N : Nat} (hN : 0 < N) (h : 0 < K % N) :
    (K + N - 1) / N = K / N + 1 := by
  have hlt := Nat.mod_lt K hN
  have e : K + N - 1 = (K % N - 1) + N * (K / N + 1) := by
    have := Nat.div_add_mod K N
    rw [Nat.mul_add, Nat.mul_one]
    omega
  rw [e, Nat.add_mul_div_left _ _ hN, Nat.div_eq_of_lt (by omega)]
  omega

/-! ## The slow path of join -/

/-- The rest of `fiber_join` with a non-null out-pointer, when the caller's `join_rval` is
null and its target is still live: the target's `retval` is stored through the pointer. -/
theorem fiber_join_resume_fetches {s : State} {r jf : Fiber} {retval : Nat}
    (hr : s.fiber s.running = some r) (hrv : r.join_rval = 0)
    (hjf : s.fiber r.joinFiber = some jf) (hret : retval ≠ 0) :
    ∃ s', fiber_join_resume s retval = Res.ok (0, s') ∧ s'.cells retval = jf.retval := by
  have hj0 := fiber_ne_zero hjf
  have hr0 := fiber_ne_zero hr
  have hc : ({ s with cells := Function.update s.cells retval jf.retval } : State).fiber
      ({ s with cells := Function.update s.cells retval jf.retval } : State).running
      = some r := hr
  have h1 : (({ s with cells := Function.update s.cells retval jf.retval } : State).setFiber
      ({ s with cells := Function.update s.cells retval jf.retval } : State).running
      { r with retval := 0, join_rval := 0 }).fiber
      (({ s with cells := Function.update s.cells retval jf.retval } : State).setFiber
        ({ s with cells := Function.update s.cells retval jf.retval } : State).running
        { r with retval := 0, join_rval := 0 }).running
      = some { r with retval := 0, join_rval := 0 } := fiber_setFiber_self _ hr0
  unfold fiber_join_resume
  simp only [hr, if_pos hret, if_pos (And.intro hrv hj0), hjf, hc, h1]
  exact ⟨_, rfl, by simp [State.setFiber]⟩

theorem slow_path_run :
    scheduler 4 hostJoins = Res.ok fiberTwoAfterJoin ∧ fiberTwoAfterJoin.running = 2 ∧
    scheduler 4 fiberTwoAfterJoin = Res.ok fiberThreeRuns ∧ fiberThreeRuns.running = 3 ∧
    fiber_exit fiberThreeRuns 42 = Res.ok fiberThreeExited ∧
    scheduler 4 fiberThreeExited = Res.ok hostWoken ∧ hostWoken.running = 1 ∧
    ∃ s', fiber_join_resume hostWoken 101 = Res.ok (0, s') ∧ s'.cells 101 = 42 :=
  ⟨rfl, rfl, rfl, rfl, rfl, rfl, rfl, _, rfl, rfl⟩

/-! ## Facts about the sample states -/

theorem hostResumed_wf : WellFormed hostResumed :=
  ⟨by decide, by decide, by decide, by decide, by decide⟩

theorem fiberTwoRuns_reachable : Reachable fiberTwoRuns :=
  Reachable.step _ _
    (Reachable.step _ _
      (Reachable.boot 1 (blankFiber 0 STATE_READY) 900 901 (fun _ => 7) (by decide))
      (Step.create bootState createdOne 100 50 0 (sampleEnv 2) 0 (fun _ => rfl) rfl))
    (Step.preempt createdOne fiberTwoRuns 4 rfl)

theorem hostResumed_reachable : Reachable hostResumed :=
  Reachable.step _ _ fiberTwoRuns_reachable
    (Step.exit fiberTwoRuns fiberTwoExited hostResumed 4 42 rfl rfl)

/-! ## Releasing a proper wait list -/

theorem chain_frame {s t : State} :
    ∀ {l : List Nat} {h : Nat}, (∀ w ∈ l, t.wait w = s.wait w) → Chain s h l → Chain t h l := by
  intro l
  induction l with
  | nil => intro h _ hc; exact hc
  | cons w l ih =>
    intro h hf hc
    obtain ⟨e, hn, nd, hnd, hrest⟩ := hc
    refine ⟨e, hn, nd, ?_, ih (fun w' hw' => hf w' (List.mem_cons_of_mem _ hw')) hrest⟩
    rw [hf w (List.mem_cons_self _ _), hnd]

theorem chain_live {s : State} :
    ∀ {l : List Nat} {h : Nat}, Chain s h l → ∀ w ∈ l, ∃ nd, s.wait w = some nd := by
  intro l
  induction l with
  | nil => intro h _ w hw; cases hw
  | cons x l ih =>
    intro h hc w hw
    obtain ⟨_, _, nd, hnd, hrest⟩ := hc
    rcases List.mem_cons.mp hw with e | hw'
    · exact ⟨nd, e ▸ hnd⟩
    · exact ih hrest w hw'

theorem chain_inList {s : State} :
    ∀ {l : List Nat} {h : Nat}, Chain s h l → ∀ w ∈ l, InList s h w := by
  intro l
  induction l with
  | nil => intro h _ w hw; cases hw
  | cons x l ih =>
    intro h hc w hw
    obtain ⟨e, _, nd, hnd, hrest⟩ := hc
    subst e
    rcases List.mem_cons.mp hw with e | hw'
    · subst e
      exact InList.here _ nd hnd
    · exact InList.there _ _ nd hnd (ih hrest w hw')

/-- Releasing a proper wait list none of whose nodes names a blocked fiber returns, frees
the nodes of the list and changes nothing else. -/
theorem release_fibers_quiet :
    ∀ (l : List Nat) (fuel : Nat) (s : State) (h : Nat), Chain s h l → l.length < fuel →
      (∀ w ∈ l, ∀ nd, s.wait w = some nd →
        nd.id = 0 ∨ ∃ f, s.fiber nd.id = some f ∧ f.status ≠ STATE_BLOCKED) →
      ∃ t, release_fibers fuel s h = Res.ok t ∧ t.fibers = s.fibers ∧ t.head = s.head ∧
        t.tail = s.tail ∧ t.size = s.size ∧ t.running = s.running ∧
        (∀ w, w ∉ l → t.waits w = s.waits w) := by
  intro l
  induction l with
  | nil =>
    intro fuel s h hc hfuel _
    obtain ⟨fuel, rfl⟩ : ∃ k, fuel = k + 1 := ⟨fuel - 1, by simp at hfuel; omega⟩
    have h0 : h = 0 := hc
    subst h0
    exact ⟨s, by simp [release_fibers], rfl, rfl, rfl, rfl, rfl, fun _ _ => rfl⟩
  | cons w l ih =>
    intro fuel s h hc hfuel hq
    obtain ⟨e, hn, nd, hnd, hrest⟩ := hc
    subst e
    obtain ⟨fuel, rfl⟩ : ∃ k, fuel = k + 1 := ⟨fuel - 1, by simp at hfuel; omega⟩
    have hw0 := wait_ne_zero hnd
    have hrest' : Chain (s.freeWait h) nd.next l :=
      chain_frame (fun w' hw' => by
        have hne : w' ≠ h := fun e => hn (e ▸ hw')
        rw [wait_freeWait, if_neg hne]) hrest
    have hq' : ∀ w' ∈ l, ∀ nd', (s.freeWait h).wait w' = some nd' →
        nd'.id = 0 ∨ ∃ f, (s.freeWait h).fiber nd'.id = some f ∧ f.status ≠ STATE_BLOCKED := by
      intro w' hw' nd' hnd'
      have hne : w' ≠ h := fun e => hn (e ▸ hw')
      rw [wait_freeWait, if_neg hne] at hnd'
      exact hq w' (List.mem_cons_of_mem _ hw') nd' hnd'
    obtain ⟨t, ht, hfib, hh, htl, hsz, hrun, hwaits⟩ :=
      ih fuel (s.freeWait h) nd.next hrest' (by simp at hfuel; omega) hq'
    have hstep : release_fibers (fuel + 1) s h = release_fibers fuel (s.freeWait h) nd.next := by
      rw [release_fibers]
      rcases hq h (List.mem_cons_self _ _) nd hnd with h0 | ⟨f, hf, hfb⟩
      · simp [hw0, hnd, h0]
      · have hid : nd.id ≠ 0 := fiber_ne_zero hf
        simp [hw0, hnd, hid, hf, hfb]
    refine ⟨t, hstep ▸ ht, hfib, hh, htl, hsz, hrun, ?_⟩
    intro w' hw'
    rw [hwaits w' (fun hm => hw' (List.mem_cons_of_mem _ hm))]
    have : w' ≠ h := fun e => hw' (e ▸ List.mem_cons_self _ _)
    simp [State.freeWait, Function.update_noteq this]

/-! ## A ring of finished fibers -/

/-- When `pop` leaves an empty ring it returns `NULL`. -/
theorem pop_null_of_empty {s s2 : State} {c nx fuel : Nat} (h : pop fuel s c = Res.ok (nx, s2))
    (hz : s2.size = 0) : nx = 0 := by
  unfold pop at h
  by_cases hc : c = 0
  · simp only [hc, if_true, Res.ok.injEq, Prod.mk.injEq] at h
    exact h.1.symm
  simp only [hc, if_false] at h
  by_cases hs : s.size = 0
  · simp only [hs, if_true, Res.ok.injEq, Prod.mk.injEq] at h
    exact h.1.symm
  simp only [hs, if_false] at h
  cases hf : s.fiber c with
  | none => simp [hf] at h
  | some ff =>
    simp only [hf] at h
    by_cases hfin : ff.status ≠ STATE_FINISHED
    · rw [if_pos hfin] at h
      simp only [Res.ok.injEq, Prod.mk.injEq] at h
      exact h.1.symm
    rw [if_neg hfin] at h
    cases hw : popWalk fuel s c s.head with
    | fault => simp [hw] at h
    | diverge => simp [hw] at h
    | exit e => simp [hw] at h
    | ok prev =>
      simp only [hw] at h
      cases hp : s.fiber prev with
      | none => simp [hp] at h
      | some pf =>
        simp only [hp] at h
        cases hf1 : (s.setFiber prev { pf with next := ff.next }).fiber c with
        | none => simp [hf1] at h
        | some f1 =>
          simp only [hf1] at h
          by_cases hz' : s.size - 1 = 0
          · simp only [State.freeFiber, State.setFiber, hz', if_true, Res.ok.injEq,
              Prod.mk.injEq] at h
            exact h.1.symm
          · simp only [State.freeFiber, State.setFiber, hz', if_false, Res.ok.injEq,
              Prod.mk.injEq] at h
            rw [← h.2] at hz
            exact absurd hz hz'

/-- One iteration of the scan at a finished fiber whose removal empties the ring. -/
theorem schedLoop_reap_last {fuel n : Nat} {s s1 s2 : State} {c nx : Nat} {nf : Fiber}
    (hnf : s.fiber c = some nf) (hfin : nf.status = STATE_FINISHED)
    (hrel : release_fibers fuel s nf.waitList = Res.ok s1)
    (hpop : pop fuel s1 c = Res.ok (nx, s2)) (hz : s2.size = 0) :
    schedLoop fuel (n + 1) s c = Res.exit 0 := by
  have hnx := pop_null_of_empty hpop hz
  subst hnx
  rw [schedLoop]
  simp [hnf, hfin, hrel, hpop, hz]

/-- One iteration of the scan at a finished fiber that is followed by a fiber that is not
blocked. -/
theorem schedLoop_reap_next {fuel n : Nat} {s s1 s2 : State} {c nx : Nat} {nf nf3 : Fiber}
    (hnf : s.fiber c = some nf) (hfin : nf.status = STATE_FINISHED)
    (hrel : release_fibers fuel s nf.waitList = Res.ok s1)
    (hpop : pop fuel s1 c = Res.ok (nx, s2)) (hnx : nx ≠ 0)
    (hnf3 : s2.fiber nx = some nf3) (hnb : nf3.status ≠ STATE_BLOCKED) :
    schedLoop fuel (n + 1) s c = schedLoop fuel n s2 nx := by
  rw [schedLoop]
  simp [hnf, hfin, hrel, hpop, hnx, hnf3, hnb]


theorem fiber_of_fibers_eq {s t : State} (h : t.fibers = s.fibers) (p : Nat) :
    t.fiber p = s.fiber p := by
  simp [State.fiber, h]

theorem wait_of_waits_eq {s t : State} {w : Nat} (h : t.waits w = s.waits w) :
    t.wait w = s.wait w := by
  simp [State.wait, h]

theorem wait_unlinked (s : State) (f prev : Nat) (pf : Fiber) (nx w : Nat) :
    (unlinked s f prev pf nx).wait w = s.wait w := rfl

/-- Releasing the wait list of a finished member of a ring with own lists. -/
theorem release_own {L fuel : Nat} {s : State} {c : Nat} {nf : Fiber} (hwf : WellFormed s)
    (hc : c ∈ ringList s) (hnf : s.fiber c = some nf) (hfin : nf.status = STATE_FINISHED)
    (hown : OwnLists s L) (hL : L < fuel) :
    ∃ l s1, Chain s nf.waitList l ∧ (∀ w ∈ l, ∀ nd, s.wait w = some nd → nd.id = c) ∧
      release_fibers fuel s nf.waitList = Res.ok s1 ∧ s1.fibers = s.fibers ∧
      (∀ w, w ∉ l → s1.waits w = s.waits w) ∧ WellFormed s1 ∧ ringList s1 = ringList s ∧
      s1.size = s.size := by
  obtain ⟨l, hch, hlen, hid⟩ := hown c hc nf hnf
  obtain ⟨s1, hrel, hfib, hh, ht, hs, _, hw⟩ :=
    release_fibers_quiet l fuel s nf.waitList hch (by omega) (fun w hw nd hnd =>
      Or.inr ⟨nf, by rw [hid w hw nd hnd, hnf], by rw [hfin]; decide⟩)
  obtain ⟨hwf1, hrl1⟩ := ring_congr s1 hwf (fun p _ => by rw [fiber_of_fibers_eq hfib]) hh ht hs
  exact ⟨l, s1, hch, hid, hrel, hfib, hw, hwf1, hrl1, hs⟩

/-- A scan of a ring of finished fibers with own lists reaps them one after the other and
ends the process with status 0. -/
theorem schedLoop_all_finished {L : Nat} :
    ∀ (k : Nat) (s : State) (c : Nat), WellFormed s → c ∈ ringList s → s.size = k + 1 →
      (∀ p ∈ ringList s, statusOf s p = some STATE_FINISHED) → OwnLists s L →
      ∀ fuel n, s.size ≤ fuel → L < fuel → k + 1 ≤ n →
        schedLoop fuel n s c = Res.exit 0 := by
  intro k
  induction k with
  | zero =>
    intro s c hwf hc hsz hall hown fuel n hfu hL hn
    obtain ⟨n, rfl⟩ : ∃ m, n = m + 1 := ⟨n - 1, by omega⟩
    obtain ⟨nf, hnf⟩ := ring_live hwf hc
    have hfin : nf.status = STATE_FINISHED := by
      have := hall c hc
      simpa [statusOf, hnf] using this
    obtain ⟨l, s1, _, _, hrel, hfib, _, hwf1, hrl1, hs1⟩ := release_own hwf hc hnf hfin hown hL
    obtain ⟨s', hpop, hz⟩ := pop_single fuel hwf1 (hrl1 ▸ hc)
      ((fiber_of_fibers_eq hfib c).trans hnf) hfin (by omega) (by omega)
    exact schedLoop_reap_last hnf hfin hrel hpop hz
  | succ k ih =>
    intro s c hwf hc hsz hall hown fuel n hfu hL hn
    obtain ⟨n, rfl⟩ : ∃ m, n = m + 1 := ⟨n - 1, by omega⟩
    obtain ⟨nf, hnf⟩ := ring_live hwf hc
    have hfin : nf.status = STATE_FINISHED := by
      have := hall c hc
      simpa [statusOf, hnf] using this
    obtain ⟨lc, s1, hchc, hidc, hrel, hfib, hw1, hwf1, hrl1, hs1⟩ :=
      release_own hwf hc hnf hfin hown hL
    have hnf1 : s1.fiber c = some nf := (fiber_of_fibers_eq hfib c).trans hnf
    obtain ⟨prev, pf, _, hpc, hpf, _, hpop, hwf2, hrl2, hnx, _, _⟩ :=
      pop_ring fuel hwf1 (hrl1 ▸ hc) hnf1 hfin (by omega) (by omega)
    have hnxm : nf.next ∈ ringList (unlinked s1 c prev pf nf.next) := hrl2 ▸ hnx
    obtain ⟨nf3, hnf3⟩ := ring_live hwf2 hnxm
    have hmem : ∀ p ∈ ringList (unlinked s1 c prev pf nf.next), p ∈ ringList s ∧ p ≠ c := by
      intro p hp
      rw [hrl2] at hp
      have := (hwf1.nodup.mem_erase_iff).mp hp
      exact ⟨hrl1 ▸ this.2, this.1⟩
    have hblk : ∀ p ∈ ringList (unlinked s1 c prev pf nf.next), ∀ g,
        (unlinked s1 c prev pf nf.next).fiber p = some g →
        ∃ f, s.fiber p = some f ∧ g.status = f.status ∧ g.waitList = f.waitList := by
      intro p hp g hg
      obtain ⟨_, hne⟩ := hmem p hp
      rw [unlinked_fiber, if_neg hne] at hg
      by_cases hpp : p = prev
      · subst hpp
        rw [if_pos rfl, if_neg (fiber_ne_zero hpf)] at hg
        cases hg
        exact ⟨pf, (fiber_of_fibers_eq hfib p).symm.trans hpf, rfl, rfl⟩
      · rw [if_neg hpp] at hg
        exact ⟨g, (fiber_of_fibers_eq hfib p).symm.trans hg, rfl, rfl⟩
    have hall2 : ∀ p ∈ ringList (unlinked s1 c prev pf nf.next),
        statusOf (unlinked s1 c prev pf nf.next) p = some STATE_FINISHED := by
      intro p hp
      obtain ⟨g, hg⟩ := ring_live hwf2 hp
      obtain ⟨f, hf, hst, _⟩ := hblk p hp g hg
      have := hall p (hmem p hp).1
      simp only [statusOf, hf, Option.map_some', Option.some.injEq] at this
      simp [statusOf, hg, hst, this]
    have hown2 : OwnLists (unlinked s1 c prev pf nf.next) L := by
      intro p hp g hg
      obtain ⟨f, hf, _, hwl⟩ := hblk p hp g hg
      obtain ⟨hps, hne⟩ := hmem p hp
      obtain ⟨l, hch, hlen, hid⟩ := hown p hps f hf
      have hsame : ∀ w ∈ l, (unlinked s1 c prev pf nf.next).wait w = s.wait w := by
        intro w hw
        rw [wait_unlinked]
        refine wait_of_waits_eq (hw1 w ?_)
        intro hwc
        obtain ⟨nd, hnd⟩ := chain_live hch w hw
        exact hne ((hid w hw nd hnd).symm.trans (hidc w hwc nd hnd))
      refine ⟨l, hwl ▸ chain_frame hsame hch, hlen, ?_⟩
      intro w hw nd hnd
      rw [hsame w hw] at hnd
      exact hid w hw nd hnd
    have hst3 : nf3.status ≠ STATE_BLOCKED := by
      have := hall2 _ hnxm
      simp only [statusOf, hnf3, Option.map_some', Option.some.injEq] at this
      rw [this]
      decide
    rw [schedLoop_reap_next hnf hfin hrel hpop (fiber_ne_zero hnf3) hnf3 hst3]
    have hsz2 : (unlinked s1 c prev pf nf.next).size = k + 1 := by
      show s1.size - 1 = k + 1
      omega
    exact ih _ _ hwf2 hnxm hsz2 hall2 hown2 fuel n (by omega) hL (by omega)

/-- Entered on a ring of finished fibers with own lists, the scheduler ends the process with
status 0. -/
theorem scheduler_all_finished {L fuel : Nat} {s : State} (hwf : WellFormed s)
    (hrun : s.running ∈ ringList s)
    (hall : ∀ p ∈ ringList s, statusOf s p = some STATE_FINISHED) (hown : OwnLists s L)
    (hfu : s.size ≤ fuel) (hL : L < fuel) : scheduler fuel s = Res.exit 0 := by
  obtain ⟨hwf0, hrl0⟩ := ring_congr (stop_timer s) hwf (fun _ _ => rfl) rfl rfl rfl
  obtain ⟨r, hr⟩ := ring_live hwf hrun
  have hnext : r.next ∈ ringList (stop_timer s) := by
    rw [← nextOf_eq hr, hrl0]
    exact next_mem_ring hwf hrun
  have hrun0 : (stop_timer s).fiber (stop_timer s).running = some r := hr
  unfold scheduler
  simp only [hrun0]
  have hpos := hwf.pos
  refine schedLoop_all_finished (s.size - 1) (stop_timer s) r.next hwf0 hnext
    (by show s.size = s.size - 1 + 1; omega) ?_ ?_ fuel fuel hfu hL
    (by show s.size - 1 + 1 ≤ fuel; omega)
  · intro p hp
    rw [hrl0] at hp
    exact hall p hp
  · intro p hp f hf
    rw [hrl0] at hp
    obtain ⟨l, hch, hlen, hid⟩ := hown p hp f hf
    exact ⟨l, @chain_frame s (stop_timer s) l _ (fun _ _ => rfl) hch, hlen, hid⟩

theorem allExited_ownLists : OwnLists allExited 1 := by
  intro p hp f hf
  have hr : ringList allExited = [1, 2, 3] := by decide
  rw [hr] at hp
  have h300 : allExited.wait 300 = some { id := 3, next := 0 } := by decide
  simp only [List.mem_cons, List.mem_singleton, List.not_mem_nil, or_false] at hp
  rcases hp with rfl | rfl | rfl
  · have h : (allExited.fiber 1).map (fun g => g.waitList) = some 0 := by decide
    rw [hf] at h
    simp only [Option.map_some', Option.some.injEq] at h
    exact ⟨[], h, by simp, by simp⟩
  · have h : (allExited.fiber 2).map (fun g => g.waitList) = some 0 := by decide
    rw [hf] at h
    simp only [Option.map_some', Option.some.injEq] at h
    exact ⟨[], h, by simp, by simp⟩
  · have h : (allExited.fiber 3).map (fun g => g.waitList) = some 300 := by decide
    rw [hf] at h
    simp only [Option.map_some', Option.some.injEq] at h
    refine ⟨[300], ⟨h, by simp, _, h300, rfl⟩, by simp, ?_⟩
    intro w hw nd hnd
    simp only [List.mem_singleton] at hw
    subst hw
    rw [h300] at hnd
    cases hnd
    rfl

/-! ## The slow path of join, destroy while joined, push -/

theorem hostReturned_reachable : Reachable hostReturned :=
  Reachable.step _ _
    (Reachable.step _ _
      (Reachable.step _ _
        (Reachable.step _ _
          (Reachable.step _ _
            (Reachable.step _ _
              (Reachable.boot 1 (blankFiber 0 STATE_READY) 900 901 (fun _ => 7) (by decide))
              (Step.create bootState createdOne 100 50 0 (sampleEnv 2) 0 (fun _ => rfl) rfl))
            (Step.create createdOne createdTwo 100 51 0 (sampleEnv 3) 0 (fun _ => rfl) rfl))
          (Step.join_switch createdTwo hostJoins fiberTwoAfterJoin 4 4 3 101 300 (fun _ => rfl)
            rfl rfl))
        (Step.preempt fiberTwoAfterJoin fiberThreeRuns 4 rfl))
      (Step.exit fiberThreeRuns fiberThreeExited hostWoken 4 42 rfl rfl))
    (Step.join_resume hostWoken hostReturned 101 0 rfl)

/-- The state in which the slow path of `fiber_join` switches to the scheduler. -/
theorem fiber_join_slow_eq (fuel : Nat) {s : State} {id waitingNode : Nat} {ft r : Fiber}
    (retval : Nat) (hwf : WellFormed s) (hm : id ∈ ringList s) (hne : id ≠ s.running)
    (hft : s.fiber id = some ft) (hst : ft.status ≠ STATE_FINISHED)
    (hr : s.fiber s.running = some r) (hw : waitingNode ≠ 0) :
    fiber_join fuel s id retval waitingNode =
      Res.ok (JoinResult.suspended
        ((join_enqueue s id id ft waitingNode).setFiber s.running
          { r with joinFiber := id, status := STATE_BLOCKED })) := by
  obtain ⟨j, hj, hloc⟩ := locate_mem hwf hm
  have hj' : ¬ j > s.size := by omega
  have hrun : (join_enqueue s id id ft waitingNode).running = s.running := by
    unfold join_enqueue
    by_cases h0 : ft.waitList = 0 <;> simp [h0, State.setFiber, State.setWait, stop_timer]
  have hrf : (join_enqueue s id id ft waitingNode).fiber s.running = some r := by
    have hne' : s.running ≠ id := fun e => hne e.symm
    unfold join_enqueue
    by_cases h0 : ft.waitList = 0
    · simp only [h0, if_true]
      rw [fiber_setFiber_ne _ hne']
      exact hr
    · simp only [h0, if_false]
      show ((stop_timer (s.setWait waitingNode { id := id, next := 0 })).setFiber id
        { ft with waitList := waitingNode }).fiber s.running = some r
      rw [fiber_setFiber_ne _ hne']
      exact hr
  simp only [fiber_join, hloc, hj', if_false, hne, hft, hst, hw, join_block, hrun, hrf]

theorem join_enqueue_wait (s : State) (id node : Nat) (ft : Fiber) {waitingNode : Nat}
    (hw : waitingNode ≠ 0) (w : Nat) :
    (join_enqueue s id node ft waitingNode).wait w =
      if w = waitingNode then some { id := id, next := ft.waitList } else s.wait w := by
  unfold join_enqueue
  by_cases h0 : ft.waitList = 0
  · simp only [h0, if_true]
    show (s.setWait waitingNode { id := id, next := 0 }).wait w = _
    rw [wait_setWait]
    by_cases e : w = waitingNode
    · simp [e, hw]
    · simp [e]
  · simp only [h0, if_false]
    rw [wait_setWait]
    by_cases e : w = waitingNode
    · simp [e, hw]
    · simp only [e, if_false]
      show (s.setWait waitingNode { id := id, next := 0 }).wait w = _
      rw [wait_setWait, if_neg e]

theorem join_enqueue_fiber (s : State) (id node : Nat) (ft : Fiber) (waitingNode : Nat)
    (p : Nat) :
    (join_enqueue s id node ft waitingNode).fiber p =
      (s.setFiber node { ft with waitList := waitingNode }).fiber p := by
  unfold join_enqueue
  by_cases h0 : ft.waitList = 0 <;> simp only [h0, if_true, if_false] <;> rfl

theorem fiberThreeNext_reachable : Reachable fiberThreeNext :=
  Reachable.step _ _
    (Reachable.step _ _
      (Reachable.step _ _
        (Reachable.step _ _
          (Reachable.boot 1 (blankFiber 0 STATE_READY) 900 901 (fun _ => 7) (by decide))
          (Step.create bootState createdOne 100 50 0 (sampleEnv 2) 0 (fun _ => rfl) rfl))
        (Step.create createdOne createdTwo 100 51 0 (sampleEnv 3) 0 (fun _ => rfl) rfl))
      (Step.join_switch createdTwo hostJoinsTwo fiberTwoJoined 4 4 2 101 300 (fun _ => rfl)
        rfl rfl))
    (Step.exit fiberTwoJoined fiberTwoLeft fiberThreeNext 4 42 rfl rfl)

/-- The function `push`, given a live block that is not in the ring, appends it to the ring
sequence. -/
theorem push_appends {s : State} {new : Nat} {f : Fiber} (hwf : WellFormed s)
    (hnew : s.fiber new = some f) (hnotin : new ∉ ringList s) :
    ∃ s', push s new = Res.ok s' ∧ WellFormed s' ∧ ringList s' = ringList s ++ [new] ∧
      s'.head = s.head ∧ s'.tail = new ∧ s'.size = s.size + 1 ∧ s'.running = s.running := by
  obtain ⟨t, ht⟩ := ring_live hwf (tail_mem_ringList hwf)
  have hne : s.tail ≠ new := fun e => hnotin (e ▸ tail_mem_ringList hwf)
  have hnew0 := fiber_ne_zero hnew
  have ht0 := fiber_ne_zero ht
  have hpush := push_eq hnew ht hne
  refine ⟨_, hpush, ?_⟩
  have hfib : ∀ p, ({ (s.setFiber new { f with next := s.head }).setFiber s.tail
                 { t with next := new } with
               tail := new, size := s.size + 1 } : State).fiber p =
      ((s.setFiber new { f with next := s.head }).setFiber s.tail { t with next := new }).fiber p :=
    fun _ => rfl
  have hnew' : ({ (s.setFiber new { f with next := s.head }).setFiber s.tail
                 { t with next := new } with
               tail := new, size := s.size + 1 } : State).fiber new =
      some { f with next := s.head } := by
    rw [hfib, fiber_setFiber_ne _ hne.symm, fiber_setFiber_self _ hnew0]
  obtain ⟨hwf', hrl⟩ := ring_append_of_notin
    { (s.setFiber new { f with next := s.head }).setFiber s.tail { t with next := new } with
      tail := new, size := s.size + 1 } hwf hnotin rfl rfl rfl hnew' rfl
    ⟨_, by rw [hfib, fiber_setFiber_self _ ht0], rfl⟩
    (fun p hp1 hp2 => by rw [hfib, fiber_setFiber_ne _ hp2, fiber_setFiber_ne _ hp1])
  exact ⟨hwf', hrl, rfl, rfl, rfl, rfl⟩

/-! ## A block whose fiber has not finished stays in the ring -/

theorem Alive.stays_of_sameLinks {s t : State} {m : Nat} (ha : Alive s m) (hwf : WellFormed s)
    (hl : SameLinks s t)
    (hst : ∀ g, t.fiber m = some g → g.status ≠ STATE_FINISHED) : Alive t m := by
  obtain ⟨_, hrl⟩ := hl.same_ring hwf
  obtain ⟨hm, f, hf, _⟩ := ha
  refine ⟨hrl ▸ hm, ?_⟩
  have := hl.links m
  rw [hf] at this
  cases hg : t.fiber m with
  | none => rw [hg] at this; cases this
  | some g => exact ⟨g, rfl, hst g hg⟩

/-- A property of the state that survives storing into the caller's cell and storing a
block with the same `next` over the running one holds after the rest of `fiber_join`. -/
theorem fiber_join_resume_induct {s s' : State} {retval : Nat} {code : Int}
    (R : State → Prop) (h0 : R s)
    (hcell : ∀ t v, R t → R { t with cells := Function.update t.cells retval v })
    (hset : ∀ t r g, R t → t.fiber t.running = some r → R (t.setFiber t.running g))
    (h : fiber_join_resume s retval = Res.ok (code, s')) : R s' := by
  unfold fiber_join_resume at h
  cases hr : s.fiber s.running with
  | none => simp [hr] at h
  | some r =>
    simp only [hr] at h
    have last : ∀ (s2 : State), R s2 →
        (match s2.fiber s2.running with
          | none => Res.fault
          | some r2 =>
            Res.ok ((0 : Int), s2.setFiber s2.running { r2 with status := STATE_READY }))
          = Res.ok (code, s') → R s' := by
      intro s2 h2 hm
      cases hr2 : s2.fiber s2.running with
      | none => simp [hr2] at hm
      | some r2 =>
        simp only [hr2, Res.ok.injEq, Prod.mk.injEq] at hm
        obtain ⟨_, rfl⟩ := hm
        exact hset s2 r2 _ h2 hr2
    by_cases hret : retval ≠ 0
    · rw [if_pos hret] at h
      have store : ∀ (v : Nat),
          (match
            (match (Res.ok { s with cells := Function.update s.cells retval v } : Res State) with
              | Res.ok s1 =>
                match s1.fiber s1.running with
                | none => Res.fault
                | some r1 =>
                  Res.ok (s1.setFiber s1.running { r1 with retval := 0, join_rval := 0 })
              | Res.fault => Res.fault
              | Res.diverge => Res.diverge
              | Res.exit c => Res.exit c) with
            | Res.ok s2 =>
              match s2.fiber s2.running with
              | none => Res.fault
              | some r2 =>
                Res.ok ((0 : Int), s2.setFiber s2.running { r2 with status := STATE_READY })
            | Res.fault => Res.fault
            | Res.diverge => Res.diverge
            | Res.exit c => Res.exit c) = Res.ok (code, s') → R s' := by
        intro v hv
        have hc : ({ s with cells := Function.update s.cells retval v } : State).fiber
            ({ s with cells := Function.update s.cells retval v } : State).running = some r := hr
        simp only [hc] at hv
        exact last _ (hset _ r _ (hcell s v h0) hc) hv
      by_cases hj : r.join_rval = 0 ∧ r.joinFiber ≠ 0
      · rw [if_pos hj] at h
        cases hjf : s.fiber r.joinFiber with
        | none => simp [hjf] at h
        | some jf =>
          simp only [hjf] at h
          exact store jf.retval h
      · rw [if_neg hj] at h
        exact store r.join_rval h
    · rw [if_neg hret] at h
      exact last s h0 h

/-- The rest of `fiber_join` stores only into the block of the running fiber. -/
theorem fiber_join_resume_frame {s s' : State} {retval : Nat} {code : Int}
    (h : fiber_join_resume s retval = Res.ok (code, s')) {p : Nat} (hp : p ≠ s.running) :
    s'.fiber p = s.fiber p := by
  have := fiber_join_resume_induct
    (fun t => t.running = s.running ∧ t.fiber p = s.fiber p) ⟨rfl, rfl⟩
    (fun t v ht => ht)
    (fun t r g ht _ => ⟨ht.1, by rw [ht.1, fiber_setFiber_ne _ hp]; exact ht.2⟩) h
  exact this.2

/-- What a call of `fiber_join` that switches to the scheduler has done. -/
theorem fiber_join_suspended_inv {fuel : Nat} {s s1 : State} {id retval waitingNode : Nat}
    (h : fiber_join fuel s id retval waitingNode = Res.ok (JoinResult.suspended s1)) :
    ∃ node fn r, s.fiber node = some fn ∧ node ≠ s.running ∧ fn.status ≠ STATE_FINISHED ∧
      (join_enqueue s id node fn waitingNode).fiber s.running = some r ∧
      s1 = (join_enqueue s id node fn waitingNode).setFiber s.running
        { r with joinFiber := node, status := STATE_BLOCKED } := by
  unfold fiber_join at h
  cases hloc : locate s id with
  | fault => simp [hloc] at h
  | diverge => simp [hloc] at h
  | exit e => simp [hloc] at h
  | ok r =>
    obtain ⟨i, node⟩ := r
    simp only [hloc] at h
    by_cases hi : i > s.size
    · rw [if_pos hi] at h
      simp at h
    rw [if_neg hi] at h
    by_cases hn : node = s.running
    · rw [if_pos hn] at h
      simp at h
    rw [if_neg hn] at h
    cases hfn : s.fiber node with
    | none => simp [hfn] at h
    | some fn =>
      simp only [hfn] at h
      by_cases hfin : fn.status = STATE_FINISHED
      · rw [if_pos hfin] at h
        cases hrel : release_fibers fuel s fn.waitList <;> simp [hrel] at h
      · rw [if_neg hfin] at h
        by_cases hw : waitingNode = 0
        · rw [if_pos hw] at h
          simp at h
        · rw [if_neg hw] at h
          cases hb : join_block (join_enqueue s id node fn waitingNode) node with
          | fault => simp [hb] at h
          | diverge => simp [hb] at h
          | exit e => simp [hb] at h
          | ok s4 =>
            simp only [hb, Res.ok.injEq, JoinResult.suspended.injEq] at h
            subst h
            obtain ⟨_, r, hr, hs4⟩ := join_block_sameLinks hb
            have hrun : (join_enqueue s id node fn waitingNode).running = s.running :=
              (join_enqueue_sameLinks hfn).running
            rw [hrun] at hr hs4
            exact ⟨node, fn, r, hfn, hn, hfin, hr, hs4⟩


theorem Alive.stays_of_agree {s t : State} {m : Nat} (ha : Alive s m) (hwf : WellFormed s)
    (hf : ∀ p ∈ ringList s, t.fiber p = s.fiber p) (hh : t.head = s.head)
    (ht : t.tail = s.tail) (hs : t.size = s.size) : Alive t m := by
  obtain ⟨_, hrl⟩ := ring_congr t hwf (fun p hp => by rw [hf p hp]) hh ht hs
  obtain ⟨hm, f, hfm, hst⟩ := ha
  exact ⟨hrl ▸ hm, f, (hf m hm).trans hfm, hst⟩

theorem Alive.of_scanned {s t : State} {m : Nat} (ha : Alive s m) (hsc : Scanned s t)
    (hm : m ∈ ringList t) : Alive t m := by
  obtain ⟨_, f, hf, hst⟩ := ha
  obtain ⟨g, hg⟩ := hsc.kept m f hf hst
  obtain ⟨f', hf', hag⟩ := hsc.aged m g hg
  rw [hf] at hf'
  cases hf'
  exact ⟨hm, g, hg, hag.not_finished hst⟩

/-- A scan never unlinks a block whose fiber has not finished. -/
theorem schedLoop_alive {fuel : Nat} {m : Nat} :
    ∀ (n : Nat) (s : State) (c : Nat) (s' : State),
      (WellFormed s ∧ c ∈ ringList s ∧ Alive s m) → schedLoop fuel n s c = Res.ok s' →
      Alive s' m := by
  apply schedLoop_induct (fun s c => WellFormed s ∧ c ∈ ringList s ∧ Alive s m)
    (fun s' => Alive s' m)
  · rintro s c nf ⟨hwf, _, ha⟩ _ _
    exact ha.stays_of_agree hwf (fun _ _ => rfl) rfl rfl rfl
  · rintro s c nf s1 s2 nx ⟨hwf, hc, ha⟩ hnf hfin hrel hpop hnx
    obtain ⟨_, _, _, _, _, hwf2, hrl2, hnxm, hsc, _⟩ := ring_reap hwf hc hnf hfin hrel hpop hnx
    refine ⟨hwf2, hnxm, ha.of_scanned hsc ?_⟩
    rw [hrl2]
    refine (hwf.nodup.mem_erase_iff).mpr ⟨?_, ha.1⟩
    intro e
    obtain ⟨_, f, hf, hst⟩ := ha
    rw [e, hnf] at hf
    cases hf
    exact hst hfin
  · rintro s c nf jf ⟨hwf, hc, ha⟩ hnf _ _ _
    refine ⟨hwf, ?_, ha⟩
    rw [← nextOf_eq hnf]
    exact next_mem_ring hwf hc
  · rintro s c nf jf ⟨hwf, hc, ha⟩ hnf hb _ _
    have hc0 := fiber_ne_zero hnf
    obtain ⟨hwf', hrl⟩ := ring_congr (s.setFiber c { nf with status := STATE_READY }) hwf
      (fun p _ => by
        rw [fiber_setFiber]
        by_cases hpc : p = c
        · subst hpc
          simp [hc0, hnf]
        · simp [hpc]) rfl rfl rfl
    refine ⟨hwf', by rw [hrl]; exact hc, by rw [hrl]; exact ha.1, ?_⟩
    obtain ⟨_, f, hf, hst⟩ := ha
    by_cases hmc : m = c
    · subst hmc
      exact ⟨_, fiber_setFiber_self _ hc0, by simp⟩
    · exact ⟨f, by rw [fiber_setFiber_ne _ hmc]; exact hf, hst⟩

theorem scheduler_alive {fuel : Nat} {s s' : State} {m : Nat} (hwf : WellFormed s)
    (hrun : s.running ∈ ringList s) (ha : Alive s m) (h : scheduler fuel s = Res.ok s') :
    Alive s' m := by
  unfold scheduler at h
  obtain ⟨hwf0, hrl0⟩ := ring_congr (stop_timer s) hwf (fun _ _ => rfl) rfl rfl rfl
  have hrun0 : (stop_timer s).fiber (stop_timer s).running = s.fiber s.running := rfl
  simp only [hrun0] at h
  cases hr : s.fiber s.running with
  | none => simp [hr] at h
  | some r =>
    simp only [hr] at h
    refine schedLoop_alive fuel (stop_timer s) r.next s' ⟨hwf0, ?_, ?_⟩ h
    · rw [← nextOf_eq hr]
      exact next_mem_ring hwf0 (by rw [hrl0]; exact hrun)
    · exact ha.stays_of_agree hwf (fun _ _ => rfl) rfl rfl rfl

theorem fiber_create_alive {s s' : State} {fiber start_routine arg : Nat} {env : CreateEnv}
    {code : Int} {m : Nat} (hwf : WellFormed s) (ha : Alive s m)
    (hfresh' : env.new_node ≠ 0 → s.fiber env.new_node = none)
    (h : fiber_create s fiber start_routine arg env = Res.ok (code, s')) : Alive s' m := by
  have hstop : Alive (stop_timer s) m := ha.stays_of_agree hwf (fun _ _ => rfl) rfl rfl rfl
  by_cases h0 : fiber = 0
  · simp only [fiber_create, h0, if_true, Res.ok.injEq, Prod.mk.injEq] at h
    rw [← h.2]
    exact hstop
  by_cases h1 : env.new_node = 0
  · simp only [fiber_create, h0, h1, if_true, if_false, Res.ok.injEq, Prod.mk.injEq] at h
    rw [← h.2]
    exact hstop
  have hfresh := hfresh' h1
  have hleak : Alive ((stop_timer s).setFiber env.new_node env.junk) m := by
    refine ha.stays_of_agree hwf (fun p hp => ?_) rfl rfl rfl
    have hne : p ≠ env.new_node := by
      intro e
      obtain ⟨f, hf⟩ := ring_live hwf hp
      rw [e, hfresh] at hf
      cases hf
    rw [fiber_setFiber_ne _ hne]
    rfl
  cases h2 : env.getcontext_ok with
  | false =>
    simp only [fiber_create, h0, h1, h2, if_true, if_false, Res.ok.injEq, Prod.mk.injEq] at h
    rw [← h.2]
    exact hleak
  | true =>
  by_cases h3 : env.ss_sp = 0
  · simp only [fiber_create, h0, h1, h2, h3, if_true, if_false, Res.ok.injEq,
      Prod.mk.injEq, Bool.true_eq_false] at h
    rw [← h.2]
    exact hleak
  obtain ⟨t, ht⟩ := ring_live hwf (tail_mem_ringList hwf)
  obtain ⟨s'', hc, _, hhead, htail, hsize, hrun, _, hnew, hold, hframe, _, _⟩ :=
    fiber_create_eq s fiber start_routine arg env h0 h1 hfresh ht h2 h3
  rw [hc] at h
  simp only [Res.ok.injEq, Prod.mk.injEq] at h
  obtain ⟨_, rfl⟩ := h
  obtain ⟨_, hrl⟩ := ring_append hwf hfresh hhead htail hsize hnew rfl ⟨_, hold, rfl⟩ hframe
  obtain ⟨hm, f, hf, hst⟩ := ha
  refine ⟨by rw [hrl]; exact List.mem_append_left _ hm, ?_⟩
  by_cases hmt : m = s.tail
  · rw [hmt, ht] at hf
    cases hf
    exact ⟨{ t with next := env.new_node }, hmt ▸ hold, hst⟩
  · have hmn : m ≠ env.new_node := by
      intro e
      rw [e, hfresh] at hf
      cases hf
    exact ⟨f, (hframe m hmn hmt).trans hf, hst⟩

theorem fiber_destroy_alive {s s' : State} {fuel id : Nat} {code : Int} {m : Nat}
    (hr : RunnerReady s) (ha : Alive s m)
    (h : fiber_destroy fuel s id = Res.ok (code, s')) : Alive s' m := by
  have hsc := fiber_destroy_scanned hr h
  refine ha.of_scanned hsc ?_
  have hwf := hr.wf
  by_cases hm : id ∈ ringList s
  · obtain ⟨ff, hf⟩ := ring_live hwf hm
    by_cases hfin : ff.status = STATE_FINISHED
    · obtain ⟨j, hj, hloc⟩ := locate_mem hwf hm
      have hj' : ¬ j > s.size := by omega
      unfold fiber_destroy at h
      simp only [hloc, if_neg hj'] at h
      cases hpop : pop fuel s id with
      | fault => simp [hpop] at h
      | diverge => simp [hpop] at h
      | exit e => simp [hpop] at h
      | ok res =>
        obtain ⟨nx, s1⟩ := res
        have hs1 : s' = s1 := by
          simp only [hpop] at h
          by_cases hnx : nx = 0
          · simp only [hnx, if_true, Res.ok.injEq, Prod.mk.injEq] at h
            exact h.2.symm
          · simp only [hnx, if_false, Res.ok.injEq, Prod.mk.injEq] at h
            exact h.2.symm
        subst hs1
        have hne : m ≠ id := by
          intro e
          obtain ⟨_, f, hfm, hst⟩ := ha
          rw [e, hf] at hfm
          cases hfm
          exact hst hfin
        rcases pop_member hwf hm hf hfin hpop with
          ⟨_, _, _, _, hrl2, _⟩ | ⟨h1, _, _⟩
        · rw [hrl2]
          exact (hwf.nodup.mem_erase_iff).mpr ⟨hne, ha.1⟩
        · exfalso
          have hrl : ringList s = [s.head] := by simp [ringList, h1, walk]
          have e1 : id = s.head := by simpa [hrl] using hm
          have e2 : m = s.head := by simpa [hrl] using ha.1
          exact hne (e2.trans e1.symm)
    · have hst : statusOf s id = some STATE_READY ∨ statusOf s id = some STATE_BLOCKED := by
        simp only [statusOf, hf, Option.map_some', Option.some.injEq]
        cases hs : ff.status <;> simp_all
      rw [fiber_destroy_reject fuel s hwf id (Or.inr hst)] at h
      simp only [Res.ok.injEq, Prod.mk.injEq] at h
      rw [← h.2]
      exact ha.1
  · rw [fiber_destroy_reject fuel s hwf id (Or.inl hm)] at h
    simp only [Res.ok.injEq, Prod.mk.injEq] at h
    rw [← h.2]
    exact ha.1

theorem fiber_join_suspended_alive {fuel : Nat} {s s1 : State} {id retval waitingNode : Nat}
    {m : Nat} (hwf : WellFormed s) (ha : Alive s m)
    (h : fiber_join fuel s id retval waitingNode = Res.ok (JoinResult.suspended s1)) :
    Alive s1 m := by
  refine ha.stays_of_sameLinks hwf (fiber_join_suspended h) ?_
  obtain ⟨node, fn, r, hfn, hn, hfin, hr, rfl⟩ := fiber_join_suspended_inv h
  obtain ⟨_, f, hf, hst⟩ := ha
  intro g hg
  rw [fiber_setFiber] at hg
  by_cases hmr : m = s.running
  · rw [if_pos hmr] at hg
    by_cases hm0 : m = 0
    · rw [if_pos hm0] at hg
      cases hg
    · rw [if_neg hm0] at hg
      cases hg
      simp
  · rw [if_neg hmr, join_enqueue_fiber, fiber_setFiber] at hg
    by_cases hmn : m = node
    · rw [if_pos hmn] at hg
      by_cases hm0 : m = 0
      · rw [if_pos hm0] at hg
        cases hg
      · rw [if_neg hm0] at hg
        cases hg
        exact hfin
    · rw [if_neg hmn, hf] at hg
      cases hg
      exact hst

theorem fiber_join_resume_alive {s s' : State} {retval : Nat} {code : Int} {m : Nat}
    (hwf : WellFormed s) (ha : Alive s m)
    (h : fiber_join_resume s retval = Res.ok (code, s')) : Alive s' m := by
  obtain ⟨hl, hready⟩ := fiber_join_resume_sameLinks h
  refine ha.stays_of_sameLinks hwf hl ?_
  intro g hg
  by_cases hmr : m = s.running
  · rw [← hmr, statusOf, hg] at hready
    simp only [Option.map_some', Option.some.injEq] at hready
    rw [hready]
    decide
  · rw [fiber_join_resume_frame h hmr] at hg
    obtain ⟨_, f, hf, hst⟩ := ha
    rw [hf] at hg
    cases hg
    exact hst

theorem fiber_exit_alive {s s1 : State} {v : Nat} {m : Nat} (hwf : WellFormed s)
    (ha : Alive s m) (hne : m ≠ s.running) (h : fiber_exit s v = Res.ok s1) : Alive s1 m := by
  refine ha.stays_of_sameLinks hwf (fiber_exit_sameLinks h) ?_
  cases hr : s.fiber s.running with
  | none => simp [fiber_exit, hr] at h
  | some r =>
    rw [fiber_exit_eq v hr] at h
    simp only [Res.ok.injEq] at h
    subst h
    intro g hg
    rw [fiber_setFiber_ne _ hne, fiber_setFiber_ne _ hne] at hg
    obtain ⟨_, f, hf, hst⟩ := ha
    rw [hf] at hg
    cases hg
    exact hst

/-- A move keeps a block whose fiber has not finished in the ring, unless the move is a
call of `fiber_exit` by that very fiber. -/
theorem step_alive {s s' : State} {m : Nat} (hr : RunnerReady s) (ha : Alive s m)
    (h : Step s s') :
    Alive s' m ∨ (s.running = m ∧ ∃ v s1 fuel, fiber_exit s v = Res.ok s1 ∧
      scheduler fuel s1 = Res.ok s') := by
  have hwf := hr.wf
  cases h
  · rename_i hfr hc
    refine Or.inl (fiber_create_alive hwf ha (fun h0 => ?_) hc)
    simp [State.fiber, hfr h0]
  · exact Or.inl (fiber_destroy_alive hr ha (by assumption))
  · rename_i hj
    have hR := fiber_join_returned hj
    exact Or.inl (ha.of_scanned (hR.toScanned hwf) (by rw [(hR.keeps_ring hwf).2]; exact ha.1))
  · rename_i hj hs
    have hl := fiber_join_suspended hj
    obtain ⟨hwf1, hrl1⟩ := hl.same_ring hwf
    exact Or.inl (scheduler_alive hwf1 (by rw [hrl1, hl.running]; exact hr.mem)
      (fiber_join_suspended_alive hwf ha hj) hs)
  · exact Or.inl (fiber_join_resume_alive hwf ha (by assumption))
  · rename_i s1 fuel v he hs
    by_cases hmr : m = s.running
    · exact Or.inr ⟨hmr.symm, v, s1, fuel, he, hs⟩
    · have hl := fiber_exit_sameLinks he
      obtain ⟨hwf1, hrl1⟩ := hl.same_ring hwf
      exact Or.inl (scheduler_alive hwf1 (by rw [hrl1, hl.running]; exact hr.mem)
        (fiber_exit_alive hwf ha hmr he) hs)
  · exact Or.inl (scheduler_alive hwf hr.mem ha (by assumption))

/-- Along any number of moves a block whose fiber has not finished stays in the ring, up to
a call of `fiber_exit` by that fiber. -/
theorem steps_alive {a s : State} {m : Nat} (h : Steps a s) :
    RunnerReady a → Alive a m →
    RunnerReady s ∧ (Alive s m ∨ ∃ t v s1 s2 fuel, Steps a t ∧ t.running = m ∧
      fiber_exit t v = Res.ok s1 ∧ scheduler fuel s1 = Res.ok s2 ∧ Steps s2 s) := by
  induction h with
  | refl => intro hr ha; exact ⟨hr, Or.inl ha⟩
  | tail t u hst hstep ih =>
    intro hr ha
    obtain ⟨hrt, hcase⟩ := ih hr ha
    refine ⟨step_runner hrt hstep, ?_⟩
    rcases hcase with hat | ⟨t0, v, s1, s2, fuel, h0, hrun, he, hs, hrest⟩
    · rcases step_alive hrt hat hstep with hau | ⟨hrun, v, s1, fuel, he, hs⟩
      · exact Or.inl hau
      · exact Or.inr ⟨t, v, s1, u, fuel, hst, hrun, he, hs, Steps.refl u⟩
    · exact Or.inr ⟨t0, v, s1, s2, fuel, h0, hrun, he, hs, Steps.tail _ _ _ hrest hstep⟩

theorem bootState_steps_hostResumed : Steps bootState hostResumed :=
  Steps.tail _ _ _ (Steps.tail _ _ _ (Steps.tail _ _ _ (Steps.refl _)
    (Step.create bootState createdOne 100 50 0 (sampleEnv 2) 0 (fun _ => rfl) rfl))
    (Step.preempt createdOne fiberTwoRuns 4 rfl))
    (Step.exit fiberTwoRuns fiberTwoExited hostResumed 4 42 rfl rfl)

theorem bootState_steps_hostReaped : Steps bootState hostReaped :=
  Steps.tail _ _ _ (Steps.tail _ _ _ (Steps.tail _ _ _ (Steps.refl _)
    (Step.create bootState createdOne 100 50 0 (sampleEnv 2) 0 (fun _ => rfl) rfl))
    (Step.exit createdOne hostExited fiberTwoOnly 4 5 rfl rfl))
    (Step.preempt fiberTwoOnly hostReaped 4 rfl)

theorem reachable_of_steps {a s : State} (h : Steps a s) : Reachable a → Reachable s := by
  induction h with
  | refl => exact id
  | tail t u _ hstep ih => exact fun ha => Reachable.step _ _ (ih ha) hstep

/-! ## The scan selects the first eligible fiber -/

/-- Following `next` from a block of the ring stays in the ring. -/
theorem ring_iter_mem {s : State} (hwf : WellFormed s) {a : Nat} (ha : a ∈ ringList s) :
    ∀ i, (nextOf s)^[i] a ∈ ringList s := by
  intro i
  induction i with
  | zero => exact ha
  | succ i ih =>
    rw [Function.iterate_succ_apply']
    exact next_mem_ring hwf ih

/-- The first `size` blocks met from a block of the ring are distinct. -/
theorem ring_iter_inj {s : State} (hwf : WellFormed s) {a : Nat} (ha : a ∈ ringList s)
    {i j : Nat} (hi : i < s.size) (hj : j < s.size)
    (e : (nextOf s)^[i] a = (nextOf s)^[j] a) : i = j := by
  obtain ⟨k, hk, rfl⟩ := hwf.nth_of_mem ha
  rw [← Function.iterate_add_apply, ← Function.iterate_add_apply, ← hwf.periodic (i + k),
    ← hwf.periodic (j + k)] at e
  have hpos := hwf.pos
  have h1 := hwf.nth_inj (Nat.mod_lt _ hpos) (Nat.mod_lt _ hpos) e
  have h2 : i ≡ j [MOD s.size] := Nat.ModEq.add_right_cancel' k h1
  unfold Nat.ModEq at h2
  rwa [Nat.mod_eq_of_lt hi, Nat.mod_eq_of_lt hj] at h2

/-- Every block of the ring is met within `size` steps from any block of the ring. -/
theorem ring_iter_surj {s : State} (hwf : WellFormed s) {a q : Nat} (ha : a ∈ ringList s)
    (hq : q ∈ ringList s) : ∃ i, i < s.size ∧ (nextOf s)^[i] a = q := by
  obtain ⟨k, hk, rfl⟩ := hwf.nth_of_mem ha
  obtain ⟨m, hm, rfl⟩ := hwf.nth_of_mem hq
  have hpos := hwf.pos
  refine ⟨(m + (s.size - k)) % s.size, Nat.mod_lt _ hpos, ?_⟩
  rw [← Function.iterate_add_apply, ← hwf.periodic, ← hwf.periodic m]
  congr 1
  have h1 : (m + (s.size - k)) % s.size + k ≡ m + (s.size - k) + k [MOD s.size] :=
    Nat.ModEq.add_right k (Nat.mod_modEq _ _)
  have h2 : m + (s.size - k) + k = m + s.size := by omega
  rw [h2] at h1
  have h3 : m + s.size ≡ m [MOD s.size] := by
    unfold Nat.ModEq
    simp
  exact h1.trans h3

/-- The predecessor walk of `pop` stops at a block whose `next` is the fiber. -/
theorem popWalk_next {s : State} {f : Nat} :
    ∀ (fuel a prev : Nat), popWalk fuel s f a = Res.ok prev →
      ∃ pf, s.fiber prev = some pf ∧ pf.next = f := by
  intro fuel
  induction fuel with
  | zero => intro a prev h; simp [popWalk] at h
  | succ fuel ih =>
    intro a prev h
    rw [popWalk] at h
    cases ha : s.fiber a with
    | none => simp [ha] at h
    | some pf =>
      simp only [ha] at h
      by_cases hne : f ≠ pf.next
      · rw [if_pos hne] at h
        exact ih _ _ h
      · rw [if_neg hne] at h
        simp only [Res.ok.injEq] at h
        subst h
        exact ⟨pf, ha, (not_not.mp hne).symm⟩

theorem Stuck.not_eligible {s : State} {p : Nat} (h : Stuck s p) : ¬ Eligible s p := by
  obtain ⟨f, jf, hf, hb, hjf, hne⟩ := h
  rintro ⟨f', hf', hr | ⟨_, jf', hjf', hfin⟩⟩
  · rw [hf] at hf'
    cases hf'
    rw [hb] at hr
    cases hr
  · rw [hf] at hf'
    cases hf'
    rw [hjf] at hjf'
    cases hjf'
    exact hne hfin

theorem not_eligible_of_finished {s : State} {p : Nat}
    (h : statusOf s p = some STATE_FINISHED) : ¬ Eligible s p := by
  rintro ⟨f, hf, hr | ⟨hb, _⟩⟩
  · simp [statusOf, hf, hr] at h
  · simp [statusOf, hf, hb] at h

theorem PassedOver.never_eligible {b s' : State} {q : Nat} (h : PassedOver b s' q) :
    ¬ Eligible b q := by
  rcases h with ⟨hs, _⟩ | ⟨hf, _⟩
  · exact hs.not_eligible
  · exact not_eligible_of_finished hf

/-- A fiber stuck at the start of a scan is still stuck while its block is live. -/
theorem same_status {f g : Fiber} (h : g = { f with next := g.next }) :
    g.status = f.status ∧ g.joinFiber = f.joinFiber ∧ g.waitList = f.waitList ∧
      g.retval = f.retval ∧ g.join_rval = f.join_rval := by
  rw [h]
  exact ⟨rfl, rfl, rfl, rfl, rfl⟩

theorem Stuck.transfer {b t : State} {q : Nat} (h : Stuck b q) (hsc : Scanned b t)
    (hsame : ∀ q g, t.fiber q = some g →
      ∃ f, b.fiber q = some f ∧ g = { f with next := g.next })
    {g : Fiber} (hg : t.fiber q = some g) : Stuck t q := by
  obtain ⟨f, jf, hf, hb, hjf, hne⟩ := h
  obtain ⟨f', hf', hgf⟩ := hsame q g hg
  rw [hf] at hf'
  cases hf'
  obtain ⟨gj, hgj⟩ := hsc.kept _ jf hjf hne
  obtain ⟨jf', hjf', hgjf⟩ := hsame _ gj hgj
  rw [hjf] at hjf'
  cases hjf'
  obtain ⟨e1, e2, _⟩ := same_status hgf
  obtain ⟨e3, _⟩ := same_status hgjf
  exact ⟨g, gj, hg, e1.trans hb, e2 ▸ hgj, e3 ▸ hne⟩

/-- A fiber that is stuck now was stuck at the start of the scan. -/
theorem Stuck.back {b t : State} {q : Nat} (h : Stuck t q)
    (hsame : ∀ q g, t.fiber q = some g →
      ∃ f, b.fiber q = some f ∧ g = { f with next := g.next }) : Stuck b q := by
  obtain ⟨g, gj, hg, hb, hgj, hne⟩ := h
  obtain ⟨f, hf, hgf⟩ := hsame q g hg
  obtain ⟨jf, hjf, hgjf⟩ := hsame _ gj hgj
  obtain ⟨e1, e2, _⟩ := same_status hgf
  obtain ⟨e3, _⟩ := same_status hgjf
  exact ⟨f, jf, hf, e1 ▸ hb, e2 ▸ hjf, e3 ▸ hne⟩

theorem same_but_next {f pf : Fiber} (h : pf = { f with next := pf.next }) (n : Nat) :
    ({ pf with next := n } : Fiber) = { f with next := n } := by
  rw [h]

/-- With quiet lists, releasing the wait list of the finished fiber under the cursor
changes no block. -/
theorem ScanInv.release_same {b t t1 : State} {a c j fuel : Nat} {nf : Fiber}
    (hi : ScanInv b a t c j) (hq : QuietLists b) (hnf : t.fiber c = some nf)
    (hfin : nf.status = STATE_FINISHED)
    (hrel : release_fibers fuel t nf.waitList = Res.ok t1) :
    ∀ q, t1.fiber q = t.fiber q := by
  have hR := release_fibers_released _ _ _ _ hrel
  obtain ⟨fc, hfc, hce⟩ := hi.same c nf hnf
  obtain ⟨e1, _, e3, _⟩ := same_status hce
  intro q
  cases hg : t.fiber q with
  | none => exact hR.gone q hg
  | some g =>
    by_cases hb : g.status = STATE_BLOCKED
    · rw [← hg]
      refine release_fibers_keeps fuel t nf.waitList t1 hrel ?_
      intro w nd hin hw e
      obtain ⟨fq, hfq, hge⟩ := hi.same q g hg
      have hin' : InList b fc.waitList w := e3 ▸ InList.mono hi.sc.waits hin
      refine hq c (hi.sc.ring c hi.mem) fc hfc (e1 ▸ hfin) w nd hin' (hi.sc.waits w nd hw) fq
        (e ▸ hfq) ?_
      rw [← (same_status hge).1]
      exact hb
    · exact hR.status_of_not_blocked hg hb

/-- The scan commits the fiber under the cursor. -/
theorem ScanInv.done {b t t' : State} {a c j : Nat} (hwfb : WellFormed b)
    (ha : a ∈ ringList b) (hi : ScanInv b a t c j) (hrl : ringList t' = ringList t)
    (hfib : ∀ q, q ≠ c → t'.fiber q = t.fiber q) (hrun : t'.running = c)
    (hst : statusOf t' c = some STATE_READY) (hel : Eligible b c) : Selected b a t' := by
  refine ⟨j, hi.hj, hrun.trans hi.hc, hrun ▸ hel, hrun ▸ hst, ?_⟩
  intro i hij
  have hne : (nextOf b)^[i] a ≠ c := by
    intro e
    rw [hi.hc] at e
    have := ring_iter_inj hwfb ha (by have := hi.hj; omega) hi.hj e
    omega
  rcases hi.passed i hij with ⟨hs, hm⟩ | ⟨hf, hn, hnone⟩
  · left
    obtain ⟨g, hg⟩ := ring_live hi.wf hm
    obtain ⟨f, hf, hgf⟩ := hi.same _ g hg
    refine ⟨hs, hrl ▸ hm, f, g, hf, (hfib _ hne).trans hg, ?_⟩
    rcases hi.nexts _ g f hg hf with e | ⟨hfin, hfree⟩
    · left
      rw [hgf, e]
    · right
      refine ⟨hgf, hfin, (hfib _ ?_).trans hfree⟩
      intro e
      obtain ⟨gc, hgc⟩ := ring_live hi.wf hi.mem
      rw [← e, hfree] at hgc
      cases hgc
  · right
    exact ⟨hf, hrl ▸ hn, (hfib _ hne).trans hnone⟩

/-- The scan passes over a blocked fiber. -/
theorem ScanInv.skip {b t : State} {a c j : Nat} {nf jf : Fiber} (hwfb : WellFormed b)
    (ha : a ∈ ringList b) (hi : ScanInv b a t c j) (hnf : t.fiber c = some nf)
    (hb : nf.status = STATE_BLOCKED) (hjf : t.fiber nf.joinFiber = some jf)
    (hne : jf.status ≠ STATE_FINISHED) :
    ScanInv b a t nf.next (j + 1) ∨ AllStuck t nf.next := by
  have hst : Stuck t c := ⟨nf, jf, hnf, hb, hjf, hne⟩
  have hstb : Stuck b c := hst.back hi.same
  have hnext : nf.next ∈ ringList t := by
    rw [← nextOf_eq hnf]
    exact next_mem_ring hi.wf hi.mem
  by_cases hlast : j + 1 < b.size
  · left
    obtain ⟨g, hg, hgn⟩ := hi.links j (le_refl _) hlast
    rw [← hi.hc, hnf] at hg
    cases hg
    refine ⟨hlast, hgn, hi.wf, hnext, hi.sc, hi.same,
      fun i hji hi1 => hi.links i (by omega) hi1, hi.nexts, ?_⟩
    intro i hij
    by_cases hij' : i < j
    · exact hi.passed i hij'
    · have : i = j := by omega
      subst this
      left
      exact ⟨hi.hc ▸ hstb, hi.hc ▸ hi.mem⟩
  · right
    refine ⟨hi.wf, hnext, ?_⟩
    intro q hqm
    obtain ⟨i, hi1, rfl⟩ := ring_iter_surj hwfb ha (hi.sc.ring q hqm)
    by_cases hij : i < j
    · rcases hi.passed i hij with ⟨hs, _⟩ | ⟨_, hn, _⟩
      · obtain ⟨g, hg⟩ := ring_live hi.wf hqm
        exact hs.transfer hi.sc hi.same hg
      · exact absurd hqm hn
    · have : i = j := by have := hi.hj; omega
      subst this
      exact hi.hc ▸ hst

/-- The scan reaps a finished fiber. -/
theorem ScanInv.reap {b t t1 t2 : State} {a c j nx fuel : Nat} {nf : Fiber}
    (hwfb : WellFormed b) (ha : a ∈ ringList b) (hq : QuietLists b) (hi : ScanInv b a t c j)
    (hnf : t.fiber c = some nf) (hfin : nf.status = STATE_FINISHED)
    (hrel : release_fibers fuel t nf.waitList = Res.ok t1)
    (hpop : pop fuel t1 c = Res.ok (nx, t2)) (hnx : nx ≠ 0) :
    ScanInv b a t2 nx (j + 1) ∨ AllStuck t2 nx := by
  have hsame1 := hi.release_same hq hnf hfin hrel
  obtain ⟨_, _, _, _, hnxe, hwf2, hrl2, hnxm, hsc2, _⟩ :=
    ring_reap hi.wf hi.mem hnf hfin hrel hpop hnx
  obtain ⟨ff, prev, pf, hff, _, hwalk, hpf, _, ht2⟩ := pop_inv hpop hnx
  rw [hsame1 c, hnf] at hff
  cases hff
  obtain ⟨pf', hpf', hpn⟩ := popWalk_next _ _ _ hwalk
  rw [hpf] at hpf'
  cases hpf'
  have hpft : t.fiber prev = some pf := (hsame1 prev).symm.trans hpf
  subst ht2
  have hfib2 : ∀ q, q ≠ c → q ≠ prev →
      (unlinked t1 c prev pf nf.next).fiber q = t.fiber q := by
    intro q h1 h2
    rw [unlinked_fiber_other h1 h2, hsame1 q]
  have hsame2 : ∀ q g, (unlinked t1 c prev pf nf.next).fiber q = some g →
      ∃ f, b.fiber q = some f ∧ g = { f with next := g.next } := by
    intro q g hg
    rw [unlinked_fiber] at hg
    by_cases hqc : q = c
    · rw [if_pos hqc] at hg
      cases hg
    rw [if_neg hqc] at hg
    by_cases hqp : q = prev
    · rw [if_pos hqp] at hg
      by_cases hq0 : q = 0
      · rw [if_pos hq0] at hg
        cases hg
      rw [if_neg hq0] at hg
      cases hg
      obtain ⟨f, hf, hpe⟩ := hi.same prev pf hpft
      exact ⟨f, hqp ▸ hf, same_but_next hpe nf.next⟩
    · rw [if_neg hqp, hsame1 q] at hg
      exact hi.same q g hg
  have hnexts2 : ∀ q g f, (unlinked t1 c prev pf nf.next).fiber q = some g →
      b.fiber q = some f →
      g.next = f.next ∨ (statusOf b f.next = some STATE_FINISHED ∧
        (unlinked t1 c prev pf nf.next).fiber f.next = none) := by
    intro q g f hg hf
    have hfreed : ∀ x, t.fiber x = none → (unlinked t1 c prev pf nf.next).fiber x = none := by
      intro x hx
      have hxc : x ≠ c := by
        intro e
        rw [e, hnf] at hx
        cases hx
      have hxp : x ≠ prev := by
        intro e
        rw [e, hpft] at hx
        cases hx
      rw [hfib2 x hxc hxp]
      exact hx
    have hcfin : statusOf b c = some STATE_FINISHED := by
      obtain ⟨fc, hfc, hce⟩ := hi.same c nf hnf
      rw [statusOf, hfc, Option.map_some', ← (same_status hce).1, hfin]
    rw [unlinked_fiber] at hg
    by_cases hqc : q = c
    · rw [if_pos hqc] at hg
      cases hg
    rw [if_neg hqc] at hg
    by_cases hqp : q = prev
    · rw [if_pos hqp] at hg
      by_cases hq0 : q = 0
      · rw [if_pos hq0] at hg
        cases hg
      rw [if_neg hq0] at hg
      cases hg
      right
      rcases hi.nexts prev pf f hpft (hqp ▸ hf) with e | ⟨hfin', hfree⟩
      · rw [← e, hpn]
        exact ⟨hcfin, unlinked_fiber_self _ _ _ _ _⟩
      · exact ⟨hfin', hfreed _ hfree⟩
    · rw [if_neg hqp, hsame1 q] at hg
      rcases hi.nexts q g f hg hf with e | ⟨hfin', hfree⟩
      · exact Or.inl e
      · exact Or.inr ⟨hfin', hfreed _ hfree⟩
  have hscb : Scanned b (unlinked t1 c prev pf nf.next) := hi.sc.followedBy hsc2
  have hmem2 : ∀ q, q ∈ ringList (unlinked t1 c prev pf nf.next) ↔ (q ≠ c ∧ q ∈ ringList t) := by
    intro q
    rw [hrl2]
    exact hi.wf.nodup.mem_erase_iff
  have hcb : statusOf b c = some STATE_FINISHED := by
    obtain ⟨fc, hfc, hce⟩ := hi.same c nf hnf
    rw [statusOf, hfc, Option.map_some', ← (same_status hce).1, hfin]
  have hpassed : ∀ i, i < j + 1 →
      (Stuck b ((nextOf b)^[i] a) ∧ (nextOf b)^[i] a ∈ ringList (unlinked t1 c prev pf nf.next)) ∨
      (statusOf b ((nextOf b)^[i] a) = some STATE_FINISHED ∧
        (nextOf b)^[i] a ∉ ringList (unlinked t1 c prev pf nf.next) ∧
        (unlinked t1 c prev pf nf.next).fiber ((nextOf b)^[i] a) = none) := by
    intro i hij
    by_cases hij' : i < j
    · have hne : (nextOf b)^[i] a ≠ c := by
        intro e
        rw [hi.hc] at e
        have := ring_iter_inj hwfb ha (by have := hi.hj; omega) hi.hj e
        omega
      rcases hi.passed i hij' with ⟨hs, hm⟩ | ⟨hf, hn, hnone⟩
      · left
        exact ⟨hs, (hmem2 _).mpr ⟨hne, hm⟩⟩
      · right
        refine ⟨hf, fun h => hn ((hmem2 _).mp h).2, ?_⟩
        have hnp : (nextOf b)^[i] a ≠ prev := by
          intro e
          rw [e, hpft] at hnone
          cases hnone
        rw [hfib2 _ hne hnp]
        exact hnone
    · have : i = j := by omega
      subst this
      right
      rw [← hi.hc]
      exact ⟨hcb, fun h => ((hmem2 _).mp h).1 rfl, unlinked_fiber_self _ _ _ _ _⟩
  by_cases hlast : j + 1 < b.size
  · left
    obtain ⟨g, hg, hgn⟩ := hi.links j (le_refl _) hlast
    rw [← hi.hc, hnf] at hg
    cases hg
    refine ⟨hlast, hnxe.trans hgn, hwf2, hnxm, hscb, hsame2, ?_, hnexts2, hpassed⟩
    intro i hji hi1
    obtain ⟨g, hg, hgn'⟩ := hi.links i (by omega) hi1
    have hne : (nextOf b)^[i] a ≠ c := by
      intro e
      rw [hi.hc] at e
      have := ring_iter_inj hwfb ha (by omega) hi.hj e
      omega
    have hnp : (nextOf b)^[i] a ≠ prev := by
      intro e
      rw [e, hpft] at hg
      cases hg
      rw [hpn, hi.hc] at hgn'
      have := ring_iter_inj hwfb ha hi.hj hi1 hgn'
      omega
    exact ⟨g, (hfib2 _ hne hnp).trans hg, hgn'⟩
  · right
    refine ⟨hwf2, hnxm, ?_⟩
    intro q hqm
    obtain ⟨hqc, hqt⟩ := (hmem2 q).mp hqm
    obtain ⟨i, hi1, rfl⟩ := ring_iter_surj hwfb ha (hi.sc.ring _ hqt)
    have hij : i < j := by
      have hne : i ≠ j := by
        intro e
        subst e
        exact hqc hi.hc.symm
      have := hi.hj
      omega
    rcases hi.passed i hij with ⟨hs, _⟩ | ⟨_, hn, _⟩
    · obtain ⟨g, hg⟩ := ring_live hwf2 hqm
      exact hs.transfer hscb hsame2 hg
    · exact absurd hqt hn

theorem ringList_commit (t : State) (c : Nat) : ringList (commit t c) = ringList t :=
  ringList_of_fibers_eq rfl rfl rfl

theorem ringList_wake {t : State} {c : Nat} {nf : Fiber} (hwf : WellFormed t)
    (hnf : t.fiber c = some nf) (g : Fiber) (hg : g.next = nf.next) :
    WellFormed (t.setFiber c g) ∧ ringList (t.setFiber c g) = ringList t := by
  have hc0 := fiber_ne_zero hnf
  refine ring_congr (t.setFiber c g) hwf (fun p _ => ?_) rfl rfl rfl
  rw [fiber_setFiber]
  by_cases hpc : p = c
  · subst hpc
    simp [hc0, hnf, hg]
  · simp [hpc]

/-- The scan, when it commits, has selected the first eligible fiber met from its start. -/
theorem schedLoop_selects {fuel : Nat} {b : State} {a : Nat} (hwfb : WellFormed b)
    (ha : a ∈ ringList b) (hq : QuietLists b) :
    ∀ (n : Nat) (t : State) (c : Nat) (s' : State),
      ScanState b a t c → schedLoop fuel n t c = Res.ok s' → Selected b a s' := by
  apply schedLoop_induct (ScanState b a) (Selected b a)
  · rintro t c nf (⟨j, hi⟩ | ⟨_, hc, hall⟩ | ⟨nf', hnf', _, hsel⟩) hnf hr
    · obtain ⟨f, hf, hge⟩ := hi.same c nf hnf
      refine hi.done hwfb ha (ringList_commit t c) (fun _ _ => rfl) rfl ?_
        ⟨f, hf, Or.inl ((same_status hge).1 ▸ hr)⟩
      show statusOf t c = _
      simp [statusOf, hnf, hr]
    · obtain ⟨g, _, hg, hb, _⟩ := hall c hc
      rw [hnf] at hg
      cases hg
      rw [hr] at hb
      cases hb
    · exact hsel
  · rintro t c nf t1 t2 nx (⟨j, hi⟩ | ⟨_, hc, hall⟩ | ⟨nf', hnf', hr', _⟩) hnf hfin hrel hpop hnx
    · rcases hi.reap hwfb ha hq hnf hfin hrel hpop hnx with h | h
      · exact Or.inl ⟨_, h⟩
      · exact Or.inr (Or.inl h)
    · obtain ⟨g, _, hg, hb, _⟩ := hall c hc
      rw [hnf] at hg
      cases hg
      rw [hfin] at hb
      cases hb
    · rw [hnf] at hnf'
      cases hnf'
      rw [hfin] at hr'
      cases hr'
  · rintro t c nf jf (⟨j, hi⟩ | ⟨hwf, hc, hall⟩ | ⟨nf', hnf', hr', _⟩) hnf hb hjf hne
    · rcases hi.skip hwfb ha hnf hb hjf hne with h | h
      · exact Or.inl ⟨_, h⟩
      · exact Or.inr (Or.inl h)
    · refine Or.inr (Or.inl ⟨hwf, ?_, hall⟩)
      rw [← nextOf_eq hnf]
      exact next_mem_ring hwf hc
    · rw [hnf] at hnf'
      cases hnf'
      rw [hb] at hr'
      cases hr'
  · rintro t c nf jf (⟨j, hi⟩ | ⟨_, hc, hall⟩ | ⟨nf', hnf', hr', _⟩) hnf hb hjf hfin
    · have hc0 := fiber_ne_zero hnf
      obtain ⟨_, hrl⟩ := ringList_wake hi.wf hnf { nf with status := STATE_READY } rfl
      refine Or.inr (Or.inr ⟨_, fiber_setFiber_self _ hc0, rfl, ?_⟩)
      obtain ⟨f, hf, hge⟩ := hi.same c nf hnf
      obtain ⟨fj, hfj, hje⟩ := hi.same _ jf hjf
      obtain ⟨e1, e2, _⟩ := same_status hge
      refine hi.done hwfb ha ((ringList_commit _ c).trans hrl) (fun q hqc => ?_) rfl ?_
        ⟨f, hf, Or.inr ⟨e1 ▸ hb, fj, e2 ▸ hfj, (same_status hje).1 ▸ hfin⟩⟩
      · show (t.setFiber c { nf with status := STATE_READY }).fiber q = t.fiber q
        exact fiber_setFiber_ne _ hqc
      · show statusOf (t.setFiber c { nf with status := STATE_READY }) c = _
        rw [statusOf, fiber_setFiber_self _ hc0]
        rfl
    · obtain ⟨g, gj, hg, _, hgj, hgne⟩ := hall c hc
      rw [hnf] at hg
      cases hg
      rw [hjf] at hgj
      cases hgj
      exact absurd hfin hgne
    · rw [hnf] at hnf'
      cases hnf'
      rw [hb] at hr'
      cases hr'

/-- The state in which the scan starts satisfies the invariant of the scan. -/
theorem ScanInv.start {b : State} {a : Nat} (hwfb : WellFormed b) (ha : a ∈ ringList b) :
    ScanInv b a b a 0 := by
  refine ⟨hwfb.pos, rfl, hwfb, ha, Scanned.nothing b, fun q g hg => ⟨g, hg, rfl⟩, ?_, ?_,
    fun i hi => absurd hi (Nat.not_lt_zero i)⟩
  · intro i _ _
    obtain ⟨g, hg⟩ := ring_live hwfb (ring_iter_mem hwfb ha i)
    exact ⟨g, hg, by rw [Function.iterate_succ_apply', nextOf_eq hg]⟩
  · intro q g f hg hf
    rw [hg] at hf
    cases hf
    exact Or.inl rfl

/-- The scheduler, when it commits, has selected the first eligible fiber after the running
one. -/
theorem scheduler_selects {fuel : Nat} {s s' : State} (hwf : WellFormed s)
    (hrun : s.running ∈ ringList s) (hq : QuietLists s) (h : scheduler fuel s = Res.ok s') :
    Selected s (nextOf s s.running) s' := by
  unfold scheduler at h
  have hrun0 : (stop_timer s).fiber (stop_timer s).running = s.fiber s.running := rfl
  simp only [hrun0] at h
  cases hr : s.fiber s.running with
  | none => simp [hr] at h
  | some r =>
    simp only [hr] at h
    obtain ⟨hwf0, hrl0⟩ := ring_congr (stop_timer s) hwf (fun _ _ => rfl) rfl rfl rfl
    have ha : r.next ∈ ringList (stop_timer s) := by
      rw [← nextOf_eq hr, hrl0]
      exact next_mem_ring hwf hrun
    have hq0 : QuietLists (stop_timer s) := by
      intro F hF fF hfF hfin w nd hin hw fb hfb
      rw [hrl0] at hF
      exact hq F hF fF hfF hfin w nd (@InList.mono s (stop_timer s) (fun _ _ h => h) _ _ hin) hw fb hfb
    have hsel := schedLoop_selects hwf0 ha hq0 fuel (stop_timer s) r.next s'
      (Or.inl ⟨0, ScanInv.start hwf0 ha⟩) h
    rw [nextOf_eq hr]
    exact hsel

theorem InList.head_ne_zero {s : State} {h w : Nat} (hin : InList s h w) : h ≠ 0 := by
  cases hin with
  | here _ nd hnd => exact wait_ne_zero hnd
  | there _ _ nd hnd _ => exact wait_ne_zero hnd

theorem fiberThreeAlone_quiet : QuietLists fiberThreeAlone := by
  intro F hF fF hfF hfin w nd hin _ _ _
  have hr : ringList fiberThreeAlone = [1, 2, 3] := by decide
  rw [hr] at hF
  simp only [List.mem_cons, List.mem_singleton, List.not_mem_nil, or_false] at hF
  rcases hF with rfl | rfl | rfl
  · have h : (fiberThreeAlone.fiber 1).map (fun g => g.status) = some STATE_BLOCKED := by
      decide
    rw [hfF] at h
    simp only [Option.map_some', Option.some.injEq] at h
    rw [hfin] at h
    cases h
  · have h : (fiberThreeAlone.fiber 2).map (fun g => g.waitList) = some 0 := by decide
    rw [hfF] at h
    simp only [Option.map_some', Option.some.injEq] at h
    rw [h] at hin
    exact absurd rfl hin.head_ne_zero
  · have h : (fiberThreeAlone.fiber 3).map (fun g => g.status) = some STATE_READY := by
      decide
    rw [hfF] at h
    simp only [Option.map_some', Option.some.injEq] at h
    rw [hfin] at h
    cases h

/-! ## What releasing a wait list does -/

theorem names_cons {s : State} {w : Nat} {nd : Waiting} {l : List Nat} {p : Nat}
    (hnd : s.wait w = some nd) (hn : w ∉ l) :
    Names s (w :: l) p ↔ (nd.id = p ∨ Names (s.freeWait w) l p) := by
  constructor
  · rintro ⟨w', hw', nd', hnd', hid⟩
    rcases List.mem_cons.mp hw' with e | hin
    · subst e
      rw [hnd] at hnd'
      cases hnd'
      exact Or.inl hid
    · have hne : w' ≠ w := fun e => hn (e ▸ hin)
      exact Or.inr ⟨w', hin, nd', by rw [wait_freeWait, if_neg hne]; exact hnd', hid⟩
  · rintro (hid | ⟨w', hin, nd', hnd', hid⟩)
    · exact ⟨w, List.mem_cons_self _ _, nd, hnd, hid⟩
    · have hne : w' ≠ w := fun e => hn (e ▸ hin)
      rw [wait_freeWait, if_neg hne] at hnd'
      exact ⟨w', List.mem_cons_of_mem _ hin, nd', hnd', hid⟩

/-- The behaviour of `release_fibers` on a proper wait list whose nodes name live blocks (or
`NULL`), the blocked ones with a live join target: it returns; every blocked fiber named by
a node of the list is `STATE_READY` afterwards with `join_rval` set to the `retval` of its
join target; every other block is unchanged; the nodes of the list are freed. -/
theorem release_fibers_wakes :
    ∀ (l : List Nat) (fuel : Nat) (s : State) (h : Nat), Chain s h l → l.length < fuel →
      (∀ w ∈ l, ∀ nd, s.wait w = some nd →
        nd.id = 0 ∨ ∃ f, s.fiber nd.id = some f ∧
          (f.status = STATE_BLOCKED → ∃ jf, s.fiber f.joinFiber = some jf)) →
      ∃ t, release_fibers fuel s h = Res.ok t ∧
        (∀ p f, s.fiber p = some f → f.status = STATE_BLOCKED → Names s l p →
          ∃ jf, s.fiber f.joinFiber = some jf ∧
            t.fiber p = some { f with status := STATE_READY, join_rval := jf.retval }) ∧
        (∀ p, ¬ (Names s l p ∧ ∃ f, s.fiber p = some f ∧ f.status = STATE_BLOCKED) →
          t.fiber p = s.fiber p) ∧
        (∀ w ∈ l, t.wait w = none) ∧ (∀ w, w ∉ l → t.waits w = s.waits w) := by
  intro l
  induction l with
  | nil =>
    intro fuel s h hc hfuel _
    obtain ⟨fuel, rfl⟩ : ∃ k, fuel = k + 1 := ⟨fuel - 1, by simp at hfuel; omega⟩
    have h0 : h = 0 := hc
    subst h0
    refine ⟨s, by simp [release_fibers], ?_, fun _ _ => rfl, by simp, fun _ _ => rfl⟩
    rintro p f _ _ ⟨w, hw, _⟩
    cases hw
  | cons w l ih =>
    intro fuel s h hc hfuel hq
    obtain ⟨e, hn, nd, hnd, hrest⟩ := hc
    subst e
    obtain ⟨fuel, rfl⟩ : ∃ k, fuel = k + 1 := ⟨fuel - 1, by simp at hfuel; omega⟩
    have hw0 := wait_ne_zero hnd
    have hfl : l.length < fuel := by simp at hfuel; omega
    have hwne : ∀ w' ∈ l, w' ≠ h := fun w' hw' e => hn (e ▸ hw')
    -- the continuation on a state whose blocks agree with `s1` and whose node `h` is freed
    have key : ∀ (s1 : State), (∀ w', s1.wait w' = s.wait w') →
        (∀ w' ∈ l, ∀ nd', s1.wait w' = some nd' →
          nd'.id = 0 ∨ ∃ f, s1.fiber nd'.id = some f ∧
            (f.status = STATE_BLOCKED → ∃ jf, s1.fiber f.joinFiber = some jf)) →
        ∃ t, release_fibers fuel (s1.freeWait h) nd.next = Res.ok t ∧
          (∀ p f, s1.fiber p = some f → f.status = STATE_BLOCKED → Names (s.freeWait h) l p →
            ∃ jf, s1.fiber f.joinFiber = some jf ∧
              t.fiber p = some { f with status := STATE_READY, join_rval := jf.retval }) ∧
          (∀ p, ¬ (Names (s.freeWait h) l p ∧ ∃ f, s1.fiber p = some f ∧
              f.status = STATE_BLOCKED) → t.fiber p = s1.fiber p) ∧
          (∀ w ∈ l, t.wait w = none) ∧ (∀ w', w' ∉ l → t.waits w' = (s1.freeWait h).waits w') := by
      intro s1 hw1 hq1
      have hwf : ∀ w', (s1.freeWait h).wait w' = (s.freeWait h).wait w' := by
        intro w'
        rw [wait_freeWait, wait_freeWait, hw1]
      have hch : Chain (s1.freeWait h) nd.next l :=
        chain_frame (fun w' hw' => by rw [hwf, wait_freeWait, if_neg (hwne w' hw')]) hrest
      obtain ⟨t, ht, hA, hB, hC, hD⟩ := ih fuel (s1.freeWait h) nd.next hch hfl
        (fun w' hw' nd' hnd' => by
          rw [wait_freeWait, if_neg (hwne w' hw')] at hnd'
          exact hq1 w' hw' nd' hnd')
      have hnames : ∀ p, Names (s1.freeWait h) l p ↔ Names (s.freeWait h) l p := by
        intro p
        constructor
        · rintro ⟨w', hw', nd', hnd', hid⟩
          exact ⟨w', hw', nd', (hwf w').symm.trans hnd', hid⟩
        · rintro ⟨w', hw', nd', hnd', hid⟩
          exact ⟨w', hw', nd', (hwf w').trans hnd', hid⟩
      refine ⟨t, ht, ?_, ?_, hC, hD⟩
      · intro p f hf hb hnm
        exact hA p f hf hb ((hnames p).mpr hnm)
      · intro p hp
        exact hB p (fun ⟨hnm, hx⟩ => hp ⟨(hnames p).mp hnm, hx⟩)
    have hfree : ∀ (t : State) (s1 : State), (∀ w', w' ∉ l → t.waits w' = (s1.freeWait h).waits w') →
        (∀ w ∈ l, t.wait w = none) → s1.waits = s.waits →
        (∀ w' ∈ h :: l, t.wait w' = none) ∧ (∀ w', w' ∉ h :: l → t.waits w' = s.waits w') := by
      intro t s1 hD hC hws
      constructor
      · intro w' hw'
        rcases List.mem_cons.mp hw' with e | hin
        · subst e
          have := hD w' hn
          simp [State.wait, this, State.freeWait]
        · exact hC w' hin
      · intro w' hw'
        have h1 : w' ∉ l := fun hm => hw' (List.mem_cons_of_mem _ hm)
        have h2 : w' ≠ h := fun e => hw' (e ▸ List.mem_cons_self _ _)
        rw [hD w' h1]
        simp [State.freeWait, Function.update_noteq h2, hws]
    have hcons : ∀ p, Names s (h :: l) p ↔ (nd.id = p ∨ Names (s.freeWait h) l p) :=
      fun p => names_cons hnd hn
    rcases hq h (List.mem_cons_self _ _) nd hnd with h0 | ⟨wf, hwfb, hjfl⟩
    · -- the node names no fiber
      obtain ⟨t, ht, hA, hB, hC, hD⟩ := key s (fun _ => rfl)
        (fun w' hw' nd' hnd' => hq w' (List.mem_cons_of_mem _ hw') nd' hnd')
      have hstep : release_fibers (fuel + 1) s h = release_fibers fuel (s.freeWait h) nd.next := by
        rw [release_fibers]
        simp [hw0, hnd, h0]
      obtain ⟨hF1, hF2⟩ := hfree t s hD hC rfl
      refine ⟨t, hstep ▸ ht, ?_, ?_, hF1, hF2⟩
      · intro p f hf hb hnm
        rcases (hcons p).mp hnm with e | hnm'
        · exact absurd (e ▸ h0 : p = 0) (fiber_ne_zero hf)
        · exact hA p f hf hb hnm'
      · intro p hp
        exact hB p (fun ⟨hnm, hx⟩ => hp ⟨(hcons p).mpr (Or.inr hnm), hx⟩)
    · have hid : nd.id ≠ 0 := fiber_ne_zero hwfb
      by_cases hb : wf.status = STATE_BLOCKED
      · -- the node names a blocked fiber: it is woken
        obtain ⟨jf, hjf⟩ := hjfl hb
        have hs1 : ∀ q, (s.setFiber nd.id
            { wf with status := STATE_READY, join_rval := jf.retval }).fiber q =
            if q = nd.id then some { wf with status := STATE_READY, join_rval := jf.retval }
            else s.fiber q := by
          intro q
          rw [fiber_setFiber]
          by_cases e : q = nd.id
          · simp [e, hid]
          · simp [e]
        obtain ⟨t, ht, hA, hB, hC, hD⟩ := key
          (s.setFiber nd.id { wf with status := STATE_READY, join_rval := jf.retval })
          (fun _ => rfl)
          (fun w' hw' nd' hnd' => by
            rcases hq w' (List.mem_cons_of_mem _ hw') nd' hnd' with h0 | ⟨f, hf, hfj⟩
            · exact Or.inl h0
            · right
              by_cases e : nd'.id = nd.id
              · refine ⟨_, by rw [hs1, if_pos e], fun hb' => ?_⟩
                cases hb'
              · refine ⟨f, by rw [hs1, if_neg e]; exact hf, fun hb' => ?_⟩
                obtain ⟨jf', hjf'⟩ := hfj hb'
                by_cases e' : f.joinFiber = nd.id
                · exact ⟨_, by rw [hs1, if_pos e']⟩
                · exact ⟨jf', by rw [hs1, if_neg e']; exact hjf'⟩)
        have hstep : release_fibers (fuel + 1) s h = release_fibers fuel
            ((s.setFiber nd.id { wf with status := STATE_READY, join_rval := jf.retval }).freeWait
              h) nd.next := by
          rw [release_fibers]
          simp [hw0, hnd, hid, hwfb, hb, hjf]
        obtain ⟨hF1, hF2⟩ := hfree t _ hD hC rfl
        refine ⟨t, hstep ▸ ht, ?_, ?_, hF1, hF2⟩
        · intro p f hf hbp hnm
          by_cases e : p = nd.id
          · subst e
            rw [hwfb] at hf
            cases hf
            refine ⟨jf, hjf, ?_⟩
            rw [hB, hs1, if_pos rfl]
            rintro ⟨_, f', hf', hb'⟩
            rw [hs1, if_pos rfl] at hf'
            cases hf'
            cases hb'
          · rcases (hcons p).mp hnm with e' | hnm'
            · exact absurd e'.symm e
            · obtain ⟨jf', hjf', htp⟩ := hA p f (by rw [hs1, if_neg e]; exact hf) hbp hnm'
              by_cases e' : f.joinFiber = nd.id
              · rw [hs1, if_pos e'] at hjf'
                cases hjf'
                exact ⟨wf, e' ▸ hwfb, htp⟩
              · rw [hs1, if_neg e'] at hjf'
                exact ⟨jf', hjf', htp⟩
        · intro p hp
          have e : p ≠ nd.id := by
            intro e
            exact hp ⟨(hcons p).mpr (Or.inl e.symm), wf, e ▸ hwfb, hb⟩
          rw [hB, hs1, if_neg e]
          rintro ⟨hnm, f', hf', hb'⟩
          rw [hs1, if_neg e] at hf'
          exact hp ⟨(hcons p).mpr (Or.inr hnm), f', hf', hb'⟩
      · -- the node names a fiber that is not blocked
        obtain ⟨t, ht, hA, hB, hC, hD⟩ := key s (fun _ => rfl)
          (fun w' hw' nd' hnd' => hq w' (List.mem_cons_of_mem _ hw') nd' hnd')
        have hstep : release_fibers (fuel + 1) s h =
            release_fibers fuel (s.freeWait h) nd.next := by
          rw [release_fibers]
          simp [hw0, hnd, hid, hwfb, hb]
        obtain ⟨hF1, hF2⟩ := hfree t s hD hC rfl
        refine ⟨t, hstep ▸ ht, ?_, ?_, hF1, hF2⟩
        · intro p f hf hbp hnm
          rcases (hcons p).mp hnm with e | hnm'
          · rw [← e, hwfb] at hf
            cases hf
            exact absurd hbp hb
          · exact hA p f hf hbp hnm'
        · intro p hp
          exact hB p (fun ⟨hnm, hx⟩ => hp ⟨(hcons p).mpr (Or.inr hnm), hx⟩)


/-- The fast path of `fiber_join`: on a well-formed ring, for a finished target that is in
the ring and is not the caller, whose wait list is a proper list that names no blocked
fiber, the call returns 0 at once; it frees the nodes of the list and changes no block and
no ring field. With an empty wait list the state is unchanged, so that repeating the call
gives the same result. -/
theorem fiber_join_fast_path {fuel : Nat} {s : State} {id : Nat} {ft : Fiber} {l : List Nat}
    (retval waitingNode : Nat) (hwf : WellFormed s) (hm : id ∈ ringList s)
    (hne : id ≠ s.running) (hft : s.fiber id = some ft) (hfin : ft.status = STATE_FINISHED)
    (hch : Chain s ft.waitList l) (hlen : l.length < fuel)
    (hq : ∀ w ∈ l, ∀ nd, s.wait w = some nd →
      nd.id = 0 ∨ ∃ f, s.fiber nd.id = some f ∧ f.status ≠ STATE_BLOCKED) :
    ∃ s1, fiber_join fuel s id retval waitingNode = Res.ok (JoinResult.returned 0 s1) ∧
      s1.fibers = s.fibers ∧ s1.head = s.head ∧ s1.tail = s.tail ∧ s1.size = s.size ∧
      s1.running = s.running ∧ (∀ w, w ∉ l → s1.waits w = s.waits w) ∧
      (ft.waitList = 0 → s1 = s) := by
  obtain ⟨j, hj, hloc⟩ := locate_mem hwf hm
  have hj' : ¬ j > s.size := by omega
  obtain ⟨s1, hrel, hfib, hh, ht, hs, hr, hw⟩ :=
    release_fibers_quiet l fuel s ft.waitList hch hlen hq
  refine ⟨s1, ?_, hfib, hh, ht, hs, hr, hw, ?_⟩
  · simp only [fiber_join, hloc, hj', if_false, hne, hft, hfin, if_true, hrel]
  · intro h0
    obtain ⟨fuel, rfl⟩ : ∃ k, fuel = k + 1 := ⟨fuel - 1, by omega⟩
    rw [h0] at hrel
    simp [release_fibers] at hrel
    exact hrel.symm

/-! ## The exit status of the scheduler -/

/-- The predecessor walk of `pop`, started at a block of the ring, stops at a block of the
ring. -/
theorem popWalk_mem {s : State} {f : Nat} (hwf : WellFormed s) :
    ∀ (fuel a prev : Nat), a ∈ ringList s → popWalk fuel s f a = Res.ok prev →
      prev ∈ ringList s := by
  intro fuel
  induction fuel with
  | zero => intro a prev _ h; simp [popWalk] at h
  | succ fuel ih =>
    intro a prev ha h
    rw [popWalk] at h
    cases hfa : s.fiber a with
    | none => simp [hfa] at h
    | some pf =>
      simp only [hfa] at h
      by_cases hne : f ≠ pf.next
      · rw [if_pos hne] at h
        refine ih _ _ ?_ h
        rw [← nextOf_eq hfa]
        exact next_mem_ring hwf ha
      · rw [if_neg hne] at h
        simp only [Res.ok.injEq] at h
        subst h
        exact ha

/-- A call of `pop` on a live finished block that returns has completed its predecessor
walk. -/
theorem pop_walked {s s2 : State} {c nx fuel : Nat} {ff : Fiber}
    (h : pop fuel s c = Res.ok (nx, s2)) (hf : s.fiber c = some ff)
    (hfin : ff.status = STATE_FINISHED) (hs : s.size ≠ 0) :
    ∃ prev, popWalk fuel s c s.head = Res.ok prev := by
  unfold pop at h
  simp only [fiber_ne_zero hf, if_false, hs, hf, hfin, ne_eq, not_true_eq_false] at h
  cases hw : popWalk fuel s c s.head with
  | ok prev => exact ⟨prev, rfl⟩
  | fault => simp [hw] at h
  | diverge => simp [hw] at h
  | exit e => simp [hw] at h

/-- On a well-formed ring `pop` returns only for a finished block that is a member: for
any other finished block the predecessor walk goes round the ring without end. -/
theorem pop_ok_member {s s2 : State} {c nx fuel : Nat} {ff : Fiber} (hwf : WellFormed s)
    (h : pop fuel s c = Res.ok (nx, s2)) (hf : s.fiber c = some ff)
    (hfin : ff.status = STATE_FINISHED) : c ∈ ringList s := by
  obtain ⟨prev, hw⟩ := pop_walked h hf hfin (by have := hwf.pos; omega)
  have hm := popWalk_mem hwf fuel s.head prev (head_mem_ringList hwf) hw
  obtain ⟨pf, hpf, hn⟩ := popWalk_next fuel s.head prev hw
  rw [← hn, ← nextOf_eq hpf]
  exact next_mem_ring hwf hm

/-- The function `release_fibers` does not end the process. -/
theorem release_fibers_ne_exit :
    ∀ (fuel : Nat) (s : State) (wl : Nat) (e : Int), release_fibers fuel s wl ≠ Res.exit e := by
  intro fuel
  induction fuel with
  | zero => intro s wl e; simp [release_fibers]
  | succ fuel ih =>
    intro s wl e
    rw [release_fibers]
    by_cases h0 : wl = 0
    · simp [h0]
    rw [if_neg h0]
    cases hw : s.wait wl with
    | none => simp
    | some w =>
      simp only
      by_cases hid : w.id = 0
      · rw [if_pos hid]; exact ih _ _ _
      rw [if_neg hid]
      cases hf : s.fiber w.id with
      | none => simp
      | some wf =>
        simp only
        by_cases hb : wf.status = STATE_BLOCKED
        · rw [if_pos hb]
          cases hj : s.fiber wf.joinFiber with
          | none => simp
          | some jf => exact ih _ _ _
        · rw [if_neg hb]; exact ih _ _ _

/-- The predecessor walk of `pop` does not end the process. -/
theorem popWalk_ne_exit {s : State} {c : Nat} :
    ∀ (m a : Nat) (e : Int), popWalk m s c a ≠ Res.exit e := by
  intro m
  induction m with
  | zero => intro a e; simp [popWalk]
  | succ m ihm =>
    intro a e
    rw [popWalk]
    cases hfa : s.fiber a with
    | none => simp
    | some pf =>
      simp only
      by_cases hne : c ≠ pf.next
      · rw [if_pos hne]; exact ihm _ _
      · rw [if_neg hne]; simp

/-- The function `pop` does not end the process. -/
theorem pop_ne_exit (fuel : Nat) (s : State) (c : Nat) (e : Int) :
    pop fuel s c ≠ Res.exit e := by
  intro hpop
  unfold pop at hpop
  by_cases hc0 : c = 0
  · simp [hc0] at hpop
  simp only [hc0, if_false] at hpop
  by_cases hs : s.size = 0
  · simp [hs] at hpop
  simp only [hs, if_false] at hpop
  cases hf1 : s.fiber c with
  | none => simp [hf1] at hpop
  | some ff =>
    simp only [hf1] at hpop
    by_cases hfin1 : ff.status ≠ STATE_FINISHED
    · simp [hfin1] at hpop
    rw [if_neg hfin1] at hpop
    cases hw : popWalk fuel s c s.head with
    | fault => simp [hw] at hpop
    | diverge => simp [hw] at hpop
    | exit e' => exact popWalk_ne_exit _ _ _ hw
    | ok prev =>
      simp only [hw] at hpop
      cases hp : s.fiber prev with
      | none => simp [hp] at hpop
      | some pf =>
        simp only [hp] at hpop
        cases hf2 : (s.setFiber prev { pf with next := ff.next }).fiber c with
        | none => simp [hf2] at hpop
        | some f1 =>
          simp only [hf2] at hpop
          by_cases hz : s.size - 1 = 0
          · simp [State.freeFiber, State.setFiber, hz] at hpop
          · simp [State.freeFiber, State.setFiber, hz] at hpop

/-- Induction over the scheduler's scan for the runs that end the process: a property of
the state that survives reaping, skipping and waking constrains the exit status through
the state in which `pop` returned `NULL`. -/
theorem schedLoop_exit_induct {fuel : Nat} (P : State → Nat → Prop) (E : Int → Prop)
    (hexit : ∀ s c nf s1 s2, P s c → s.fiber c = some nf → nf.status = STATE_FINISHED →
      release_fibers fuel s nf.waitList = Res.ok s1 → pop fuel s1 c = Res.ok (0, s2) →
      E (if s2.size = 0 then 0 else -1))
    (hreap : ∀ s c nf s1 s2 nx, P s c → s.fiber c = some nf → nf.status = STATE_FINISHED →
      release_fibers fuel s nf.waitList = Res.ok s1 → pop fuel s1 c = Res.ok (nx, s2) →
      nx ≠ 0 → P s2 nx)
    (hskip : ∀ s c nf jf, P s c → s.fiber c = some nf → nf.status = STATE_BLOCKED →
      s.fiber nf.joinFiber = some jf → jf.status ≠ STATE_FINISHED → P s nf.next)
    (hwake : ∀ s c nf jf, P s c → s.fiber c = some nf → nf.status = STATE_BLOCKED →
      s.fiber nf.joinFiber = some jf → jf.status = STATE_FINISHED →
      P (s.setFiber c { nf with status := STATE_READY }) c) :
    ∀ (n : Nat) (s : State) (c : Nat) (code : Int),
      P s c → schedLoop fuel n s c = Res.exit code → E code := by
  intro n
  induction n with
  | zero => intro s c code _ h; simp [schedLoop] at h
  | succ n ih =>
    intro s c code hP h
    have tail : ∀ (s3 : State) (nx : Nat), P s3 nx →
        (match s3.fiber nx with
          | none => Res.fault
          | some nf3 =>
            if nf3.status = STATE_BLOCKED then
              match s3.fiber nf3.joinFiber with
              | none => Res.fault
              | some jf =>
                if jf.status ≠ STATE_FINISHED then schedLoop fuel n s3 nf3.next
                else schedLoop fuel n (s3.setFiber nx { nf3 with status := STATE_READY }) nx
            else schedLoop fuel n s3 nx) = Res.exit code → E code := by
      intro s3 nx hP3 h3
      cases hnf3 : s3.fiber nx with
      | none => simp [hnf3] at h3
      | some nf3 =>
        simp only [hnf3] at h3
        by_cases hb : nf3.status = STATE_BLOCKED
        · simp only [hb, if_true] at h3
          cases hjf : s3.fiber nf3.joinFiber with
          | none => simp [hjf] at h3
          | some jf =>
            simp only [hjf] at h3
            by_cases hj : jf.status ≠ STATE_FINISHED
            · rw [if_pos hj] at h3
              exact ih _ _ _ (hskip s3 nx nf3 jf hP3 hnf3 hb hjf hj) h3
            · rw [if_neg hj] at h3
              exact ih _ _ _ (hwake s3 nx nf3 jf hP3 hnf3 hb hjf (not_not.mp hj)) h3
        · simp only [hb, if_false] at h3
          exact ih _ _ _ hP3 h3
    rw [schedLoop] at h
    cases hc : s.fiber c with
    | none => simp [hc] at h
    | some nf =>
      simp only [hc] at h
      by_cases hr : nf.status = STATE_READY
      · simp [hr] at h
      · simp only [hr, if_false] at h
        by_cases hfin : nf.status = STATE_FINISHED
        · simp only [hfin, if_true] at h
          cases hrel : release_fibers fuel s nf.waitList with
          | fault => simp [hrel] at h
          | diverge => simp [hrel] at h
          | exit e => exact absurd hrel (release_fibers_ne_exit _ _ _ _)
          | ok s1 =>
            simp only [hrel] at h
            cases hpop : pop fuel s1 c with
            | fault => simp [hpop] at h
            | diverge => simp [hpop] at h
            | exit e => exact absurd hpop (pop_ne_exit _ _ _ _)
            | ok r =>
              obtain ⟨nx, s2⟩ := r
              simp only [hpop] at h
              by_cases hnx : nx = 0
              · subst hnx
                simp only [if_true] at h
                have := hexit s c nf s1 s2 hP hc hfin hrel hpop
                by_cases hz : s2.size = 0
                · simp only [hz, if_true, Res.exit.injEq] at h this
                  rw [← h]; exact this
                · simp only [hz, if_false, Res.exit.injEq] at h this
                  rw [← h]; exact this
              · simp only [hnx, if_false] at h
                exact tail s2 nx (hreap s c nf s1 s2 nx hP hc hfin hrel hpop hnx) h
        · simp only [hfin, if_false] at h
          exact tail s c hP h

/-- A scan over a well-formed ring that ends the process ends it with status 0, and the
ring is then empty. -/
theorem schedLoop_exit_zero {fuel : Nat} :
    ∀ (n : Nat) (s : State) (c : Nat) (code : Int),
      WellFormed s → schedLoop fuel n s c = Res.exit code → code = 0 := by
  apply schedLoop_exit_induct (fun s _ => WellFormed s) (fun code => code = 0)
  · intro s c nf s1 s2 hwf hnf hfin hrel hpop
    have hR := release_fibers_released _ _ _ _ hrel
    obtain ⟨hwf1, hrl1⟩ := hR.keeps_ring hwf
    have hnf1 : s1.fiber c = some nf := hR.status_of_not_blocked hnf (by simp [hfin])
    have hm := pop_ok_member hwf1 hpop hnf1 hfin
    rcases pop_member hwf1 hm hnf1 hfin hpop with ⟨_, _, h0, _⟩ | ⟨_, _, hz⟩
    · exact absurd rfl h0
    · simp [hz]
  · intro s c nf s1 s2 nx hwf hnf hfin hrel hpop hnx
    have hR := release_fibers_released _ _ _ _ hrel
    obtain ⟨hwf1, hrl1⟩ := hR.keeps_ring hwf
    have hnf1 : s1.fiber c = some nf := hR.status_of_not_blocked hnf (by simp [hfin])
    have hm := pop_ok_member hwf1 hpop hnf1 hfin
    rcases pop_member hwf1 hm hnf1 hfin hpop with ⟨_, _, _, hwf2, _⟩ | ⟨_, h0, _⟩
    · exact hwf2
    · exact absurd h0 hnx
  · intro s c nf jf hwf _ _ _ _
    exact hwf
  · intro s c nf jf hwf hnf _ _ _
    exact (ringList_wake hwf hnf { nf with status := STATE_READY } rfl).1

/-- Entered on a well-formed ring, the scheduler never takes its `exit(-1)` branch: when it
ends the process the status is 0. -/
theorem scheduler_exit_zero {fuel : Nat} {s : State} {code : Int} (hwf : WellFormed s)
    (h : scheduler fuel s = Res.exit code) : code = 0 := by
  unfold scheduler at h
  obtain ⟨hwf0, _⟩ := ring_congr (stop_timer s) hwf (fun _ _ => rfl) rfl rfl rfl
  have hrun : (stop_timer s).fiber (stop_timer s).running = s.fiber s.running := rfl
  simp only [hrun] at h
  cases hr : s.fiber s.running with
  | none => simp [hr] at h
  | some r =>
    simp only [hr] at h
    exact schedLoop_exit_zero fuel (stop_timer s) r.next code hwf0 h

/-! ## The scan reaches a ready fiber -/

/-- Erasing the record of visited blocks from `schedLoopVisits` gives `schedLoop`. -/
theorem schedLoopVisits_erase {fuel : Nat} :
    ∀ (n : Nat) (s : State) (c : Nat) (v : List Nat),
      (schedLoopVisits fuel n s c v).dropVisits = schedLoop fuel n s c := by
  intro n
  induction n with
  | zero => intro s c v; rfl
  | succ n ih =>
    intro s c v
    have tail : ∀ (s3 : State) (nx : Nat) (v3 : List Nat),
        (match s3.fiber nx with
          | none => Res.fault
          | some nf3 =>
            if nf3.status = STATE_BLOCKED then
              match s3.fiber nf3.joinFiber with
              | none => Res.fault
              | some jf =>
                if jf.status ≠ STATE_FINISHED then
                  schedLoopVisits fuel n s3 nf3.next (v3 ++ [nf3.next])
                else
                  schedLoopVisits fuel n (s3.setFiber nx { nf3 with status := STATE_READY }) nx v3
            else schedLoopVisits fuel n s3 nx v3).dropVisits =
        (match s3.fiber nx with
          | none => Res.fault
          | some nf3 =>
            if nf3.status = STATE_BLOCKED then
              match s3.fiber nf3.joinFiber with
              | none => Res.fault
              | some jf =>
                if jf.status ≠ STATE_FINISHED then schedLoop fuel n s3 nf3.next
                else schedLoop fuel n (s3.setFiber nx { nf3 with status := STATE_READY }) nx
            else schedLoop fuel n s3 nx) := by
      intro s3 nx v3
      cases hnf3 : s3.fiber nx with
      | none => rfl
      | some nf3 =>
        simp only
        by_cases hb : nf3.status = STATE_BLOCKED
        · simp only [hb, if_true]
          cases hjf : s3.fiber nf3.joinFiber with
          | none => rfl
          | some jf =>
            simp only
            by_cases hj : jf.status ≠ STATE_FINISHED
            · rw [if_pos hj, if_pos hj]
              exact ih _ _ _
            · rw [if_neg hj, if_neg hj]
              exact ih _ _ _
        · simp only [hb, if_false]
          exact ih _ _ _
    rw [schedLoopVisits, schedLoop]
    cases hc : s.fiber c with
    | none => rfl
    | some nf =>
      simp only
      by_cases hr : nf.status = STATE_READY
      · simp only [hr, if_true]
        rfl
      · simp only [hr, if_false]
        by_cases hfin : nf.status = STATE_FINISHED
        · simp only [hfin, if_true]
          cases hrel : release_fibers fuel s nf.waitList with
          | fault => rfl
          | diverge => rfl
          | exit e => rfl
          | ok s1 =>
            simp only
            cases hpop : pop fuel s1 c with
            | fault => rfl
            | diverge => rfl
            | exit e => rfl
            | ok r =>
              obtain ⟨nx, s2⟩ := r
              simp only
              by_cases hnx : nx = 0
              · simp only [hnx, if_true]
                by_cases hz : s2.size = 0
                · simp only [hz, if_true]; rfl
                · simp only [hz, if_false]; rfl
              · simp only [hnx, if_false]
                exact tail s2 nx _
        · simp only [hfin, if_false]
          exact tail s c v

/-- A committing run of `schedLoopVisits` is a committing run of `schedLoop`. -/
theorem schedLoop_of_visits {fuel n : Nat} {s s' : State} {c : Nat} {v v' : List Nat}
    (h : schedLoopVisits fuel n s c v = Res.ok (s', v')) : schedLoop fuel n s c = Res.ok s' := by
  rw [← schedLoopVisits_erase n s c v, h]
  rfl

/-- Erasing the record of visited blocks from `schedulerVisits` gives `scheduler`. -/
theorem schedulerVisits_erase (fuel : Nat) (s : State) :
    (schedulerVisits fuel s).dropVisits = scheduler fuel s := by
  unfold schedulerVisits scheduler
  cases hr : (stop_timer s).fiber (stop_timer s).running with
  | none => simp only [hr]; rfl
  | some r => simp only [hr]; exact schedLoopVisits_erase _ _ _ _

/-- One iteration of the scan at a ready fiber. -/
theorem schedLoopVisits_commit {fuel n : Nat} {s : State} {c : Nat} {nf : Fiber} {v : List Nat}
    (hnf : s.fiber c = some nf) (hr : nf.status = STATE_READY) :
    schedLoopVisits fuel (n + 1) s c v = Res.ok (commit s c, v) := by
  rw [schedLoopVisits]
  simp [hnf, hr]

/-- One iteration of the scan at a blocked fiber whose target has not finished. -/
theorem schedLoopVisits_skip {fuel n : Nat} {s : State} {c : Nat} {nf jf : Fiber}
    {v : List Nat} (hnf : s.fiber c = some nf) (hb : nf.status = STATE_BLOCKED)
    (hjf : s.fiber nf.joinFiber = some jf) (hne : jf.status ≠ STATE_FINISHED) :
    schedLoopVisits fuel (n + 1) s c v = schedLoopVisits fuel n s nf.next (v ++ [nf.next]) := by
  rw [schedLoopVisits]
  simp [hnf, hb, hjf, hne]

/-- One iteration of the scan at a blocked fiber whose target has finished. -/
theorem schedLoopVisits_wake {fuel n : Nat} {s : State} {c : Nat} {nf jf : Fiber}
    {v : List Nat} (hnf : s.fiber c = some nf) (hb : nf.status = STATE_BLOCKED)
    (hjf : s.fiber nf.joinFiber = some jf) (he : jf.status = STATE_FINISHED) :
    schedLoopVisits fuel (n + 1) s c v =
      schedLoopVisits fuel n (s.setFiber c { nf with status := STATE_READY }) c v := by
  rw [schedLoopVisits]
  simp [hnf, hb, hjf, he]

/-- One iteration of the scan at a finished fiber that is followed by a fiber that is not
blocked. -/
theorem schedLoopVisits_reap_next {fuel n : Nat} {s s1 s2 : State} {c nx : Nat}
    {nf nf3 : Fiber} {v : List Nat}
    (hnf : s.fiber c = some nf) (hfin : nf.status = STATE_FINISHED)
    (hrel : release_fibers fuel s nf.waitList = Res.ok s1)
    (hpop : pop fuel s1 c = Res.ok (nx, s2)) (hnx : nx ≠ 0)
    (hnf3 : s2.fiber nx = some nf3) (hnb : nf3.status ≠ STATE_BLOCKED) :
    schedLoopVisits fuel (n + 1) s c v = schedLoopVisits fuel n s2 nx (v ++ [nx]) := by
  rw [schedLoopVisits]
  simp [hnf, hfin, hrel, hpop, hnx, hnf3, hnb]

/-- One iteration of the scan at a finished fiber that is followed by a blocked fiber whose
target has not finished. -/
theorem schedLoopVisits_reap_skip {fuel n : Nat} {s s1 s2 : State} {c nx : Nat}
    {nf nf3 jf : Fiber} {v : List Nat}
    (hnf : s.fiber c = some nf) (hfin : nf.status = STATE_FINISHED)
    (hrel : release_fibers fuel s nf.waitList = Res.ok s1)
    (hpop : pop fuel s1 c = Res.ok (nx, s2)) (hnx : nx ≠ 0)
    (hnf3 : s2.fiber nx = some nf3) (hb : nf3.status = STATE_BLOCKED)
    (hjf : s2.fiber nf3.joinFiber = some jf) (hne : jf.status ≠ STATE_FINISHED) :
    schedLoopVisits fuel (n + 1) s c v =
      schedLoopVisits fuel n s2 nf3.next (v ++ [nx] ++ [nf3.next]) := by
  rw [schedLoopVisits]
  simp [hnf, hfin, hrel, hpop, hnx, hnf3, hb, hjf, hne]

/-- One iteration of the scan at a finished fiber that is followed by a blocked fiber whose
target has finished. -/
theorem schedLoopVisits_reap_wake {fuel n : Nat} {s s1 s2 : State} {c nx : Nat}
    {nf nf3 jf : Fiber} {v : List Nat}
    (hnf : s.fiber c = some nf) (hfin : nf.status = STATE_FINISHED)
    (hrel : release_fibers fuel s nf.waitList = Res.ok s1)
    (hpop : pop fuel s1 c = Res.ok (nx, s2)) (hnx : nx ≠ 0)
    (hnf3 : s2.fiber nx = some nf3) (hb : nf3.status = STATE_BLOCKED)
    (hjf : s2.fiber nf3.joinFiber = some jf) (he : jf.status = STATE_FINISHED) :
    schedLoopVisits fuel (n + 1) s c v =
      schedLoopVisits fuel n (s2.setFiber nx { nf3 with status := STATE_READY }) nx
        (v ++ [nx]) := by
  rw [schedLoopVisits]
  simp [hnf, hfin, hrel, hpop, hnx, hnf3, hb, hjf, he]

theorem two_le_of_mem {l : List Nat} {x y : Nat} (hx : x ∈ l) (hy : y ∈ l) (hne : x ≠ y) :
    2 ≤ l.length := by
  match l, hx, hy with
  | [], hx, _ => simp at hx
  | [z], hx, hy =>
    simp only [List.mem_singleton] at hx hy
    exact absurd (hx.trans hy.symm) hne
  | _ :: _ :: _, _, _ => simp

/-- Unlinking a block changes the status of no other block. -/
theorem unlinked_status {s : State} {c prev : Nat} {pf : Fiber} {nx q : Nat}
    (hpf : s.fiber prev = some pf) (hq : q ≠ c) :
    statusOf (unlinked s c prev pf nx) q = statusOf s q := by
  unfold statusOf
  by_cases hqp : q = prev
  · subst hqp
    rw [unlinked_fiber, if_neg hq, if_pos rfl, if_neg (fiber_ne_zero hpf), hpf]
    rfl
  · rw [unlinked_fiber_other hq hqp]

/-- A node on a proper wait list is one of the nodes of the list. -/
theorem chain_of_inList {s : State} {h w : Nat} (hin : InList s h w) :
    ∀ {l : List Nat}, Chain s h l → w ∈ l := by
  induction hin with
  | here h nd hnd =>
    intro l hch
    cases l with
    | nil => exact absurd hch (wait_ne_zero hnd)
    | cons x l => rw [hch.1]; exact List.mem_cons_self _ _
  | there h w nd hnd _ ih =>
    intro l hch
    cases l with
    | nil => exact absurd hch (wait_ne_zero hnd)
    | cons x l =>
      obtain ⟨hx, _, nd', hnd', hrest⟩ := hch
      subst hx
      rw [hnd] at hnd'
      cases hnd'
      exact List.mem_cons_of_mem _ (ih hrest)

theorem OwnLists.own_finished {s : State} {L : Nat} (h : OwnLists s L) : OwnFinished s L :=
  fun p hp f hf _ => h p hp f hf

/-- When the wait list of each finished fiber holds own nodes only, no such list names a
blocked fiber. -/
theorem OwnFinished.quiet {s : State} {L : Nat} (h : OwnFinished s L) : QuietLists s := by
  intro F hF fF hfF hfin w nd hin hw fb hfb
  obtain ⟨l, hch, _, hid⟩ := h F hF fF hfF hfin
  have hwl := chain_of_inList hin hch
  rw [hid w hwl nd hw, hfF] at hfb
  cases hfb
  rw [hfin]
  decide

/-- Reaping a finished member of a ring of at least two blocks in which the wait lists of
finished fibers hold own nodes: the release changes no block, `pop` returns the successor,
and the wait lists of the finished fibers of the ring that is left still hold own nodes. -/
theorem reap_own {L fuel : Nat} {s : State} {c : Nat} {nf : Fiber} (hwf : WellFormed s)
    (hc : c ∈ ringList s) (hnf : s.fiber c = some nf) (hfin : nf.status = STATE_FINISHED)
    (hown : OwnFinished s L) (hL : L < fuel) (h2 : 2 ≤ s.size) (hfu : s.size ≤ fuel) :
    ∃ s1 prev pf, release_fibers fuel s nf.waitList = Res.ok s1 ∧ s1.fibers = s.fibers ∧
      s1.size = s.size ∧ s1.fiber prev = some pf ∧ prev ≠ c ∧
      pop fuel s1 c = Res.ok (nf.next, unlinked s1 c prev pf nf.next) ∧
      WellFormed (unlinked s1 c prev pf nf.next) ∧
      ringList (unlinked s1 c prev pf nf.next) = (ringList s).erase c ∧
      nf.next ∈ ringList (unlinked s1 c prev pf nf.next) ∧ nf.next ≠ 0 ∧
      OwnFinished (unlinked s1 c prev pf nf.next) L := by
  obtain ⟨lc, hchc, hlenc, hidc⟩ := hown c hc nf hnf hfin
  obtain ⟨s1, hrel, hfib, hh, ht, hs1, _, hw1⟩ :=
    release_fibers_quiet lc fuel s nf.waitList hchc (by omega) (fun w hw nd hnd =>
      Or.inr ⟨nf, by rw [hidc w hw nd hnd, hnf], by rw [hfin]; decide⟩)
  obtain ⟨hwf1, hrl1⟩ := ring_congr s1 hwf (fun p _ => by rw [fiber_of_fibers_eq hfib]) hh ht hs1
  have hnf1 : s1.fiber c = some nf := (fiber_of_fibers_eq hfib c).trans hnf
  obtain ⟨prev, pf, _, hpc, hpf, _, hpop, hwf2, hrl2, hnx, _, _⟩ :=
    pop_ring fuel hwf1 (hrl1 ▸ hc) hnf1 hfin (by omega) (by omega)
  have hnxm : nf.next ∈ ringList (unlinked s1 c prev pf nf.next) := hrl2 ▸ hnx
  obtain ⟨nf3, hnf3⟩ := ring_live hwf2 hnxm
  have hmem : ∀ p ∈ ringList (unlinked s1 c prev pf nf.next), p ∈ ringList s ∧ p ≠ c := by
    intro p hp
    rw [hrl2] at hp
    have := (hwf1.nodup.mem_erase_iff).mp hp
    exact ⟨hrl1 ▸ this.2, this.1⟩
  have hblk : ∀ p ∈ ringList (unlinked s1 c prev pf nf.next), ∀ g,
      (unlinked s1 c prev pf nf.next).fiber p = some g →
      ∃ f, s.fiber p = some f ∧ g.status = f.status ∧ g.waitList = f.waitList := by
    intro p hp g hg
    obtain ⟨_, hne⟩ := hmem p hp
    rw [unlinked_fiber, if_neg hne] at hg
    by_cases hpp : p = prev
    · subst hpp
      rw [if_pos rfl, if_neg (fiber_ne_zero hpf)] at hg
      cases hg
      exact ⟨pf, (fiber_of_fibers_eq hfib p).symm.trans hpf, rfl, rfl⟩
    · rw [if_neg hpp] at hg
      exact ⟨g, (fiber_of_fibers_eq hfib p).symm.trans hg, rfl, rfl⟩
  have hown2 : OwnFinished (unlinked s1 c prev pf nf.next) L := by
    intro p hp g hg hgfin
    obtain ⟨f, hf, hst, hwl⟩ := hblk p hp g hg
    obtain ⟨hps, hne⟩ := hmem p hp
    obtain ⟨l, hch, hlen, hid⟩ := hown p hps f hf (hst ▸ hgfin)
    have hsame : ∀ w ∈ l, (unlinked s1 c prev pf nf.next).wait w = s.wait w := by
      intro w hw
      rw [wait_unlinked]
      refine wait_of_waits_eq (hw1 w ?_)
      intro hwc
      obtain ⟨nd, hnd⟩ := chain_live hch w hw
      exact hne ((hid w hw nd hnd).symm.trans (hidc w hwc nd hnd))
    refine ⟨l, hwl ▸ chain_frame hsame hch, hlen, ?_⟩
    intro w hw nd hnd
    rw [hsame w hw] at hnd
    exact hid w hw nd hnd
  refine ⟨s1, prev, pf, hrel, hfib, hs1, hpf, hpc, hpop, hwf2, ?_, hnxm, fiber_ne_zero hnf3,
    hown2⟩
  rw [hrl2, hrl1]

/-- During a scan a live block has the status and the join target it had at the start. -/
theorem ScanLive.kept_block {b t : State} {a L c j : Nat} (hi : ScanLive b a L t c j) {q : Nat}
    {g : Fiber} (hg : t.fiber q = some g) :
    ∃ f, b.fiber q = some f ∧ g.status = f.status ∧ g.joinFiber = f.joinFiber := by
  obtain ⟨f, hf, hgf⟩ := hi.inv.same q g hg
  obtain ⟨e1, e2, _⟩ := same_status hgf
  exact ⟨f, hf, e1, e2⟩

/-- A fiber the scan has not met yet is live and has the status it had at the start. -/
theorem ScanLive.ahead {b t : State} {a L c j : Nat} (hi : ScanLive b a L t c j) {i : Nat}
    (hji : j ≤ i) (hib : i < b.size) :
    (nextOf b)^[i] a ∈ ringList t ∧
      statusOf t ((nextOf b)^[i] a) = statusOf b ((nextOf b)^[i] a) := by
  have hm := hi.rest i hji hib
  obtain ⟨g, hg⟩ := ring_live hi.inv.wf hm
  obtain ⟨f, hf, e, _⟩ := hi.kept_block hg
  exact ⟨hm, by simp [statusOf, hg, hf, e]⟩

/-- A ring that holds a ready fiber is not a ring of stuck fibers. -/
theorem AllStuck.no_ready {t : State} {c q : Nat} (h : AllStuck t c) (hq : q ∈ ringList t)
    (hr : statusOf t q = some STATE_READY) : False := by
  obtain ⟨f, _, hf, hb, _⟩ := h.2.2 q hq
  simp [statusOf, hf, hb] at hr

/-- The scan at a finished fiber, with a ready fiber still ahead: the release and `pop`
return, and the scan goes on at the successor. -/
theorem ScanLive.reap_step {b t : State} {a L c j k fuel : Nat} {nf : Fiber}
    (hwfb : WellFormed b) (ha : a ∈ ringList b) (hq : QuietLists b) (hk : k < b.size)
    (hkr : statusOf b ((nextOf b)^[k] a) = some STATE_READY) (hfu : b.size ≤ fuel)
    (hL : L < fuel) (hi : ScanLive b a L t c j) (hjk : j ≤ k)
    (hnf : t.fiber c = some nf) (hfin : nf.status = STATE_FINISHED) :
    ∃ t1 t2, release_fibers fuel t nf.waitList = Res.ok t1 ∧
      pop fuel t1 c = Res.ok (nf.next, t2) ∧ nf.next ≠ 0 ∧
      ScanLive b a L t2 nf.next (j + 1) ∧ j + 1 ≤ k := by
  obtain ⟨f0, hf0, est, _⟩ := hi.kept_block hnf
  have hjk' : j < k := by
    rcases Nat.lt_or_ge j k with h | h
    · exact h
    · have e : j = k := by omega
      subst e
      rw [← hi.inv.hc] at hkr
      simp [statusOf, hf0, ← est, hfin] at hkr
  obtain ⟨hkm, hkst⟩ := hi.ahead hjk hk
  have hne : (nextOf b)^[k] a ≠ c := by
    intro e
    rw [hi.inv.hc] at e
    have := ring_iter_inj hwfb ha hk hi.inv.hj e
    omega
  have h2 : 2 ≤ t.size := by
    rw [← @ringList_length t]
    exact two_le_of_mem hkm hi.inv.mem hne
  obtain ⟨t1, prev, pf, hrel, hfib, hs1, hpf, hpc, hpop, hwf2, hrl2, hnxm, hnx0, hown2⟩ :=
    reap_own hi.inv.wf hi.inv.mem hnf hfin hi.own hL h2 (by have := hi.size; omega)
  have hkst2 : statusOf (unlinked t1 c prev pf nf.next) ((nextOf b)^[k] a)
      = some STATE_READY := by
    rw [unlinked_status hpf hne]
    have : statusOf t1 ((nextOf b)^[k] a) = statusOf t ((nextOf b)^[k] a) := by
      simp [statusOf, fiber_of_fibers_eq hfib]
    rw [this, hkst, hkr]
  have hrest2 : ∀ i, j + 1 ≤ i → i < b.size →
      (nextOf b)^[i] a ∈ ringList (unlinked t1 c prev pf nf.next) := by
    intro i hji hib
    rw [hrl2]
    refine (List.mem_erase_of_ne ?_).mpr (hi.rest i (by omega) hib)
    intro e
    rw [hi.inv.hc] at e
    have := ring_iter_inj hwfb ha hib hi.inv.hj e
    omega
  refine ⟨t1, _, hrel, hpop, hnx0, ⟨?_, hown2, hrest2, ?_⟩, hjk'⟩
  · rcases ScanInv.reap hwfb ha hq hi.inv hnf hfin hrel hpop hnx0 with h | h
    · exact h
    · exact (h.no_ready (hrest2 k hjk' hk) hkst2).elim
  · show t1.size - 1 ≤ b.size
    have := hi.size
    omega

/-- The scan at a blocked fiber, with a ready fiber still ahead: the block of its target is
live, and when the target has not finished the scan goes on at the successor. -/
theorem ScanLive.blocked_step {b t : State} {a L c j k : Nat} {nf : Fiber}
    (hwfb : WellFormed b) (ha : a ∈ ringList b) (hjo : JoinOrderFrom b a) (hk : k < b.size)
    (hkr : statusOf b ((nextOf b)^[k] a) = some STATE_READY)
    (hi : ScanLive b a L t c j) (hjk : j ≤ k)
    (hnf : t.fiber c = some nf) (hb : nf.status = STATE_BLOCKED) :
    ∃ jf, t.fiber nf.joinFiber = some jf ∧
      (jf.status ≠ STATE_FINISHED → ScanLive b a L t nf.next (j + 1) ∧ j + 1 ≤ k) := by
  obtain ⟨f0, hf0, est, ejf⟩ := hi.kept_block hnf
  have hjk' : j < k := by
    rcases Nat.lt_or_ge j k with h | h
    · exact h
    · have e : j = k := by omega
      subst e
      rw [← hi.inv.hc] at hkr
      simp [statusOf, hf0, ← est, hb] at hkr
  obtain ⟨j', hj', etgt, hord⟩ := hjo j hi.inv.hj f0 (hi.inv.hc ▸ hf0) (est ▸ hb)
  obtain ⟨fF, hfF⟩ := ring_live hwfb (ring_iter_mem hwfb ha j')
  have hlive : ∃ jf, t.fiber nf.joinFiber = some jf ∧ jf.status = fF.status := by
    by_cases hfin : fF.status = STATE_FINISHED
    · have hlt : j < j' := hord (by rw [etgt]; simp [statusOf, hfF, hfin])
      obtain ⟨g, hg⟩ := ring_live hi.inv.wf (hi.rest j' (by omega) hj')
      obtain ⟨f, hf, e, _⟩ := hi.kept_block hg
      rw [hfF] at hf
      cases hf
      exact ⟨g, by rw [ejf, etgt]; exact hg, e⟩
    · obtain ⟨g, hg⟩ := hi.inv.sc.kept _ fF hfF hfin
      obtain ⟨f, hf, e, _⟩ := hi.kept_block hg
      rw [hfF] at hf
      cases hf
      exact ⟨g, by rw [ejf, etgt]; exact hg, e⟩
  obtain ⟨jf, hjf, _⟩ := hlive
  refine ⟨jf, hjf, fun hne => ⟨⟨?_, hi.own, fun i hji hib => hi.rest i (by omega) hib, hi.size⟩,
    hjk'⟩⟩
  rcases ScanInv.skip hwfb ha hi.inv hnf hb hjf hne with h | h
  · exact h
  · obtain ⟨hkm, hkst⟩ := hi.ahead hjk hk
    exact (h.no_ready hkm (hkst.trans hkr)).elim

/-- Waking the blocked fiber under the cursor and committing it. -/
theorem schedLoopVisits_wake_commits {fuel n : Nat} {s : State} {c : Nat} {nf : Fiber}
    {v : List Nat} (hnf : s.fiber c = some nf) :
    schedLoopVisits fuel (n + 1) (s.setFiber c { nf with status := STATE_READY }) c v =
      Res.ok (commit (s.setFiber c { nf with status := STATE_READY }) c, v) :=
  schedLoopVisits_commit (fiber_setFiber_self _ (fiber_ne_zero hnf)) rfl

/-- The blocks numbered `j + 1` to `k` of a sequence: the first one, then the others. -/
theorem visits_cons (q : Nat → Nat) {j k : Nat} (h : j + 1 ≤ k) :
    (List.range' (j + 1) (k - j)).map q =
      q (j + 1) :: (List.range' (j + 1 + 1) (k - (j + 1))).map q := by
  obtain ⟨d, rfl⟩ : ∃ d, k = j + 1 + d := ⟨k - (j + 1), by omega⟩
  have e1 : j + 1 + d - j = d + 1 := by omega
  have e2 : j + 1 + d - (j + 1) = d := by omega
  rw [e1, e2, List.range'_succ]
  rfl

/-- A scan whose `j`-th fiber is at most `m - 1` fibers before a ready fiber commits within
`m + 1` evaluations of the loop condition, and the blocks it visits on the way are the
successors of its `j`-th fiber up to the fiber it commits, in ring order. -/
theorem schedLoopVisits_finds {b : State} {a L k fuel : Nat}
    (hwfb : WellFormed b) (ha : a ∈ ringList b) (hq : QuietLists b)
    (hjo : JoinOrderFrom b a) (hk : k < b.size)
    (hkr : statusOf b ((nextOf b)^[k] a) = some STATE_READY) (hfu : b.size ≤ fuel)
    (hL : L < fuel) :
    ∀ (m : Nat) (t : State) (c j : Nat) (v : List Nat), ScanLive b a L t c j → j ≤ k →
      k - j < m →
      ∃ s' k', j ≤ k' ∧ k' ≤ k ∧ s'.running = (nextOf b)^[k'] a ∧
        ∀ n, m + 1 ≤ n → schedLoopVisits fuel n t c v =
          Res.ok (s', v ++ (List.range' (j + 1) (k' - j)).map (fun i => (nextOf b)^[i] a)) := by
  intro m
  induction m with
  | zero => intro t c j v _ _ h; omega
  | succ m ih =>
    intro t c j v hi hjk hm
    obtain ⟨nf, hnf⟩ := ring_live hi.inv.wf hi.inv.mem
    cases hst : nf.status with
    | STATE_READY =>
      refine ⟨commit t c, j, le_refl _, hjk, hi.inv.hc, fun n hn => ?_⟩
      obtain ⟨n, rfl⟩ : ∃ n', n = n' + 1 := ⟨n - 1, by omega⟩
      rw [schedLoopVisits_commit hnf hst]
      simp
    | STATE_BLOCKED =>
      obtain ⟨jf, hjf, hstep⟩ := hi.blocked_step hwfb ha hjo hk hkr hjk hnf hst
      by_cases hfin : jf.status = STATE_FINISHED
      · refine ⟨commit (t.setFiber c { nf with status := STATE_READY }) c, j, le_refl _, hjk,
          hi.inv.hc, fun n hn => ?_⟩
        obtain ⟨n, rfl⟩ : ∃ n', n = n' + 2 := ⟨n - 2, by omega⟩
        rw [schedLoopVisits_wake hnf hst hjf hfin, schedLoopVisits_wake_commits hnf]
        simp
      · obtain ⟨hi2, hjk2⟩ := hstep hfin
        obtain ⟨s', k', hk1, hk2, hrun, hs'⟩ :=
          ih t nf.next (j + 1) (v ++ [nf.next]) hi2 hjk2 (by omega)
        refine ⟨s', k', by omega, hk2, hrun, fun n hn => ?_⟩
        obtain ⟨n, rfl⟩ : ∃ n', n = n' + 1 := ⟨n - 1, by omega⟩
        rw [schedLoopVisits_skip hnf hst hjf hfin, hs' n (by omega), visits_cons _ hk1,
          ← hi2.inv.hc]
        simp
    | STATE_FINISHED =>
      obtain ⟨t1, t2, hrel, hpop, hnx0, hi2, hjk2⟩ :=
        hi.reap_step hwfb ha hq hk hkr hfu hL hjk hnf hst
      obtain ⟨nf3, hnf3⟩ := ring_live hi2.inv.wf hi2.inv.mem
      by_cases hb3 : nf3.status = STATE_BLOCKED
      · obtain ⟨jf, hjf, hstep⟩ := hi2.blocked_step hwfb ha hjo hk hkr hjk2 hnf3 hb3
        by_cases hfin : jf.status = STATE_FINISHED
        · refine ⟨commit (t2.setFiber nf.next { nf3 with status := STATE_READY }) nf.next,
            j + 1, by omega, hjk2, hi2.inv.hc, fun n hn => ?_⟩
          obtain ⟨n, rfl⟩ : ∃ n', n = n' + 2 := ⟨n - 2, by omega⟩
          rw [schedLoopVisits_reap_wake hnf hst hrel hpop hnx0 hnf3 hb3 hjf hfin,
            schedLoopVisits_wake_commits hnf3, visits_cons _ (le_refl (j + 1)), ← hi2.inv.hc]
          simp
        · obtain ⟨hi3, hjk3⟩ := hstep hfin
          obtain ⟨s', k', hk1, hk2, hrun, hs'⟩ :=
            ih t2 nf3.next (j + 1 + 1) (v ++ [nf.next] ++ [nf3.next]) hi3 hjk3 (by omega)
          refine ⟨s', k', by omega, hk2, hrun, fun n hn => ?_⟩
          obtain ⟨n, rfl⟩ : ∃ n', n = n' + 1 := ⟨n - 1, by omega⟩
          rw [schedLoopVisits_reap_skip hnf hst hrel hpop hnx0 hnf3 hb3 hjf hfin,
            hs' n (by omega), visits_cons _ (show j + 1 ≤ k' by omega),
            visits_cons _ hk1, ← hi2.inv.hc, ← hi3.inv.hc]
          simp
      · obtain ⟨s', k', hk1, hk2, hrun, hs'⟩ :=
          ih t2 nf.next (j + 1) (v ++ [nf.next]) hi2 hjk2 (by omega)
        refine ⟨s', k', by omega, hk2, hrun, fun n hn => ?_⟩
        obtain ⟨n, rfl⟩ : ∃ n', n = n' + 1 := ⟨n - 1, by omega⟩
        rw [schedLoopVisits_reap_next hnf hst hrel hpop hnx0 hnf3 hb3, hs' n (by omega),
          visits_cons _ hk1, ← hi2.inv.hc]
        simp

/-- The scan starts with every fiber of the ring ahead of it. -/
theorem ScanLive.at_start {b : State} {a L : Nat} (hwfb : WellFormed b) (ha : a ∈ ringList b)
    (hown : OwnFinished b L) : ScanLive b a L b a 0 :=
  ⟨ScanInv.start hwfb ha, hown, fun i _ _ => ring_iter_mem hwfb ha i, le_refl _⟩

/-- Entered on a well-formed ring that holds the running fiber and a ready fiber, with
proper wait lists of finished fibers and join targets in the order of the scan, the
scheduler commits; its loop evaluates its condition at most `size + 1` times, and the
blocks it visits are the first `k + 1` successors of the running fiber, the last of which
it commits. -/
theorem scheduler_finds {fuel L : Nat} {s : State} (hwf : WellFormed s)
    (hrun : s.running ∈ ringList s)
    (hready : ∃ p ∈ ringList s, statusOf s p = some STATE_READY)
    (hown : OwnFinished s L) (hjo : JoinOrder s) (hfu : s.size + 1 ≤ fuel) (hL : L < fuel) :
    ∃ s' k, k < s.size ∧ s'.running = (nextOf s)^[k + 1] s.running ∧
      schedulerVisits fuel s =
        Res.ok (s', (List.range (k + 1)).map (fun i => (nextOf s)^[i + 1] s.running)) ∧
      scheduler fuel s = Res.ok s' ∧
      ∀ n, s.size + 1 ≤ n →
        schedLoop fuel n (stop_timer s) (nextOf s s.running) = Res.ok s' := by
  obtain ⟨hwf0, hrl0⟩ := ring_congr (stop_timer s) hwf (fun _ _ => rfl) rfl rfl rfl
  obtain ⟨r, hr⟩ := ring_live hwf hrun
  have hnx : nextOf (stop_timer s) = nextOf s := rfl
  have ha : nextOf s s.running ∈ ringList (stop_timer s) := by
    rw [hrl0]
    exact next_mem_ring hwf hrun
  have hown0 : OwnFinished (stop_timer s) L := by
    intro p hp f hf hfin
    rw [hrl0] at hp
    obtain ⟨l, hch, hlen, hid⟩ := hown p hp f hf hfin
    exact ⟨l, @chain_frame s (stop_timer s) l _ (fun _ _ => rfl) hch, hlen, hid⟩
  have hjo0 : JoinOrderFrom (stop_timer s) (nextOf s s.running) := hjo
  obtain ⟨p, hp, hpr⟩ := hready
  obtain ⟨k, hk, hkp⟩ := ring_iter_surj hwf (next_mem_ring hwf hrun) hp
  have hkr : statusOf (stop_timer s) ((nextOf (stop_timer s))^[k] (nextOf s s.running))
      = some STATE_READY := by
    rw [hnx, hkp]
    exact hpr
  obtain ⟨s', k', _, hk', hrun', hs'⟩ := schedLoopVisits_finds hwf0 ha hown0.quiet hjo0 hk hkr
    (show s.size ≤ fuel by omega) hL (k + 1) (stop_timer s) (nextOf s s.running) 0
    [nextOf s s.running] (ScanLive.at_start hwf0 ha hown0) (Nat.zero_le _) (by omega)
  have hlist : [nextOf s s.running] ++
      (List.range' (0 + 1) (k' - 0)).map (fun i => (nextOf (stop_timer s))^[i] (nextOf s s.running))
      = (List.range (k' + 1)).map (fun i => (nextOf s)^[i + 1] s.running) := by
    rw [List.range_eq_range', List.range'_succ, hnx]
    simp only [List.map_cons, Function.iterate_succ_apply, Function.iterate_zero, id_eq,
      List.singleton_append, Nat.sub_zero, Nat.zero_add]
  rw [hlist] at hs'
  have hvis : schedulerVisits fuel s =
      Res.ok (s', (List.range (k' + 1)).map (fun i => (nextOf s)^[i + 1] s.running)) := by
    unfold schedulerVisits
    have hrun0 : (stop_timer s).fiber (stop_timer s).running = some r := hr
    simp only [hrun0]
    rw [← nextOf_eq hr]
    exact hs' fuel (by omega)
  refine ⟨s', k', by omega, ?_, hvis, ?_, fun n hn => schedLoop_of_visits (hs' n (by omega))⟩
  · rw [Function.iterate_succ_apply]
    exact hrun'
  · rw [← schedulerVisits_erase, hvis]
    rfl

/-! ## The predecessor walk for a member of the ring -/

/-- The predecessor walk of `pop` started at `a` stops at the first block met from `a`
whose `next` is the fiber, after one more test than the blocks it went past. -/
theorem popWalk_iter {s : State} {f : Nat} :
    ∀ (d a fuel : Nat), (∀ e, e ≤ d → ∃ g, s.fiber ((nextOf s)^[e] a) = some g) →
      (∀ e, e < d → (nextOf s)^[e + 1] a ≠ f) → (nextOf s)^[d + 1] a = f → d < fuel →
      popWalk fuel s f a = Res.ok ((nextOf s)^[d] a) := by
  intro d
  induction d with
  | zero =>
    intro a fuel hlive _ hf hfuel
    obtain ⟨k, rfl⟩ : ∃ k, fuel = k + 1 := ⟨fuel - 1, by omega⟩
    obtain ⟨g, hg⟩ := hlive 0 (le_refl _)
    have hg' : s.fiber a = some g := hg
    have hn : g.next = f := by
      rw [← nextOf_eq hg']
      exact hf
    simp [popWalk, hg', hn]
  | succ d ih =>
    intro a fuel hlive hne hf hfuel
    obtain ⟨k, rfl⟩ : ∃ k, fuel = k + 1 := ⟨fuel - 1, by omega⟩
    obtain ⟨g, hg⟩ := hlive 0 (Nat.zero_le _)
    have hg' : s.fiber a = some g := hg
    have hn : f ≠ g.next := by
      have := hne 0 (Nat.succ_pos _)
      rw [← nextOf_eq hg']
      exact fun e => this e.symm
    rw [popWalk]
    simp only [hg', hn, ne_eq, not_false_eq_true, if_true]
    rw [← nextOf_eq hg']
    have := ih (nextOf s a) k
      (fun e he => by
        rw [← Function.iterate_succ_apply]
        exact hlive (e + 1) (by omega))
      (fun e he => by
        rw [← Function.iterate_succ_apply]
        exact hne (e + 1) (by omega))
      (by rw [← Function.iterate_succ_apply]; exact hf) (by omega)
    rw [this, ← Function.iterate_succ_apply]

/-- The predecessor walk of `pop` for a member of a well-formed ring stops, within `size`
tests, at the member of the ring whose `next` is that block. -/
theorem popWalk_member {s : State} {f : Nat} (hwf : WellFormed s) (hf : f ∈ ringList s) :
    ∃ prev, prev ∈ ringList s ∧ nextOf s prev = f ∧
      ∀ fuel, s.size ≤ fuel → popWalk fuel s f s.head = Res.ok prev := by
  obtain ⟨i, hi, hif⟩ := hwf.nth_of_mem hf
  have hpos := hwf.pos
  have hlive : ∀ e, ∃ g, s.fiber ((nextOf s)^[e] s.head) = some g :=
    fun e => ring_live hwf (hwf.nth_mem e)
  rcases Nat.eq_zero_or_pos i with h0 | h0
  · subst h0
    have hfh : s.head = f := hif
    refine ⟨(nextOf s)^[s.size - 1] s.head, hwf.nth_mem _, ?_, fun fuel hfu => ?_⟩
    · rw [← Function.iterate_succ_apply' (nextOf s) (s.size - 1) s.head]
      have : (s.size - 1).succ = s.size := by omega
      rw [this, hwf.cycle, hfh]
    · refine popWalk_iter (s.size - 1) s.head fuel (fun e _ => hlive e) ?_ ?_ (by omega)
      · intro e he heq
        have := @WellFormed.nth_inj s hwf (e + 1) 0 (by omega) hpos (heq.trans hfh.symm)
        omega
      · have : s.size - 1 + 1 = s.size := by omega
        rw [this, hwf.cycle, hfh]
  · refine ⟨(nextOf s)^[i - 1] s.head, hwf.nth_mem _, ?_, fun fuel hfu => ?_⟩
    · rw [← Function.iterate_succ_apply' (nextOf s) (i - 1) s.head]
      have : (i - 1).succ = i := by omega
      rw [this, hif]
    · refine popWalk_iter (i - 1) s.head fuel (fun e _ => hlive e) ?_ ?_ (by omega)
      · intro e he heq
        have := @WellFormed.nth_inj s hwf (e + 1) i (by omega) hi (heq.trans hif.symm)
        omega
      · have : i - 1 + 1 = i := by omega
        rw [this, hif]

theorem fiberThreeAlone_ownLists : OwnLists fiberThreeAlone 1 := by
  intro p hp f hf
  have hr : ringList fiberThreeAlone = [1, 2, 3] := by decide
  rw [hr] at hp
  have h300 : fiberThreeAlone.wait 300 = some { id := 3, next := 0 } := by decide
  simp only [List.mem_cons, List.mem_singleton, List.not_mem_nil, or_false] at hp
  rcases hp with rfl | rfl | rfl
  · have h : (fiberThreeAlone.fiber 1).map (fun g => g.waitList) = some 0 := by decide
    rw [hf] at h
    simp only [Option.map_some', Option.some.injEq] at h
    exact ⟨[], h, by simp, by simp⟩
  · have h : (fiberThreeAlone.fiber 2).map (fun g => g.waitList) = some 0 := by decide
    rw [hf] at h
    simp only [Option.map_some', Option.some.injEq] at h
    exact ⟨[], h, by simp, by simp⟩
  · have h : (fiberThreeAlone.fiber 3).map (fun g => g.waitList) = some 300 := by decide
    rw [hf] at h
    simp only [Option.map_some', Option.some.injEq] at h
    refine ⟨[300], ⟨h, by simp, _, h300, rfl⟩, by simp, ?_⟩
    intro w hw nd hnd
    simp only [List.mem_singleton] at hw
    subst hw
    rw [h300] at hnd
    cases hnd
    rfl

theorem fiberThreeAlone_joinOrder : JoinOrder fiberThreeAlone := by
  intro i hi f hf hb
  have hsz : fiberThreeAlone.size = 3 := by decide
  rw [hsz] at hi
  have h0 : (nextOf fiberThreeAlone)^[0] (nextOf fiberThreeAlone fiberThreeAlone.running) = 1 := by
    decide
  have h1 : (nextOf fiberThreeAlone)^[1] (nextOf fiberThreeAlone fiberThreeAlone.running) = 2 := by
    decide
  have h2 : (nextOf fiberThreeAlone)^[2] (nextOf fiberThreeAlone fiberThreeAlone.running) = 3 := by
    decide
  interval_cases i
  · rw [h0] at hf
    have h : (fiberThreeAlone.fiber 1).map (fun g => g.joinFiber) = some 3 := by decide
    rw [hf] at h
    simp only [Option.map_some', Option.some.injEq] at h
    refine ⟨2, by rw [hsz]; decide, by rw [h, h2], ?_⟩
    intro hfin
    rw [h] at hfin
    have h3 : statusOf fiberThreeAlone 3 = some STATE_READY := by decide
    rw [h3] at hfin
    cases hfin
  · rw [h1] at hf
    have h : (fiberThreeAlone.fiber 2).map (fun g => g.status) = some STATE_FINISHED := by
      decide
    rw [hf] at h
    simp only [Option.map_some', Option.some.injEq] at h
    rw [hb] at h
    cases h
  · rw [h2] at hf
    have h : (fiberThreeAlone.fiber 3).map (fun g => g.status) = some STATE_READY := by
      decide
    rw [hf] at h
    simp only [Option.map_some', Option.some.injEq] at h
    rw [hb] at h
    cases h

/-! ## Runs that reach a dangling wait list or join target -/

theorem junkAtThree_reachable : Reachable junkAtThree :=
  Reachable.step _ _
    (Reachable.step _ _
      (Reachable.step _ _
        (Reachable.step _ _
          (Reachable.step _ _
            (Reachable.step _ _
              (Reachable.step _ _
                (Reachable.step _ _
                  (Reachable.boot 1 { blankFiber 0 STATE_READY with waitList := 300 } 900 901
                    (fun _ => 7) (by decide))
                  (Step.create bootJunk junkOne 100 50 0 (sampleEnv 2) 0 (fun _ => rfl) rfl))
                (Step.create junkOne junkTwo 100 51 0 (sampleEnv 3) 0 (fun _ => rfl) rfl))
              (Step.create junkTwo junkThree 100 52 0 (sampleEnv 4) 0 (fun _ => rfl) rfl))
            (Step.preempt junkThree junkTwoRuns 5 rfl))
          (Step.join_switch junkTwoRuns junkTwoJoins junkThreeRuns 5 5 3 0 301 (fun _ => rfl)
            rfl rfl))
        (Step.preempt junkThreeRuns junkFourRuns 5 rfl))
      (Step.join_switch junkFourRuns junkFourJoins junkHostRuns 5 5 2 0 300 (fun _ => rfl)
        rfl rfl))
    (Step.exit junkHostRuns junkHostExits junkAtThree 5 5 rfl rfl)

theorem joinedAgain_reachable : Reachable joinedAgain :=
  Reachable.step _ _ hostReturned_reachable
    (Step.join_return hostReturned joinedAgain 4 3 0 0 0 (fun h => absurd rfl h) rfl)

theorem rejoinTwoRuns_reachable : Reachable rejoinTwoRuns :=
  Reachable.step _ _ joinedAgain_reachable (Step.preempt joinedAgain rejoinTwoRuns 4 rfl)

theorem rejoinTwoLast_reachable : Reachable rejoinTwoLast :=
  Reachable.step _ _ joinedAgain_reachable
    (Step.exit joinedAgain rejoinHostLeft rejoinTwoLast 4 7 rfl rfl)

theorem targetDestroyed_reachable : Reachable targetDestroyed :=
  Reachable.step _ _ fiberThreeNext_reachable
    (Step.destroy fiberThreeNext targetDestroyed 4 2 0 rfl)

/-! ## Claims -/

/-- C1, evaluated on a run of the library. The host thread (block 1) creates fiber 2, the
scheduler switches to it, fiber 2 calls `fiber_exit(42)`, the scheduler switches back to the
host thread, which then calls `fiber_join(2, &out)` with `out` at address 101 holding 7.
The target is in the ring, is not the caller and is finished with `retval` 42; the call
returns 0 and the cell at 101 still holds 7, not 42: the fast path never writes the
out-parameter. -/
theorem fiber_join_fast_path_skips_out :
    fiber_create bootState 100 50 0 (sampleEnv 2) = Res.ok (0, createdOne) ∧
    scheduler 4 createdOne = Res.ok fiberTwoRuns ∧ fiberTwoRuns.running = 2 ∧
    fiber_exit fiberTwoRuns 42 = Res.ok fiberTwoExited ∧
    scheduler 4 fiberTwoExited = Res.ok hostResumed ∧ hostResumed.running = 1 ∧
    2 ∈ ringList hostResumed ∧
    (hostResumed.fiber 2).map (fun f => (f.status, f.retval)) = some (STATE_FINISHED, 42) ∧
    hostResumed.cells 101 = 7 ∧
    ∃ s', fiber_join 4 hostResumed 2 101 0 = Res.ok (JoinResult.returned 0 s') ∧
      s'.cells 101 = 7 ∧ s'.cells 101 ≠ 42 :=
  ⟨rfl, rfl, rfl, rfl, rfl, rfl, by decide, by decide, rfl, _, rfl, rfl, by decide⟩

/-- C2. On a well-formed ring `fiber_join` returns -1 and leaves the whole state as it was
when the id is not a block of the ring or is the running fiber; and the search loop returns
with `i ≤ size` (found) exactly when the id is one of the blocks of the ring, in which case
the node it stops at is the id. -/
theorem fiber_join_rejects (fuel : Nat) (s : State) (hwf : WellFormed s)
    (id retval waitingNode : Nat) :
    ((id ∉ ringList s ∨ id = s.running) →
      fiber_join fuel s id retval waitingNode = Res.ok (JoinResult.returned (-1) s)) ∧
    ∃ i node, locate s id = Res.ok (i, node) ∧ (i ≤ s.size ↔ id ∈ ringList s) ∧
      (i ≤ s.size → node = id) := by
  refine ⟨fiber_join_reject fuel s hwf id retval waitingNode, ?_⟩
  by_cases hm : id ∈ ringList s
  · obtain ⟨j, hj, hloc⟩ := locate_mem hwf hm
    exact ⟨j, id, hloc, ⟨fun _ => hm, fun _ => by omega⟩, fun _ => rfl⟩
  · refine ⟨s.size + 1, s.head, locate_notin hwf hm, ⟨fun h => ?_, fun h => absurd h hm⟩,
      fun h => ?_⟩ <;> omega

theorem fiber_join_rejects_witness :
    WellFormed hostResumed ∧ 77 ∉ ringList hostResumed ∧
    fiber_join 4 hostResumed 77 101 0 = Res.ok (JoinResult.returned (-1) hostResumed) ∧
    fiber_join 4 hostResumed 1 101 0 = Res.ok (JoinResult.returned (-1) hostResumed) ∧
    ∃ i node, locate hostResumed 2 = Res.ok (i, node) ∧
      (i ≤ hostResumed.size ↔ 2 ∈ ringList hostResumed) ∧ (i ≤ hostResumed.size → node = 2) :=
  ⟨hostResumed_wf, by decide,
    (fiber_join_rejects 4 hostResumed hostResumed_wf 77 101 0).1 (Or.inl (by decide)),
    (fiber_join_rejects 4 hostResumed hostResumed_wf 1 101 0).1 (Or.inr rfl),
    (fiber_join_rejects 4 hostResumed hostResumed_wf 2 101 0).2⟩

/-- C5. On a well-formed ring, `fiber_destroy` of an id that is not in the ring, or that is
in the ring with status `STATE_READY` or `STATE_BLOCKED`, returns -1 and leaves the whole
state (ring fields, every block, every link and status) exactly as it was. -/
theorem fiber_destroy_unfinished (fuel : Nat) (s : State) (hwf : WellFormed s) (id : Nat)
    (h : id ∉ ringList s ∨ statusOf s id = some STATE_READY ∨
      statusOf s id = some STATE_BLOCKED) :
    fiber_destroy fuel s id = Res.ok (-1, s) :=
  fiber_destroy_reject fuel s hwf id h

theorem fiber_destroy_unfinished_witness :
    WellFormed createdOne ∧ statusOf createdOne 2 = some STATE_READY ∧
    fiber_destroy 4 createdOne 2 = Res.ok (-1, createdOne) :=
  ⟨⟨by decide, by decide, by decide, by decide, by decide⟩, by decide,
    fiber_destroy_unfinished 4 createdOne ⟨by decide, by decide, by decide, by decide, by decide⟩
      2 (Or.inr (Or.inl (by decide)))⟩

/-- C7. `fiber_create` with a null out-pointer returns -1; the state it leaves has the same
`head`, `tail`, `running` and `size`, the same blocks and the same wait nodes as before (only
the timer was touched, by `stop_timer`). -/
theorem fiber_create_null_out (s : State) (start_routine arg : Nat) (env : CreateEnv) :
    fiber_create s 0 start_routine arg env = Res.ok (-1, stop_timer s) ∧
    (stop_timer s).head = s.head ∧ (stop_timer s).tail = s.tail ∧
    (stop_timer s).running = s.running ∧ (stop_timer s).size = s.size ∧
    (stop_timer s).fibers = s.fibers ∧ (stop_timer s).waits = s.waits ∧
    (stop_timer s).cells = s.cells := by
  refine ⟨?_, rfl, rfl, rfl, rfl, rfl, rfl, rfl⟩
  simp [fiber_create]

/-- C6. On a well-formed ring, with a non-null out-pointer, a block address that is not
null and not a live block, `getcontext` succeeding and a non-null stack, `fiber_create`
returns 0, stores the new id through the out-pointer, and appends the new block at the end
of the ring sequence: `tail` is the new block, its `next` is `head`, `size` grows by one,
`head` and `running` stay, the ring stays well formed, and the new block is `STATE_READY`
with null `retval`, `join_rval`, `joinFiber` and `waitList`. -/
theorem fiber_create_appends (s : State) (hwf : WellFormed s)
    (fiber start_routine arg : Nat) (env : CreateEnv) (hout : fiber ≠ 0)
    (hnode : env.new_node ≠ 0) (hfresh : s.fiber env.new_node = none)
    (hctx : env.getcontext_ok = true) (hstack : env.ss_sp ≠ 0) :
    ∃ s', fiber_create s fiber start_routine arg env = Res.ok (0, s') ∧
      s'.cells fiber = env.new_node ∧
      ringList s' = ringList s ++ [env.new_node] ∧ WellFormed s' ∧
      s'.tail = env.new_node ∧ nextOf s' env.new_node = s.head ∧
      s'.size = s.size + 1 ∧ s'.head = s.head ∧ s'.running = s.running ∧
      ∃ f, s'.fiber env.new_node = some f ∧ f.status = STATE_READY ∧ f.retval = 0 ∧
        f.join_rval = 0 ∧ f.joinFiber = 0 ∧ f.waitList = 0 := by
  obtain ⟨t, ht⟩ := ring_live hwf (tail_mem_ringList hwf)
  obtain ⟨s', hc, hcell, hhead, htail, hsize, hrun, _, hnew, hold, hframe, _, _⟩ :=
    fiber_create_eq s fiber start_routine arg env hout hnode hfresh ht hctx hstack
  obtain ⟨hwf', hrl⟩ := ring_append hwf hfresh hhead htail hsize hnew rfl ⟨_, hold, rfl⟩ hframe
  exact ⟨s', hc, hcell, hrl, hwf', htail, by rw [nextOf_eq hnew], hsize, hhead, hrun,
    _, hnew, rfl, rfl, rfl, rfl, rfl⟩

theorem fiber_create_appends_witness :
    WellFormed bootState ∧ (100 : Nat) ≠ 0 ∧ (sampleEnv 2).new_node ≠ 0 ∧
    bootState.fiber (sampleEnv 2).new_node = none ∧ (sampleEnv 2).getcontext_ok = true ∧
    (sampleEnv 2).ss_sp ≠ 0 ∧
    ∃ s', fiber_create bootState 100 50 0 (sampleEnv 2) = Res.ok (0, s') ∧
      s'.cells 100 = (sampleEnv 2).new_node ∧
      ringList s' = ringList bootState ++ [(sampleEnv 2).new_node] ∧ WellFormed s' ∧
      s'.tail = (sampleEnv 2).new_node ∧ nextOf s' (sampleEnv 2).new_node = bootState.head ∧
      s'.size = bootState.size + 1 ∧ s'.head = bootState.head ∧
      s'.running = bootState.running ∧
      ∃ f, s'.fiber (sampleEnv 2).new_node = some f ∧ f.status = STATE_READY ∧ f.retval = 0 ∧
        f.join_rval = 0 ∧ f.joinFiber = 0 ∧ f.waitList = 0 :=
  ⟨⟨by decide, by decide, by decide, by decide, by decide⟩, by decide, by decide, by decide,
    by decide, by decide,
    fiber_create_appends bootState ⟨by decide, by decide, by decide, by decide, by decide⟩
      100 50 0 (sampleEnv 2) (by decide) (by decide) (by decide) (by decide) (by decide)⟩

/-- On a well-formed ring, `fiber_destroy` returns 0 or -1, and it returns 0
exactly when the id is a block of the ring, its status is `STATE_FINISHED` and the ring has
at least two blocks; when it returns 0 the block is freed, it is no longer in the ring
sequence, which lost exactly that block, and the ring is still well formed. -/
theorem fiber_destroy_result (fuel : Nat) (s : State) (id : Nat) (hwf : WellFormed s)
    (hfuel : s.size ≤ fuel) :
    ∃ code s', fiber_destroy fuel s id = Res.ok (code, s') ∧ (code = 0 ∨ code = -1) ∧
      (code = 0 ↔ (id ∈ ringList s ∧ statusOf s id = some STATE_FINISHED ∧ 2 ≤ s.size)) ∧
      (code = 0 → id ∉ ringList s' ∧ s'.fiber id = none ∧
        ringList s' = (ringList s).erase id ∧ WellFormed s') := by
  by_cases hm : id ∈ ringList s
  · obtain ⟨ff, hf⟩ := ring_live hwf hm
    by_cases hfin : ff.status = STATE_FINISHED
    · obtain ⟨j, hj, hloc⟩ := locate_mem hwf hm
      have hj' : ¬ j > s.size := by omega
      have hst : statusOf s id = some STATE_FINISHED := by simp [statusOf, hf, hfin]
      by_cases h2 : 2 ≤ s.size
      · obtain ⟨prev, pf, _, _, _, _, hpop, hwf', hrl, hnx, _, _⟩ :=
          pop_ring fuel hwf hm hf hfin h2 hfuel
        have hnx0 : ff.next ≠ 0 := by
          obtain ⟨g, hg⟩ := ring_live hwf (List.mem_of_mem_erase hnx)
          exact fiber_ne_zero hg
        refine ⟨0, unlinked s id prev pf ff.next, ?_, Or.inl rfl, ?_, ?_⟩
        · simp [fiber_destroy, hloc, hj', hpop, hnx0]
        · simp [hm, hst, h2]
        · intro _
          refine ⟨?_, unlinked_fiber_self _ _ _ _ _, hrl, hwf'⟩
          rw [hrl]
          exact fun h => (hwf.nodup.mem_erase_iff.mp h).1 rfl
      · have h1 : s.size = 1 := by have := hwf.pos; omega
        have hfu : 1 ≤ fuel := by omega
        obtain ⟨s', hpop, _⟩ := pop_single fuel hwf hm hf hfin h1 hfu
        refine ⟨-1, s', ?_, Or.inr rfl, ?_, ?_⟩
        · simp [fiber_destroy, hloc, hj', hpop]
        · simp [h2]
        · intro h
          simp at h
    · have hst : statusOf s id = some STATE_READY ∨ statusOf s id = some STATE_BLOCKED := by
        simp only [statusOf, hf, Option.map_some', Option.some.injEq]
        cases hs : ff.status <;> simp_all
      have hd := fiber_destroy_reject fuel s hwf id (Or.inr hst)
      refine ⟨-1, s, hd, Or.inr rfl, ?_, ?_⟩
      · have : statusOf s id ≠ some STATE_FINISHED := by
          simp [statusOf, hf, hfin]
        simp [this]
      · intro h
        simp at h
  · have hd := fiber_destroy_reject fuel s hwf id (Or.inl hm)
    refine ⟨-1, s, hd, Or.inr rfl, ?_, ?_⟩
    · simp [hm]
    · intro h
      simp at h

/-- Take a scheduler invocation on a well-formed ring that holds the running fiber, and a
fiber `b` that is `STATE_BLOCKED` in a join whose target is live and not `STATE_FINISHED`
(no wait list of a finished ring member names `b`; `fiber_join` only ever stores the
target's own id in the nodes of the target's list). If the invocation commits, the fiber it
makes running is not `b`, and `b` is still `STATE_BLOCKED` on a target that is still not
finished. -/
theorem blocked_join_not_resumed (fuel : Nat) (s s' : State) (b : Nat) (hwf : WellFormed s)
    (hrun : s.running ∈ ringList s) (hb : WaitsOn s b)
    (h : scheduler fuel s = Res.ok s') :
    s'.running ≠ b ∧ statusOf s' b = some STATE_BLOCKED ∧ WaitsOn s' b := by
  unfold scheduler at h
  have hrun0 : (stop_timer s).fiber (stop_timer s).running = s.fiber s.running := rfl
  simp only [hrun0] at h
  obtain ⟨hwf0, hrl0⟩ := ring_congr (stop_timer s) hwf (fun _ _ => rfl) rfl rfl rfl
  obtain ⟨fb, _, hfb, hfbs, _, _⟩ := hb.block
  have hb0 : WaitsOn (stop_timer s) b :=
    hb.after_scan (scanned_of_eq rfl rfl rfl rfl) ⟨fb, hfb, hfbs⟩
  cases hr : s.fiber s.running with
  | none => simp [hr] at h
  | some r =>
    simp only [hr] at h
    have hnext : r.next ∈ ringList (stop_timer s) := by
      rw [← nextOf_eq hr]
      exact next_mem_ring hwf0 (by rw [hrl0]; exact hrun)
    obtain ⟨hw, hne⟩ := schedLoop_waitsOn fuel (stop_timer s) r.next s' ⟨hwf0, hnext, hb0⟩ h
    obtain ⟨fb', _, hfb', hfbs', _, _⟩ := hw.block
    exact ⟨hne, by simp [statusOf, hfb', hfbs'], hw⟩

/-- C8. In every state reached from a bootstrap state by `fiber_create`, `fiber_destroy`,
a returning `fiber_join` (at once, or resumed after blocking) and scheduler invocations
that commit a fiber (entered from the timer, from `fiber_join` or from `fiber_exit`), the
ring is well formed and `running` is a block of the ring whose status is `STATE_READY`. -/
theorem running_is_ready_member (s : State) (h : Reachable s) :
    WellFormed s ∧ s.running ∈ ringList s ∧ statusOf s s.running = some STATE_READY :=
  ⟨(reachable_runner h).wf, (reachable_runner h).mem, (reachable_runner h).ready⟩

theorem running_is_ready_member_witness :
    Reachable hostResumed ∧ WellFormed hostResumed ∧
    hostResumed.running ∈ ringList hostResumed ∧
    statusOf hostResumed hostResumed.running = some STATE_READY :=
  ⟨hostResumed_reachable, running_is_ready_member hostResumed hostResumed_reachable⟩

/-- Called by a running fiber that is a ready member of a well-formed ring,
`fiber_exit(v)` returns no fault, sets that fiber's `retval` to `v` and its status to
`STATE_FINISHED`, and changes no other block, no wait node and no ring field. After the
scheduler invocation that follows, and after any further moves of the library, the running
fiber is never that fiber again and its block is still `STATE_FINISHED` or is no longer
live. And a scan whose cursor reaches that fiber while it is a finished member of the ring
has unlinked and freed it when it commits. -/
theorem fiber_exit_is_final (s : State) (v : Nat) (hr : RunnerReady s) :
    ∃ r s1, s.fiber s.running = some r ∧ fiber_exit s v = Res.ok s1 ∧
      s1.fiber s.running = some { r with retval := v, status := STATE_FINISHED } ∧
      (∀ p, p ≠ s.running → s1.fibers p = s.fibers p) ∧
      s1.waits = s.waits ∧ s1.head = s.head ∧ s1.tail = s.tail ∧ s1.size = s.size ∧
      s1.running = s.running ∧
      (∀ fuel s2 s3, scheduler fuel s1 = Res.ok s2 → Steps s2 s3 →
        s3.running ≠ s.running ∧ Gone s3 s.running) ∧
      (∀ fuel n t t', WellFormed t → s.running ∈ ringList t →
        statusOf t s.running = some STATE_FINISHED →
        schedLoop fuel n t s.running = Res.ok t' →
        s.running ∉ ringList t' ∧ t'.fiber s.running = none) := by
  obtain ⟨r, hrf, _⟩ := hr.running_live
  have hr0 := fiber_ne_zero hrf
  have hexit := fiber_exit_eq v hrf
  have hfib : ((s.setFiber s.running { r with retval := v }).setFiber s.running
      { r with retval := v, status := STATE_FINISHED }).fiber s.running
      = some { r with retval := v, status := STATE_FINISHED } := fiber_setFiber_self _ hr0
  refine ⟨r, _, hrf, hexit, hfib, ?_, rfl, rfl, rfl, rfl, rfl, ?_, ?_⟩
  · intro p hp
    simp [State.setFiber, Function.update_noteq hp]
  · intro fuel s2 s3 hs hsteps
    have hl := fiber_exit_sameLinks hexit
    obtain ⟨hwf1, hrl1⟩ := hl.same_ring hr.wf
    have hm1 : s.running ∈ ringList ((s.setFiber s.running { r with retval := v }).setFiber
        s.running { r with retval := v, status := STATE_FINISHED }) := by
      rw [hrl1]
      exact hr.mem
    have hr2 := scheduler_runner hwf1 hm1 hs
    have hsc := scheduler_scanned hwf1 hm1 hs
    have hg1 : Gone ((s.setFiber s.running { r with retval := v }).setFiber s.running
        { r with retval := v, status := STATE_FINISHED }) s.running := by
      intro f hf
      rw [hfib] at hf
      cases hf
      rfl
    have hu1 : Used ((s.setFiber s.running { r with retval := v }).setFiber s.running
        { r with retval := v, status := STATE_FINISHED }) s.running := by
      simp [Used, State.setFiber]
    obtain ⟨hr3, _, hg3⟩ := steps_gone hsteps hr2 (hsc.used _ hu1) (hsc.gone hg1)
    exact ⟨gone_not_running hr3 hg3, hg3⟩
  · intro fuel n t t' hwf hm hst hloop
    exact schedLoop_removes n t s.running t' ⟨hwf, hm, Or.inl ⟨rfl, hst⟩⟩ hloop

/-- C9. Take a well-formed ring of `N = size` fibers that are all `STATE_READY`, with the
running fiber in the ring, and let the timer expire again and again with nothing else
happening (no fiber blocks or finishes). Then every scheduler invocation commits; the first
one selects the successor of the running fiber and each later one selects the successor, in
the ring, of the fiber selected before it; and in every window of `K` consecutive
invocations (starting at any invocation `a`, for every `K`, in particular `K ≥ N`) each
fiber of the ring is selected `⌊K/N⌋` or `⌈K/N⌉` times. -/
theorem round_robin_fair (fuel : Nat) (s : State) (hwf : WellFormed s)
    (hrun : s.running ∈ ringList s)
    (hready : ∀ p ∈ ringList s, statusOf s p = some STATE_READY) (hfuel : 1 ≤ fuel) :
    selected fuel s 0 = some (nextOf s s.running) ∧
    (∀ j, ∃ q, q ∈ ringList s ∧ selected fuel s j = some q ∧
      selected fuel s (j + 1) = some (nextOf s q)) ∧
    ∀ (a K p : Nat), p ∈ ringList s →
      Nat.count (fun i => selected fuel s (a + i) = some p) K = K / s.size ∨
      Nat.count (fun i => selected fuel s (a + i) = some p) K = (K + s.size - 1) / s.size := by
  obtain ⟨i0, _, hi0⟩ := hwf.nth_of_mem hrun
  have hsel := selected_ready hwf hready hfuel i0 hi0.symm
  refine ⟨?_, ?_, ?_⟩
  · rw [hsel 0, ← hi0, ← Function.iterate_succ_apply' (nextOf s)]
  · intro j
    refine ⟨_, hwf.nth_mem _, hsel j, ?_⟩
    rw [hsel (j + 1), ← Function.iterate_succ_apply' (nextOf s)]
    rfl
  · intro a K p hp
    obtain ⟨ip, hip, hpe⟩ := hwf.nth_of_mem hp
    have hN := hwf.pos
    let c := i0 + a + 1
    let v := ip + (s.size - c % s.size)
    have hiff : ∀ i, (selected fuel s (a + i) = some p) ↔ i ≡ v [MOD s.size] := by
      intro i
      rw [hsel (a + i), Option.some.injEq, ← hpe, ← hwf.periodic (i0 + (a + i + 1))]
      have hmod : (i0 + (a + i + 1)) % s.size < s.size := Nat.mod_lt _ hN
      have hcv : (c + v) % s.size = ip % s.size := by
        have hc := Nat.mod_lt c hN
        have e : c + v = ip + (c / s.size + 1) * s.size := by
          have := Nat.div_add_mod c s.size
          have h2 : (c / s.size + 1) * s.size = s.size * (c / s.size) + s.size := by ring
          simp only [v]
          omega
        rw [e, Nat.add_mul_mod_self_right]
      constructor
      · intro h
        have h1 := hwf.nth_inj hmod hip h
        have h2 : c + i ≡ c + v [MOD s.size] := by
          unfold Nat.ModEq
          rw [hcv, Nat.mod_eq_of_lt hip, ← h1]
          congr 1
          simp only [c]
          omega
        exact Nat.ModEq.add_left_cancel' c h2
      · intro h
        have h2 : (c + i) % s.size = (c + v) % s.size := Nat.ModEq.add_left c h
        rw [hcv, Nat.mod_eq_of_lt hip] at h2
        have h3 : (i0 + (a + i + 1)) % s.size = ip := by
          rw [← h2]
          congr 1
          simp only [c]
          omega
        rw [h3]
    rw [count_congr hiff K, Nat.count_modEq_card K hN v]
    by_cases hlt : v % s.size < K % s.size
    · right
      rw [if_pos hlt, ceil_div_of_mod_pos hN (by omega)]
    · left
      rw [if_neg hlt]
      rfl

theorem round_robin_fair_witness :
    WellFormed createdTwo ∧ createdTwo.running ∈ ringList createdTwo ∧
    (∀ p ∈ ringList createdTwo, statusOf createdTwo p = some STATE_READY) ∧
    selected 1 createdTwo 0 = some (nextOf createdTwo createdTwo.running) ∧
    (∀ j, ∃ q, q ∈ ringList createdTwo ∧ selected 1 createdTwo j = some q ∧
      selected 1 createdTwo (j + 1) = some (nextOf createdTwo q)) ∧
    ∀ (a K p : Nat), p ∈ ringList createdTwo →
      Nat.count (fun i => selected 1 createdTwo (a + i) = some p) K = K / createdTwo.size ∨
      Nat.count (fun i => selected 1 createdTwo (a + i) = some p) K =
        (K + createdTwo.size - 1) / createdTwo.size :=
  ⟨⟨by decide, by decide, by decide, by decide, by decide⟩, by decide, by decide,
    round_robin_fair 1 createdTwo ⟨by decide, by decide, by decide, by decide, by decide⟩
      (by decide) (by decide) (by decide)⟩

/-- Whenever an iteration of the scheduler's scan reaps a finished fiber and `pop`
leaves the ring empty (size 0), the scheduler ends the process with `exit(0)`. In
particular, entered on a well-formed ring that holds the running fiber and whose blocks are
all `STATE_FINISHED` (their wait lists being proper lists of at most `L` nodes that name
their owner), the scheduler, given fuel above the ring size and `L`, ends with `exit(0)`:
it commits no fiber. -/
theorem scheduler_empty_ring_exit (fuel L : Nat) (s : State) :
    (∀ n c nf s1 s2 nx, s.fiber c = some nf → nf.status = STATE_FINISHED →
      release_fibers fuel s nf.waitList = Res.ok s1 → pop fuel s1 c = Res.ok (nx, s2) →
      s2.size = 0 → schedLoop fuel (n + 1) s c = Res.exit 0) ∧
    (WellFormed s → s.running ∈ ringList s →
      (∀ p ∈ ringList s, statusOf s p = some STATE_FINISHED) → OwnLists s L →
      s.size ≤ fuel → L < fuel →
      scheduler fuel s = Res.exit 0 ∧ ∀ s', scheduler fuel s ≠ Res.ok s') := by
  refine ⟨fun n c nf s1 s2 nx hnf hfin hrel hpop hz =>
    schedLoop_reap_last hnf hfin hrel hpop hz, ?_⟩
  intro hwf hrun hall hown hfu hL
  have h := scheduler_all_finished hwf hrun hall hown hfu hL
  refine ⟨h, fun s' e => ?_⟩
  rw [h] at e
  cases e

/-- C12, evaluated on a run of the library. The host thread (block 1) joined fiber 3 on the
slow path and was resumed after fiber 3 called `fiber_exit(42)`; fiber 3 is finished, still
in the ring, and its wait list holds the node at 300. The host thread calls
`fiber_join(3, NULL)`: the fast path returns 0, leaves `head`, `tail`, `running`, `size` and
every block as they were, and frees the node at 300, but `waitList` of fiber 3 still points
to it. A second `fiber_join(3, NULL)` on the same, still present target does not return 0
with the same state: `release_fibers` reads the freed node (a fault), whatever the fuel. -/
theorem fiber_join_second_fast_path_faults :
    Reachable hostReturned ∧ hostReturned.running = 1 ∧ 3 ∈ ringList hostReturned ∧
    (hostReturned.fiber 3).map (fun f => (f.status, f.waitList)) = some (STATE_FINISHED, 300) ∧
    hostReturned.wait 300 = some { id := 3, next := 0 } ∧
    fiber_join 4 hostReturned 3 0 0 = Res.ok (JoinResult.returned 0 joinedAgain) ∧
    joinedAgain.head = hostReturned.head ∧ joinedAgain.tail = hostReturned.tail ∧
    joinedAgain.running = hostReturned.running ∧ joinedAgain.size = hostReturned.size ∧
    joinedAgain.fibers = hostReturned.fibers ∧
    3 ∈ ringList joinedAgain ∧ joinedAgain.waits 300 = Slot.freed ∧
    (joinedAgain.fiber 3).map (fun f => (f.status, f.waitList)) = some (STATE_FINISHED, 300) ∧
    ∀ fuel, fiber_join (fuel + 1) joinedAgain 3 0 0 = Res.fault :=
  ⟨hostReturned_reachable, rfl, by decide, by decide, by decide, rfl, rfl, rfl, rfl, rfl, rfl,
    by decide, by decide, by decide, fun _ => rfl⟩

/-- C13. When `fiber_create` returns, it returns 0 or -1. On the return of 0 the interval
timer is armed with value and interval equal to the slice (0 s, 20000 µs). On every return
of -1 (null out-pointer, failed `malloc` of the block, failed `getcontext`, failed `malloc`
of the stack) `start_timer` has not run: the timer is left as `stop_timer` installed it,
with `it_value` zero, that is, disarmed. -/
theorem fiber_create_timer (s : State) (fiber start_routine arg : Nat) (env : CreateEnv)
    (code : Int) (s' : State)
    (h : fiber_create s fiber start_routine arg env = Res.ok (code, s')) :
    (code = 0 ∨ code = -1) ∧
    (code = 0 → s'.vtimer = { value_sec := 0, value_usec := 20000, interval_sec := 0,
                               interval_usec := 20000 }) ∧
    (code = -1 → s'.vtimer = { value_sec := 0, value_usec := 0,
                                interval_sec := s.timer.interval_sec,
                                interval_usec := s.timer.interval_usec }) ∧
    (fiber = 0 ∨ env.new_node = 0 ∨ env.getcontext_ok = false ∨ env.ss_sp = 0 → code = -1) := by
  unfold fiber_create at h
  by_cases h1 : fiber = 0
  · simp only [h1, if_true, Res.ok.injEq, Prod.mk.injEq] at h
    obtain ⟨rfl, rfl⟩ := h
    simp [stop_timer]
  simp only [h1, if_false] at h
  by_cases h2 : env.new_node = 0
  · simp only [h2, if_true, Res.ok.injEq, Prod.mk.injEq] at h
    obtain ⟨rfl, rfl⟩ := h
    simp [stop_timer]
  simp only [h2, if_false] at h
  by_cases h3 : env.getcontext_ok = false
  · simp only [h3, if_true, Res.ok.injEq, Prod.mk.injEq] at h
    obtain ⟨rfl, rfl⟩ := h
    simp [stop_timer, State.setFiber]
  simp only [h3, if_false] at h
  by_cases h4 : env.ss_sp = 0
  · simp only [h4, if_true, Res.ok.injEq, Prod.mk.injEq] at h
    obtain ⟨rfl, rfl⟩ := h
    simp [stop_timer, State.setFiber]
  simp only [h4, if_false] at h
  cases hp : push (((stop_timer s).setFiber env.new_node env.junk).setFiber env.new_node
      (init_fiber_attr { env.junk with context :=
        { uc_link := env.scheduler_ctx_addr, ss_sp := env.ss_sp, ss_size := FIBER_STACK_SIZE,
          func := start_routine, arg := arg } })) env.new_node with
  | fault => simp [hp] at h
  | diverge => simp [hp] at h
  | exit e => simp [hp] at h
  | ok s3 =>
    simp only [hp, Res.ok.injEq, Prod.mk.injEq] at h
    obtain ⟨rfl, rfl⟩ := h
    simp [start_timer, TIME_SLICE_SEC, TIME_SLICE_USEC, h1, h2, h3, h4]

theorem fiber_create_timer_witness :
    createdOne.vtimer = { value_sec := 0, value_usec := 20000, interval_sec := 0,
                          interval_usec := 20000 } ∧
    fiber_create createdOne 0 50 0 (sampleEnv 3) = Res.ok (-1, stop_timer createdOne) ∧
    (stop_timer createdOne).vtimer = { value_sec := 0, value_usec := 0, interval_sec := 0,
                                       interval_usec := 20000 } :=
  ⟨rfl, rfl,
    (fiber_create_timer createdOne 0 50 0 (sampleEnv 3) (-1) (stop_timer createdOne) rfl).2.2.1
      rfl⟩

/-- C15. On a well-formed ring that holds the running fiber, for a target `id` that is in
the ring, is not the caller and is not `STATE_FINISHED`, with the fresh wait node at
`waitingNode`, `fiber_join` reaches its switch to the scheduler in a state where: the new
node is the first of the target's wait list and its `next` is the old first node, so the
nodes listed before follow it in their old order; the running fiber's `joinFiber` is the
target and its status is `STATE_BLOCKED`; no other block, no other wait node and no ring
field changed. The field `id` of the new node is the target `id`, not the running
(calling) fiber. -/
theorem fiber_join_enqueues_target (fuel : Nat) (s : State) (id retval waitingNode : Nat)
    (hwf : WellFormed s) (hm : id ∈ ringList s) (hne : id ≠ s.running)
    (hst : statusOf s id ≠ some STATE_FINISHED) (hrun : s.running ∈ ringList s)
    (hw : waitingNode ≠ 0) (hfresh : s.wait waitingNode = none) :
    ∃ ft r s1, s.fiber id = some ft ∧ s.fiber s.running = some r ∧
      fiber_join fuel s id retval waitingNode = Res.ok (JoinResult.suspended s1) ∧
      s1.wait waitingNode = some { id := id, next := ft.waitList } ∧
      (∀ nd, s1.wait waitingNode = some nd → nd.id ≠ s.running) ∧
      (∀ w, w ≠ waitingNode → s1.wait w = s.wait w) ∧
      (∀ l, Chain s ft.waitList l → Chain s1 waitingNode (waitingNode :: l)) ∧
      s1.fiber id = some { ft with waitList := waitingNode } ∧
      s1.fiber s.running = some { r with joinFiber := id, status := STATE_BLOCKED } ∧
      (∀ p, p ≠ id → p ≠ s.running → s1.fiber p = s.fiber p) ∧
      s1.head = s.head ∧ s1.tail = s.tail ∧ s1.size = s.size ∧ s1.running = s.running := by
  obtain ⟨ft, hft⟩ := ring_live hwf hm
  obtain ⟨r, hr⟩ := ring_live hwf hrun
  have hfin : ft.status ≠ STATE_FINISHED := by
    intro e
    exact hst (by simp [statusOf, hft, e])
  have heq := fiber_join_slow_eq fuel retval hwf hm hne hft hfin hr hw
  have hid0 := fiber_ne_zero hft
  have hr0 := fiber_ne_zero hr
  have hwait : ∀ w, ((join_enqueue s id id ft waitingNode).setFiber s.running
      { r with joinFiber := id, status := STATE_BLOCKED }).wait w
      = if w = waitingNode then some { id := id, next := ft.waitList } else s.wait w :=
    fun w => join_enqueue_wait s id id ft hw w
  have hlinks := (fiber_join_suspended heq)
  refine ⟨ft, r, _, hft, hr, heq, ?_, ?_, ?_, ?_, ?_, ?_, ?_, hlinks.head, hlinks.tail,
    hlinks.size, hlinks.running⟩
  · rw [hwait, if_pos rfl]
  · intro nd hnd
    rw [hwait, if_pos rfl] at hnd
    cases hnd
    exact hne
  · intro w hne'
    rw [hwait, if_neg hne']
  · intro l hl
    have hnotin : waitingNode ∉ l := by
      intro hin
      obtain ⟨nd, hnd⟩ := chain_live hl waitingNode hin
      rw [hfresh] at hnd
      cases hnd
    refine ⟨rfl, hnotin, _, by rw [hwait, if_pos rfl], ?_⟩
    refine chain_frame (fun w hwl => ?_) hl
    have hwne : w ≠ waitingNode := fun e => hnotin (e ▸ hwl)
    rw [hwait, if_neg hwne]
  · rw [fiber_setFiber_ne _ hne, join_enqueue_fiber, fiber_setFiber_self _ hid0]
  · rw [fiber_setFiber_self _ hr0]
  · intro p hp1 hp2
    rw [fiber_setFiber_ne _ hp2, join_enqueue_fiber, fiber_setFiber_ne _ hp1]

theorem fiber_join_enqueues_target_witness :
    WellFormed createdTwo ∧ 3 ∈ ringList createdTwo ∧ 3 ≠ createdTwo.running ∧
    statusOf createdTwo 3 ≠ some STATE_FINISHED ∧ createdTwo.running ∈ ringList createdTwo ∧
    createdTwo.wait 300 = none ∧ createdTwo.running = 1 ∧
    fiber_join 4 createdTwo 3 101 300 = Res.ok (JoinResult.suspended hostJoins) ∧
    hostJoins.wait 300 = some { id := 3, next := 0 } ∧
    ∃ ft r s1, createdTwo.fiber 3 = some ft ∧ createdTwo.fiber createdTwo.running = some r ∧
      fiber_join 4 createdTwo 3 101 300 = Res.ok (JoinResult.suspended s1) ∧
      s1.wait 300 = some { id := 3, next := ft.waitList } ∧
      (∀ nd, s1.wait 300 = some nd → nd.id ≠ createdTwo.running) ∧
      (∀ w, w ≠ 300 → s1.wait w = createdTwo.wait w) ∧
      (∀ l, Chain createdTwo ft.waitList l → Chain s1 300 (300 :: l)) ∧
      s1.fiber 3 = some { ft with waitList := 300 } ∧
      s1.fiber createdTwo.running = some { r with joinFiber := 3, status := STATE_BLOCKED } ∧
      (∀ p, p ≠ 3 → p ≠ createdTwo.running → s1.fiber p = createdTwo.fiber p) ∧
      s1.head = createdTwo.head ∧ s1.tail = createdTwo.tail ∧ s1.size = createdTwo.size ∧
      s1.running = createdTwo.running :=
  ⟨⟨by decide, by decide, by decide, by decide, by decide⟩, by decide, by decide, by decide,
    by decide, by decide, rfl, rfl, by decide,
    fiber_join_enqueues_target 4 createdTwo 3 101 300
      ⟨by decide, by decide, by decide, by decide, by decide⟩ (by decide) (by decide)
      (by decide) (by decide) (by decide) (by decide)⟩

/-- C16, evaluated on a run of the library. In `lateJoin` the host thread (block 1) has
called `fiber_join` on fiber 2 and is `STATE_BLOCKED` on it, and fiber 2 is finished with
`retval` 42; its wait list is the node the host thread's call put there, whose `id` is 2.
The scheduler's scan starts at fiber 2 and reaps it: `release_fibers` looks at the block
named by the node, fiber 2 itself, which is not blocked, and wakes no one; `pop` unlinks
and frees fiber 2. The host thread is still `STATE_BLOCKED` with `join_rval` 0, not
`STATE_READY` with `join_rval` 42, and the scan then reads the freed block through the host
thread's `joinFiber` (a fault). -/
theorem reap_leaves_joiner_blocked :
    (∃ fn, hostResumed.fiber 2 = some fn ∧
      join_block (join_enqueue hostResumed 2 2 fn 300) 2 = Res.ok lateJoin) ∧
    lateJoin.running = 1 ∧ ringList lateJoin = [1, 2] ∧
    (lateJoin.fiber 1).map (fun f => (f.status, f.joinFiber, f.join_rval))
      = some (STATE_BLOCKED, 2, 0) ∧
    (lateJoin.fiber 2).map (fun f => (f.status, f.retval, f.waitList))
      = some (STATE_FINISHED, 42, 300) ∧
    lateJoin.wait 300 = some { id := 2, next := 0 } ∧
    (∃ s1 s2, release_fibers 4 (stop_timer lateJoin) 300 = Res.ok s1 ∧
      pop 4 s1 2 = Res.ok (1, s2) ∧ s2.fiber 2 = none ∧
      (s2.fiber 1).map (fun f => (f.status, f.joinFiber, f.join_rval))
        = some (STATE_BLOCKED, 2, 0)) ∧
    ∀ fuel, scheduler (fuel + 2) lateJoin = Res.fault :=
  ⟨⟨_, rfl, rfl⟩, rfl, by decide, by decide, by decide, by decide,
    ⟨_, _, rfl, rfl, by decide, by decide⟩, fun _ => rfl⟩

/-- C17, evaluated on a run of the library. The host thread (block 1) creates fibers 2 and
3 and calls `fiber_join(2, &out)`; fiber 2 runs and calls `fiber_exit(42)`; the scheduler
switches to fiber 3 (the host thread, later in ring order, is still blocked); fiber 3 calls
`fiber_destroy(2)`, which returns 0. In the state reached the host thread is
`STATE_BLOCKED` and its join target, block 2, has been unlinked and freed: it is not a
member of the ring. The next scheduler invocation reads that freed block (a fault). -/
theorem fiber_destroy_strands_joiner :
    Reachable fiberThreeNext ∧ fiberThreeNext.running = 3 ∧
    ringList fiberThreeNext = [1, 2, 3] ∧
    (fiberThreeNext.fiber 1).map (fun f => (f.status, f.joinFiber)) = some (STATE_BLOCKED, 2) ∧
    statusOf fiberThreeNext 2 = some STATE_FINISHED ∧
    fiber_destroy 4 fiberThreeNext 2 = Res.ok (0, targetDestroyed) ∧
    Reachable targetDestroyed ∧ ringList targetDestroyed = [1, 3] ∧
    (targetDestroyed.fiber 1).map (fun f => (f.status, f.joinFiber))
      = some (STATE_BLOCKED, 2) ∧
    2 ∉ ringList targetDestroyed ∧ targetDestroyed.fiber 2 = none ∧
    ∀ fuel, scheduler (fuel + 1) targetDestroyed = Res.fault :=
  ⟨fiberThreeNext_reachable, rfl, by decide, by decide, by decide, rfl,
    Reachable.step _ _ fiberThreeNext_reachable
      (Step.destroy fiberThreeNext targetDestroyed 4 2 0 rfl),
    by decide, by decide, by decide, by decide, fun _ => rfl⟩

/-- C18. Let `f` be a live block. On a well-formed ring of size at least 2 of which `f` is a
member with status `STATE_FINISHED`, `pop(f)` (given fuel for its walk) returns the former
successor of `f`; the ring sequence afterwards is the old one without `f`, the other blocks
in their old order; `size` is one less; `head` is the former successor of `f` if `f` was
`head` and is unchanged otherwise; `tail` is the former predecessor of `f` if `f` was `tail`
and is unchanged otherwise; the block is freed and the ring is still well formed. If the
status of `f` is not `STATE_FINISHED`, `pop(f)` returns `NULL` and the state is unchanged. -/
theorem pop_unlinks_member (fuel : Nat) (s : State) (f : Nat) (ff : Fiber)
    (hf : s.fiber f = some ff) :
    (WellFormed s → 2 ≤ s.size → s.size ≤ fuel → f ∈ ringList s →
      ff.status = STATE_FINISHED →
      ∃ prev s', prev ∈ ringList s ∧ nextOf s prev = f ∧
        pop fuel s f = Res.ok (nextOf s f, s') ∧
        ringList s' = (ringList s).erase f ∧ f ∉ ringList s' ∧
        (∀ p ∈ ringList s, p ≠ f → p ∈ ringList s') ∧
        s'.size = s.size - 1 ∧
        s'.head = (if f = s.head then nextOf s f else s.head) ∧
        s'.tail = (if f = s.tail then prev else s.tail) ∧
        s'.running = s.running ∧ s'.fiber f = none ∧ WellFormed s') ∧
    (ff.status ≠ STATE_FINISHED → pop fuel s f = Res.ok (0, s)) := by
  constructor
  · intro hwf h2 hfuel hm hfin
    obtain ⟨prev, pf, hprev, _, hpf, hpn, hpop, hwf', hrl, _, _, _⟩ :=
      pop_ring fuel hwf hm hf hfin h2 hfuel
    refine ⟨prev, unlinked s f prev pf ff.next, hprev, by rw [nextOf_eq hpf, hpn],
      by rw [nextOf_eq hf]; exact hpop, hrl, ?_, ?_, rfl, by rw [nextOf_eq hf]; rfl, rfl, rfl,
      unlinked_fiber_self _ _ _ _ _, hwf'⟩
    · rw [hrl]
      exact fun h => (hwf.nodup.mem_erase_iff.mp h).1 rfl
    · intro p hp hne
      rw [hrl]
      exact (List.mem_erase_of_ne hne).mpr hp
  · intro hst
    have h0 := fiber_ne_zero hf
    unfold pop
    by_cases hz : s.size = 0
    · simp [h0, hz]
    · simp [h0, hz, hf, hst]

theorem pop_unlinks_member_witness :
    WellFormed hostResumed ∧ 2 ≤ hostResumed.size ∧ hostResumed.size ≤ 4 ∧
    2 ∈ ringList hostResumed ∧ ringList hostResumed = [1, 2] ∧
    (∃ prev s', prev ∈ ringList hostResumed ∧ nextOf hostResumed prev = 2 ∧
        pop 4 hostResumed 2 = Res.ok (nextOf hostResumed 2, s') ∧
        ringList s' = (ringList hostResumed).erase 2 ∧ 2 ∉ ringList s' ∧
        (∀ p ∈ ringList hostResumed, p ≠ 2 → p ∈ ringList s') ∧
        s'.size = hostResumed.size - 1 ∧
        s'.head = (if 2 = hostResumed.head then nextOf hostResumed 2 else hostResumed.head) ∧
        s'.tail = (if 2 = hostResumed.tail then prev else hostResumed.tail) ∧
        s'.running = hostResumed.running ∧ s'.fiber 2 = none ∧ WellFormed s') ∧
    pop 4 hostResumed 1 = Res.ok (0, hostResumed) :=
  ⟨hostResumed_wf, by decide, by decide, by decide, by decide,
    (pop_unlinks_member 4 hostResumed 2 _ rfl).1 hostResumed_wf (by decide) (by decide)
      (by decide) rfl,
    (pop_unlinks_member 4 hostResumed 1 _ rfl).2 (by decide)⟩

/-- C20. Ring well-formedness (following `next` from `head` visits `size` distinct live
blocks, ends at `tail`, and `tail->next` is `head`) is kept by `push` of a live block that
is not in the ring, which appends it, and by `pop` of a `STATE_FINISHED` member when `size`
is at least 2, which removes it; and the bootstrap state built by `init_fiber_list` is well
formed: its ring is the single block of the host thread, which is `head`, `tail` and
`running`, its own successor, with `size` 1. -/
theorem ring_wellformed_preserved :
    (∀ (s : State) (new : Nat) (f : Fiber), WellFormed s → s.fiber new = some f →
      new ∉ ringList s →
      ∃ s', push s new = Res.ok s' ∧ WellFormed s' ∧ ringList s' = ringList s ++ [new]) ∧
    (∀ (fuel : Nat) (s : State) (f : Nat), WellFormed s → f ∈ ringList s →
      statusOf s f = some STATE_FINISHED → 2 ≤ s.size → s.size ≤ fuel →
      ∃ nx s', pop fuel s f = Res.ok (nx, s') ∧ WellFormed s' ∧
        ringList s' = (ringList s).erase f) ∧
    (∀ (parentFiber : Nat) (junk : Fiber) (sched_sp scheduler_fn : Nat) (cells : Nat → Nat),
      parentFiber ≠ 0 →
      WellFormed (init_fiber_list parentFiber junk sched_sp scheduler_fn cells) ∧
      ringList (init_fiber_list parentFiber junk sched_sp scheduler_fn cells) = [parentFiber] ∧
      (init_fiber_list parentFiber junk sched_sp scheduler_fn cells).head = parentFiber ∧
      (init_fiber_list parentFiber junk sched_sp scheduler_fn cells).tail = parentFiber ∧
      (init_fiber_list parentFiber junk sched_sp scheduler_fn cells).running = parentFiber ∧
      (init_fiber_list parentFiber junk sched_sp scheduler_fn cells).size = 1 ∧
      nextOf (init_fiber_list parentFiber junk sched_sp scheduler_fn cells) parentFiber
        = parentFiber) := by
  refine ⟨?_, ?_, ?_⟩
  · intro s new f hwf hnew hnotin
    obtain ⟨s', hp, hwf', hrl, _⟩ := push_appends hwf hnew hnotin
    exact ⟨s', hp, hwf', hrl⟩
  · intro fuel s f hwf hm hst h2 hfuel
    obtain ⟨ff, hf⟩ := ring_live hwf hm
    have hfin : ff.status = STATE_FINISHED := by
      simpa [statusOf, hf] using hst
    obtain ⟨prev, pf, _, _, _, _, hpop, hwf', hrl, _⟩ := pop_ring fuel hwf hm hf hfin h2 hfuel
    exact ⟨_, _, hpop, hwf', hrl⟩
  · intro parentFiber junk sched_sp scheduler_fn cells hp
    have hwf := (init_runner parentFiber junk sched_sp scheduler_fn cells hp).wf
    have hnext : nextOf (init_fiber_list parentFiber junk sched_sp scheduler_fn cells)
        parentFiber = parentFiber := by
      simp [nextOf, State.fiber, init_fiber_list, hp]
    refine ⟨hwf, ?_, rfl, rfl, rfl, rfl, hnext⟩
    rfl

theorem ring_wellformed_preserved_witness :
    WellFormed beforePush ∧ 2 ∉ ringList beforePush ∧
    (∃ f, beforePush.fiber 2 = some f) ∧
    (∃ s', push beforePush 2 = Res.ok s' ∧ WellFormed s' ∧
      ringList s' = ringList beforePush ++ [2]) ∧
    (∃ nx s', pop 4 hostResumed 2 = Res.ok (nx, s') ∧ WellFormed s' ∧
      ringList s' = (ringList hostResumed).erase 2) ∧
    WellFormed bootState :=
  ⟨⟨by decide, by decide, by decide, by decide, by decide⟩, by decide, ⟨_, rfl⟩,
    ring_wellformed_preserved.1 beforePush 2 _
      ⟨by decide, by decide, by decide, by decide, by decide⟩ rfl (by decide),
    ring_wellformed_preserved.2.1 4 hostResumed 2 hostResumed_wf (by decide) (by decide)
      (by decide) (by decide),
    (ring_wellformed_preserved.2.2 1 (blankFiber 0 STATE_READY) 900 901 (fun _ => 7)
      (by decide)).1⟩

/-- C19 as stated fails. The host thread's block is block 1 of the bootstrap state. The
host thread creates fiber 2 and calls `fiber_exit(5)`; the scheduler switches to fiber 2; at
the next expiry of the timer the scheduler reaps block 1 and switches back to fiber 2. The
state reached has a non-empty ring, the single block 2, of which the host thread's block is
not a member. -/
theorem main_fiber_reaped :
    bootState = init_fiber_list 1 (blankFiber 0 STATE_READY) 900 901 (fun _ => 7) ∧
    ringList bootState = [1] ∧ Steps bootState hostReaped ∧ Reachable hostReaped ∧
    0 < hostReaped.size ∧ ringList hostReaped = [2] ∧ 1 ∉ ringList hostReaped :=
  ⟨rfl, by decide, bootState_steps_hostReaped,
    reachable_of_steps bootState_steps_hostReaped
      (Reachable.boot 1 (blankFiber 0 STATE_READY) 900 901 (fun _ => 7) (by decide)),
    by decide, by decide, by decide⟩

/-- C19, amended. In every state reached from a bootstrap state by moves of the library,
the ring is not empty and the block created at bootstrap for the host thread is a member of
the ring (and is not `STATE_FINISHED`), unless on the way to that state the host thread
itself called `fiber_exit` (a move `fiber_exit` made while the host thread's block was the
running one). -/
theorem main_fiber_stays (parentFiber : Nat) (junk : Fiber) (sched_sp scheduler_fn : Nat)
    (cells : Nat → Nat) (s : State) (hp : parentFiber ≠ 0)
    (h : Steps (init_fiber_list parentFiber junk sched_sp scheduler_fn cells) s) :
    (0 < s.size ∧ parentFiber ∈ ringList s ∧
      ∃ f, s.fiber parentFiber = some f ∧ f.status ≠ STATE_FINISHED) ∨
    ∃ t v s1 s2 fuel, Steps (init_fiber_list parentFiber junk sched_sp scheduler_fn cells) t ∧
      t.running = parentFiber ∧ fiber_exit t v = Res.ok s1 ∧
      scheduler fuel s1 = Res.ok s2 ∧ Steps s2 s := by
  have hr := init_runner parentFiber junk sched_sp scheduler_fn cells hp
  have ha : Alive (init_fiber_list parentFiber junk sched_sp scheduler_fn cells) parentFiber := by
    refine ⟨hr.mem, ?_⟩
    obtain ⟨r, hrf, hrs⟩ := hr.running_live
    exact ⟨r, hrf, by rw [hrs]; decide⟩
  obtain ⟨hrs, hcase⟩ := steps_alive h hr ha
  rcases hcase with hal | hex
  · exact Or.inl ⟨hrs.wf.pos, hal.1, hal.2⟩
  · exact Or.inr hex

theorem main_fiber_stays_witness :
    (1 : Nat) ≠ 0 ∧
    Steps (init_fiber_list 1 (blankFiber 0 STATE_READY) 900 901 (fun _ => 7)) hostResumed ∧
    1 ∈ ringList hostResumed ∧
    ((0 < hostResumed.size ∧ 1 ∈ ringList hostResumed ∧
      ∃ f, hostResumed.fiber 1 = some f ∧ f.status ≠ STATE_FINISHED) ∨
    ∃ t v s1 s2 fuel,
      Steps (init_fiber_list 1 (blankFiber 0 STATE_READY) 900 901 (fun _ => 7)) t ∧
      t.running = 1 ∧ fiber_exit t v = Res.ok s1 ∧
      scheduler fuel s1 = Res.ok s2 ∧ Steps s2 hostResumed) :=
  ⟨by decide, bootState_steps_hostResumed, by decide,
    main_fiber_stays 1 (blankFiber 0 STATE_READY) 900 901 (fun _ => 7) hostResumed (by decide)
      bootState_steps_hostResumed⟩

/-- Take a scheduler invocation on a well-formed ring that holds the running fiber,
in a state where no wait list of a finished fiber of the ring names a blocked fiber, and
suppose it commits. Then the new running fiber is the fiber `k + 1` steps of `next` after
the previous running fiber, for some `k < size`; in the state at entry it was
`STATE_READY`, or `STATE_BLOCKED` on a fiber that was `STATE_FINISHED`, and it is now
`STATE_READY`; and each of the `k` fibers met before it was not of that kind: it was
either `STATE_BLOCKED` on a live fiber that was not finished, and is still in the ring with
its block unchanged (when the successor it had was itself finished and has been freed,
`pop` has redirected its `next` link past it, and nothing else of the block), or it was
`STATE_FINISHED` and has been unlinked from the ring and freed. -/
theorem scheduler_selection (fuel : Nat) (s s' : State) (hwf : WellFormed s)
    (hrun : s.running ∈ ringList s) (hq : QuietLists s)
    (h : scheduler fuel s = Res.ok s') :
    ∃ k, k < s.size ∧ s'.running = (nextOf s)^[k + 1] s.running ∧
      Eligible s s'.running ∧ statusOf s' s'.running = some STATE_READY ∧
      ∀ i, i < k → ¬ Eligible s ((nextOf s)^[i + 1] s.running) ∧
        PassedOver s s' ((nextOf s)^[i + 1] s.running) := by
  obtain ⟨k, hk, hrun', hel, hst, hpass⟩ := scheduler_selects hwf hrun hq h
  refine ⟨k, hk, by rw [Function.iterate_succ_apply]; exact hrun', hel, hst, ?_⟩
  intro i hi
  rw [Function.iterate_succ_apply]
  exact ⟨(hpass i hi).never_eligible, hpass i hi⟩

/-- Take a well-formed ring that holds the running fiber and at least one
`STATE_READY` fiber, in a state in which the scan meets no dangling pointer: the wait list
of each finished fiber of the ring is a proper list of own nodes, and each blocked fiber
of the ring waits for a fiber of the ring that, when it is finished, the scan meets after
the blocked fiber. With fuel for the inner loops (`size + 1`, and more than the length of a
wait list) the scheduler returns with a committed fiber: the loop
`while (nextFiber->status != STATE_READY)` ends within `size + 1` evaluations of its
condition; the blocks it has visited (the values `nextFiber` has taken) are the first
`k + 1` successors of the previous running fiber in ring order, for some `k < size`, so
they are at most `size`; the last of them is the new running fiber, a `STATE_READY` member
of the ring that is left. And for every member of a well-formed ring the predecessor walk
of `pop` ends, within `size` tests, at the member whose `next` is that block. -/
theorem scheduler_terminates (fuel L : Nat) (s : State) (hwf : WellFormed s)
    (hrun : s.running ∈ ringList s)
    (hready : ∃ p ∈ ringList s, statusOf s p = some STATE_READY)
    (hown : OwnFinished s L) (hjo : JoinOrder s) (hfu : s.size + 1 ≤ fuel) (hL : L < fuel) :
    (∃ s' k, scheduler fuel s = Res.ok s' ∧
      (∀ n, s.size + 1 ≤ n →
        schedLoop fuel n (stop_timer s) (nextOf s s.running) = Res.ok s') ∧
      k < s.size ∧
      schedulerVisits fuel s =
        Res.ok (s', (List.range (k + 1)).map (fun i => (nextOf s)^[i + 1] s.running)) ∧
      s'.running = (nextOf s)^[k + 1] s.running ∧
      s'.running ∈ ringList s' ∧ statusOf s' s'.running = some STATE_READY) ∧
    (∀ f ∈ ringList s, ∃ prev, prev ∈ ringList s ∧ nextOf s prev = f ∧
      ∀ m, s.size ≤ m → popWalk m s f s.head = Res.ok prev) := by
  refine ⟨?_, fun f hf => popWalk_member hwf hf⟩
  obtain ⟨s', k, hk, hrun', hvis, hs', hloop⟩ :=
    scheduler_finds hwf hrun hready hown hjo hfu hL
  have hR := scheduler_runner hwf hrun hs'
  exact ⟨s', k, hs', hloop, hk, hvis, hrun', hR.mem, hR.ready⟩

/-- C22. On a well-formed ring `pop`, applied to a `STATE_FINISHED` member, returns (with
`size` units of fuel for its predecessor walk), and it returns `NULL` exactly when it has
emptied the ring, that is when `size` has become 0; when it returns a block, that block is
a member of the ring that is left, which is well formed. Hence a scan of the scheduler that
runs on a well-formed ring, from whatever block it starts, never takes the `exit(-1)`
branch: whenever the scan or the scheduler ends the process, the status is 0. -/
theorem exit_error_unreachable (fuel : Nat) (s : State) (hwf : WellFormed s) :
    (∀ f ff, f ∈ ringList s → s.fiber f = some ff → ff.status = STATE_FINISHED →
      (s.size ≤ fuel → ∃ nx s2, pop fuel s f = Res.ok (nx, s2)) ∧
      ∀ nx s2, pop fuel s f = Res.ok (nx, s2) →
        (nx = 0 ↔ s2.size = 0) ∧ (nx ≠ 0 → WellFormed s2 ∧ nx ∈ ringList s2)) ∧
    (∀ n c code, schedLoop fuel n s c = Res.exit code → code = 0) ∧
    (∀ code, scheduler fuel s = Res.exit code → code = 0) ∧
    scheduler fuel s ≠ Res.exit (-1) := by
  refine ⟨?_, fun n c code h => schedLoop_exit_zero n s c code hwf h,
    fun code h => scheduler_exit_zero hwf h, ?_⟩
  · intro f ff hm hf hfin
    refine ⟨fun hfu => ?_, fun nx s2 hpop => ?_⟩
    · by_cases h2 : 2 ≤ s.size
      · obtain ⟨prev, pf, _, _, _, _, hpop, _⟩ := pop_ring fuel hwf hm hf hfin h2 hfu
        exact ⟨_, _, hpop⟩
      · have hpos := hwf.pos
        obtain ⟨s', hpop, _⟩ := pop_single fuel hwf hm hf hfin (by omega) (by omega)
        exact ⟨_, _, hpop⟩
    · rcases pop_member hwf hm hf hfin hpop with ⟨h2, _, hnx, hwf2, _, hmem, _⟩ | ⟨_, h0, hz⟩
      · refine ⟨⟨fun e => absurd e hnx, fun e => ?_⟩, fun _ => ⟨hwf2, hmem⟩⟩
        have := hwf2.pos
        omega
      · exact ⟨⟨fun _ => hz, fun _ => h0⟩, fun h => absurd h0 h⟩
  · intro h
    have := scheduler_exit_zero hwf h
    omega

theorem exit_error_unreachable_witness :
    WellFormed allExited ∧ ringList allExited = [1, 2, 3] ∧
    (∀ p ∈ ringList allExited, statusOf allExited p = some STATE_FINISHED) ∧
    scheduler 4 allExited = Res.exit 0 ∧
    ((∀ f ff, f ∈ ringList allExited → allExited.fiber f = some ff →
      ff.status = STATE_FINISHED →
      (allExited.size ≤ 4 → ∃ nx s2, pop 4 allExited f = Res.ok (nx, s2)) ∧
      ∀ nx s2, pop 4 allExited f = Res.ok (nx, s2) →
        (nx = 0 ↔ s2.size = 0) ∧ (nx ≠ 0 → WellFormed s2 ∧ nx ∈ ringList s2)) ∧
    (∀ n c code, schedLoop 4 n allExited c = Res.exit code → code = 0) ∧
    (∀ code, scheduler 4 allExited = Res.exit code → code = 0) ∧
    scheduler 4 allExited ≠ Res.exit (-1)) :=
  ⟨⟨by decide, by decide, by decide, by decide, by decide⟩, by decide, by decide, rfl,
    exit_error_unreachable 4 allExited ⟨by decide, by decide, by decide, by decide, by decide⟩⟩

/-- C4. In every state the library reaches (the ring is well formed there and the caller,
the running fiber, is a ready member of it), for every id and with `size` units of fuel for
the predecessor walk, `fiber_destroy(id)` returns 0 or -1, and it returns 0 if and only if
the id is a block of the ring whose status is `STATE_FINISHED`. When it returns 0 the block
is freed and no longer in the ring sequence, which lost exactly that block, and the ring is
still well formed. -/
theorem fiber_destroy_iff (fuel : Nat) (s : State) (id : Nat) (hr : Reachable s)
    (hfuel : s.size ≤ fuel) :
    WellFormed s ∧
    ∃ code s', fiber_destroy fuel s id = Res.ok (code, s') ∧ (code = 0 ∨ code = -1) ∧
      (code = 0 ↔ (id ∈ ringList s ∧ statusOf s id = some STATE_FINISHED)) ∧
      (code = 0 → id ∉ ringList s' ∧ s'.fiber id = none ∧
        ringList s' = (ringList s).erase id ∧ WellFormed s') := by
  have hR := reachable_runner hr
  obtain ⟨code, s', hd, h01, hiff, hgone⟩ := fiber_destroy_result fuel s id hR.wf hfuel
  refine ⟨hR.wf, code, s', hd, h01, ⟨fun h => ⟨(hiff.mp h).1, (hiff.mp h).2.1⟩, fun h => ?_⟩,
    hgone⟩
  refine hiff.mpr ⟨h.1, h.2, ?_⟩
  have hne : id ≠ s.running := by
    intro e
    rw [e, hR.ready] at h
    cases h.2
  rw [← @ringList_length s]
  exact two_le_of_mem h.1 hR.mem hne

theorem fiber_destroy_iff_witness :
    Reachable hostResumed ∧ hostResumed.size ≤ 4 ∧ ringList hostResumed = [1, 2] ∧
    statusOf hostResumed 2 = some STATE_FINISHED ∧
    (∃ s', fiber_destroy 4 hostResumed 2 = Res.ok (0, s') ∧ ringList s' = [1]) ∧
    (WellFormed hostResumed ∧
    ∃ code s', fiber_destroy 4 hostResumed 2 = Res.ok (code, s') ∧ (code = 0 ∨ code = -1) ∧
      (code = 0 ↔ (2 ∈ ringList hostResumed ∧ statusOf hostResumed 2 = some STATE_FINISHED)) ∧
      (code = 0 → 2 ∉ ringList s' ∧ s'.fiber 2 = none ∧
        ringList s' = (ringList hostResumed).erase 2 ∧ WellFormed s')) :=
  ⟨hostResumed_reachable, by decide, by decide, by decide, ⟨_, rfl, by decide⟩,
    fiber_destroy_iff 4 hostResumed 2 hostResumed_reachable (by decide)⟩

/-- C3, evaluated on a run of the library. The word of `waitList` in the block of the host
thread, which `init_fiber_list` never assigns, holds 300. The host thread (block 1) creates
fibers 2, 3 and 4; fiber 2 calls `fiber_join(3, NULL)`; fiber 4 calls `fiber_join(2, NULL)`
and `malloc` places its wait node at 300; the host thread calls `fiber_exit(5)` and the
scheduler switches to fiber 3. In the state reached, `junkAtThree`, fiber 2 is
`STATE_BLOCKED` on fiber 3, which is `STATE_READY`. At the next expiry of the timer the scan
passes over fiber 4 and reaps the block of the host thread: `release_fibers` follows its
`waitList` to the node at 300, which names fiber 2, and makes fiber 2 `STATE_READY`; the
scheduler then commits fiber 2. The join of fiber 2 is resumed, with `join_rval` 0, while
its target is still `STATE_READY`. -/
theorem blocked_joiner_woken_early :
    Reachable junkAtThree ∧ WellFormed junkAtThree ∧ junkAtThree.running = 3 ∧
    ringList junkAtThree = [1, 2, 3, 4] ∧
    (junkAtThree.fiber 1).map (fun f => (f.status, f.waitList)) = some (STATE_FINISHED, 300) ∧
    junkAtThree.wait 300 = some { id := 2, next := 0 } ∧
    (junkAtThree.fiber 2).map (fun f => (f.status, f.joinFiber)) = some (STATE_BLOCKED, 3) ∧
    statusOf junkAtThree 3 = some STATE_READY ∧
    scheduler 5 junkAtThree = Res.ok junkWoken ∧
    junkWoken.running = 2 ∧
    (junkWoken.fiber 2).map (fun f => (f.status, f.joinFiber, f.join_rval))
      = some (STATE_READY, 3, 0) ∧
    statusOf junkWoken 3 = some STATE_READY :=
  ⟨junkAtThree_reachable, ⟨by decide, by decide, by decide, by decide, by decide⟩, rfl,
    by decide, by decide, by decide, by decide, by decide, rfl, rfl, by decide, by decide⟩

/-- C14, evaluated on the run of `junkAtThree` (the `waitList` word of the host thread's
block, never assigned by `init_fiber_list`, holds the address of the wait node of a later
join). The running fiber is 3 and the ring is 1, 2, 3, 4. In ring order from the successor
of the running fiber: fiber 4 is blocked on fiber 2, which has not finished; block 1 is
finished; fiber 2 is blocked on fiber 3, which has not finished; fiber 3 is ready. The
first fiber that is ready or blocked on a finished target is fiber 3, yet the scheduler
commits fiber 2: reaping block 1 released a list that names fiber 2. -/
theorem scheduler_selects_ineligible :
    Reachable junkAtThree ∧ WellFormed junkAtThree ∧ junkAtThree.running = 3 ∧
    (nextOf junkAtThree)^[1] junkAtThree.running = 4 ∧
    (nextOf junkAtThree)^[2] junkAtThree.running = 1 ∧
    (nextOf junkAtThree)^[3] junkAtThree.running = 2 ∧
    (nextOf junkAtThree)^[4] junkAtThree.running = 3 ∧
    Stuck junkAtThree 4 ∧ statusOf junkAtThree 1 = some STATE_FINISHED ∧
    Stuck junkAtThree 2 ∧ ¬ Eligible junkAtThree 2 ∧ Eligible junkAtThree 3 ∧
    scheduler 5 junkAtThree = Res.ok junkWoken ∧ junkWoken.running = 2 ∧
    ringList junkWoken = [2, 3, 4] :=
  have h2 : Stuck junkAtThree 2 := ⟨_, _, rfl, rfl, rfl, by decide⟩
  ⟨junkAtThree_reachable, ⟨by decide, by decide, by decide, by decide, by decide⟩, rfl,
    by decide, by decide, by decide, by decide, ⟨_, _, rfl, rfl, rfl, by decide⟩, by decide,
    h2, h2.not_eligible, ⟨_, rfl, Or.inl rfl⟩, rfl, rfl, by decide⟩

/-- C10, evaluated on a run of the library. Fiber 3 called `fiber_exit(42)`
(`fiberThreeExited`); the scheduler woke the host thread, which was joined on it, and the
host thread, resumed, called `fiber_join(3, NULL)` once more: the fast path freed the wait
node at 300 and left `waitList` of fiber 3 pointing to it (`joinedAgain`). The timer expired
and the scheduler switched to fiber 2 (`rejoinTwoRuns`); fiber 3 is still a finished member
of the ring and no scan has visited it. The next scan starts at fiber 3: it is the first
one that visits it, and it does not remove it from the ring: `release_fibers` reads the
freed node (a fault), whatever the fuel. -/
theorem finished_fiber_not_removed :
    fiberThreeRuns.running = 3 ∧ fiber_exit fiberThreeRuns 42 = Res.ok fiberThreeExited ∧
    statusOf fiberThreeExited 3 = some STATE_FINISHED ∧
    Reachable joinedAgain ∧ Reachable rejoinTwoRuns ∧
    scheduler 4 joinedAgain = Res.ok rejoinTwoRuns ∧
    WellFormed rejoinTwoRuns ∧ rejoinTwoRuns.running = 2 ∧
    ringList rejoinTwoRuns = [1, 2, 3] ∧ nextOf rejoinTwoRuns rejoinTwoRuns.running = 3 ∧
    (rejoinTwoRuns.fiber 3).map (fun f => (f.status, f.retval, f.waitList))
      = some (STATE_FINISHED, 42, 300) ∧
    rejoinTwoRuns.waits 300 = Slot.freed ∧
    ∀ fuel, scheduler (fuel + 1) rejoinTwoRuns = Res.fault :=
  ⟨rfl, rfl, by decide, joinedAgain_reachable, rejoinTwoRuns_reachable, rfl,
    ⟨by decide, by decide, by decide, by decide, by decide⟩, rfl, by decide, by decide,
    by decide, by decide, fun _ => rfl⟩

/-- C11, evaluated on a run of the library. After `joinedAgain` (the fast path of
`fiber_join` freed the wait node at 300 and left `waitList` of the finished fiber 3 pointing
to it) the host thread called `fiber_exit(7)` and the scheduler switched to fiber 2
(`rejoinTwoLast`); fiber 2 calls `fiber_exit(8)`. The scheduler is entered on a well-formed
ring whose blocks 1, 2, 3 are all `STATE_FINISHED`, and it does not end the process with
status 0: its scan starts at fiber 3 and `release_fibers` reads the freed node (a fault),
whatever the fuel. -/
theorem all_finished_scheduler_faults :
    Reachable rejoinTwoLast ∧ rejoinTwoLast.running = 2 ∧
    fiber_exit rejoinTwoLast 8 = Res.ok rejoinAllExited ∧
    WellFormed rejoinAllExited ∧ rejoinAllExited.running ∈ ringList rejoinAllExited ∧
    ringList rejoinAllExited = [1, 2, 3] ∧
    statusOf rejoinAllExited 1 = some STATE_FINISHED ∧
    statusOf rejoinAllExited 2 = some STATE_FINISHED ∧
    (rejoinAllExited.fiber 3).map (fun f => (f.status, f.waitList))
      = some (STATE_FINISHED, 300) ∧
    rejoinAllExited.waits 300 = Slot.freed ∧
    scheduler 0 rejoinAllExited = Res.diverge ∧
    ∀ fuel, scheduler (fuel + 1) rejoinAllExited = Res.fault :=
  ⟨rejoinTwoLast_reachable, rfl, rfl, ⟨by decide, by decide, by decide, by decide, by decide⟩,
    by decide, by decide, by decide, by decide, by decide, by decide, rfl, fun _ => rfl⟩

/-- C21, evaluated on two runs of the library. In `targetDestroyed` (fiber 3 called
`fiber_destroy(2)` while the host thread was blocked on fiber 2) and in `rejoinTwoRuns`
(the fast path of `fiber_join` left `waitList` of the finished fiber 3 pointing to a freed
node) the ring is well formed and holds the running fiber, which is `STATE_READY`. In
neither state does the scan of the scheduler end with a committed fiber: in the first it
reads the freed block of fiber 2 through `joinFiber` of the host thread, in the second
`release_fibers` reads the freed wait node (a fault), whatever the fuel. -/
theorem scheduler_faults_on_ready_ring :
    Reachable targetDestroyed ∧ WellFormed targetDestroyed ∧
    ringList targetDestroyed = [1, 3] ∧ targetDestroyed.running = 3 ∧
    statusOf targetDestroyed 3 = some STATE_READY ∧
    (targetDestroyed.fiber 1).map (fun f => (f.status, f.joinFiber))
      = some (STATE_BLOCKED, 2) ∧
    targetDestroyed.fibers 2 = Slot.freed ∧
    (∀ fuel, scheduler (fuel + 1) targetDestroyed = Res.fault) ∧
    Reachable rejoinTwoRuns ∧ WellFormed rejoinTwoRuns ∧
    ringList rejoinTwoRuns = [1, 2, 3] ∧ rejoinTwoRuns.running = 2 ∧
    statusOf rejoinTwoRuns 2 = some STATE_READY ∧
    statusOf rejoinTwoRuns 1 = some STATE_READY ∧
    (∀ fuel, scheduler (fuel + 1) rejoinTwoRuns = Res.fault) :=
  ⟨targetDestroyed_reachable, ⟨by decide, by decide, by decide, by decide, by decide⟩,
    by decide, rfl, by decide, by decide, by decide, fun _ => rfl,
    rejoinTwoRuns_reachable, ⟨by decide, by decide, by decide, by decide, by decide⟩,
    by decide, rfl, by decide, by decide, fun _ => rfl⟩

end FiberLib
